import Mathlib

/-!
# SimpleTextEditor (src/Editor.cpp)

A shallow embedding of the text-editing core of `SimpleTextEditor`: the buffer,
the cursor and selection offsets, the undo/redo stacks and the soft-wrap line
table, followed by theorems about them.

Conventions of the embedding

* A buffer (`std::string`) is a list of characters, one list element per C++
  `char`; an offset is an index into that list.
* `size_t` values are natural numbers.  A subtraction that the code does not guard
  by a comparison, and an addition one of whose operands may be a wrapped value,
  is reduced modulo `2 ^ 64` (`sizeSub`, `sizeAdd`); a guarded subtraction is the
  truncated one of the natural numbers, and additions of offsets that lie inside a
  buffer are not reduced (a buffer is shorter than `2 ^ 64` characters).
* Code that can throw (`std::string::insert`, `erase`, `substr` with a position
  past the end) or whose behaviour is undefined (indexing past the end, `pop()`
  of an empty stack) returns a `Fault` in the `Except` monad.
* Rendering state (pixel positions, scroll offsets, blink timers) is not part of
  the embedding: it is computed from the modelled state and never read back by
  the editing code.
-/

namespace SimpleTextEditor

/-! ## Faults, machine integers and `std::string` primitives -/

/-- The ways in which an operation of the editor can fail to return normally. -/
inductive Fault
  /-- A `std::out_of_range` exception (`insert`, `erase`, `substr` with `pos > size()`). -/
  | outOfRange
  /-- Undefined behaviour: an index past the end, or `pop()`/`top()` of an empty stack. -/
  | undefinedBehaviour
  /-- The iteration budget of a modelled loop was exhausted. -/
  | outOfFuel
deriving DecidableEq, Repr

deriving instance DecidableEq for Except

/-- Result of a fallible operation. -/
abbrev Res (α : Type) := Except Fault α

/-- A buffer: the characters of a `std::string`. -/
abbrev Text := List Char

/-- The modulus of `size_t` arithmetic. -/
def SIZE_MODULUS : Nat := 2 ^ 64

/-- The `size_t` difference `a - b` of two values below `SIZE_MODULUS`. -/
def sizeSub (a b : Nat) : Nat := (a + SIZE_MODULUS - b) % SIZE_MODULUS

/-- The `size_t` sum `a + b`. -/
def sizeAdd (a b : Nat) : Nat := (a + b) % SIZE_MODULUS

/-- The call `text.insert(pos, s)`. -/
def strInsert (t : Text) (pos : Nat) (s : Text) : Res Text :=
  if pos ≤ t.length then .ok (t.take pos ++ s ++ t.drop pos) else .error .outOfRange

/-- The call `text.erase(pos, n)`: removes `min(n, size() - pos)` characters. -/
def strErase (t : Text) (pos n : Nat) : Res Text :=
  if pos ≤ t.length then .ok (t.take pos ++ t.drop (pos + min n (t.length - pos)))
  else .error .outOfRange

/-- The constant `std::string::npos`. -/
def npos : Nat := SIZE_MODULUS - 1

/-- The call `text.substr(pos, n)`. -/
def strSubstr (t : Text) (pos n : Nat) : Res Text :=
  if pos ≤ t.length then .ok ((t.drop pos).take n) else .error .outOfRange

/-- The expression `text[i]`: the terminating NUL at `i = size()`, undefined past it. -/
def strAt (t : Text) (i : Nat) : Res Char :=
  match t[i]? with
  | some c => .ok c
  | none => if i = t.length then .ok (Char.ofNat 0) else .error .undefinedBehaviour

/-! ## Wrap engine -/

/-- The record `WrappedLine`. -/
structure WrappedLine where
  startPos : Nat
  text : Text
  logicalLineIndex : Nat
  logicalLineStartPos : Nat
deriving DecidableEq, Repr

/-- Font and layout inputs of `wrapText`: `widthOf c` is
`measureTextWidth(std::string(1, c))` and `availableWidth` is
`editorWidth - lineNumberWidth - 20.0f`, in exact arithmetic over `W`. -/
structure Metrics (W : Type) where
  widthOf : Char → W
  availableWidth : W

section Wrap

variable {W : Type} [Zero W] [Add W] [LT W] [DecidableRel (fun (a b : W) => a < b)]

/-- The inner accumulation loop of `wrapText`
(`while (textPos < length && text[textPos] != '\n')`), run on the characters
`text[textPos ..]`; returns the final `(textPos, lineLength)`. -/
def wrapInner (m : Metrics W) : List Char → Nat → W → Nat → Nat × Nat
  | [], textPos, _, lineLength => (textPos, lineLength)
  | c :: cs, textPos, width, lineLength =>
    if c = '\n' then (textPos, lineLength)
    else if m.availableWidth < width + m.widthOf c ∧ 0 < lineLength then
      (textPos, lineLength)
    else wrapInner m cs (textPos + 1) (width + m.widthOf c) (lineLength + 1)

/-- The outer loop of `wrapText` (`while (textPos < length)`), with an iteration
budget: `outOfFuel` is returned when the budget ends before the loop does. -/
def wrapLoop (m : Metrics W) (text : Text) :
    Nat → Nat → Nat → Nat → List WrappedLine → Res (List WrappedLine)
  | 0, textPos, _, _, wrappedLines =>
    if textPos < text.length then .error .outOfFuel else .ok wrappedLines
  | fuel + 1, textPos, logicalLineIndex, logicalLineStartPos, wrappedLines =>
    if textPos < text.length then
      if text[textPos]? = some '\n' then
        wrapLoop m text fuel (textPos + 1) (logicalLineIndex + 1) (textPos + 1)
          (wrappedLines ++ [{ startPos := textPos, text := [],
                              logicalLineIndex := logicalLineIndex,
                              logicalLineStartPos := logicalLineStartPos }])
      else
        let lineStartPos := textPos
        let r := wrapInner m (text.drop textPos) textPos 0 0
        match strSubstr text lineStartPos r.2 with
        | .error f => .error f
        | .ok lineText =>
          let wrappedLines1 :=
            wrappedLines ++ [{ startPos := lineStartPos, text := lineText,
                               logicalLineIndex := logicalLineIndex,
                               logicalLineStartPos := logicalLineStartPos }]
          if r.1 < text.length ∧ text[r.1]? = some '\n' then
            wrapLoop m text fuel (r.1 + 1) (logicalLineIndex + 1) (r.1 + 1) wrappedLines1
          else
            wrapLoop m text fuel r.1 logicalLineIndex logicalLineStartPos wrappedLines1
    else .ok wrappedLines

/-- The function `SimpleTextEditor::wrapText`.  Every iteration of the outer loop
advances `textPos`, so `text.length` iterations are enough (`wrapText_tiles`). -/
def wrapText (m : Metrics W) (text : Text) : Res (List WrappedLine) :=
  wrapLoop m text text.length 0 0 0 []

end Wrap

/-- Whether the scan of `wrapText` consumed a newline right after line `l`: it
does so exactly when the character following the line's text is a newline. -/
def newlineAfter (text : Text) (l : WrappedLine) : Bool :=
  decide (text[l.startPos + l.text.length]? = some '\n')

/-- The text of a line followed by the newline consumed after it, if any. -/
def lineWithNewline (text : Text) (l : WrappedLine) : Text :=
  l.text ++ (if newlineAfter text l then ['\n'] else [])

/-- Walks the lines in order, concatenating each line's text and the newline
consumed after it. -/
def reassemble (text : Text) (lines : List WrappedLine) : Text :=
  (lines.map (lineWithNewline text)).flatten


/-- The lines `lines` tile the buffer from offset `pos` to its end: each line
starts where the previous one (and the newline consumed after it) ended, holds
the characters of the buffer at its offsets, none of them a newline, and is
empty only at a newline. -/
def Tiles (text : Text) : Nat → List WrappedLine → Prop
  | pos, [] => text.length ≤ pos
  | pos, l :: ls =>
    l.startPos = pos ∧ pos < text.length ∧
    l.text = (text.drop pos).take l.text.length ∧
    pos + l.text.length ≤ text.length ∧
    (∀ c ∈ l.text, c ≠ '\n') ∧
    (l.text = [] → text[pos]? = some '\n') ∧
    Tiles text (pos + l.text.length + (if newlineAfter text l then 1 else 0)) ls

/-! ## Position mapper -/

/-- The expression `lines[i]` on the `std::vector<WrappedLine>`. -/
def vecAt (lines : List WrappedLine) (i : Nat) : Res WrappedLine :=
  match lines[i]? with
  | some l => .ok l
  | none => .error .undefinedBehaviour

/-- The loop of `getLineIndexAtPosition`, from index `i` on the lines `lines[i ..]`:
the index of the first line whose inclusive range holds `position`. -/
def getLineIndexLoop (position : Nat) : List WrappedLine → Nat → Option Nat
  | [], _ => none
  | l :: ls, i =>
    if l.startPos ≤ position ∧ position ≤ l.startPos + l.text.length then some i
    else getLineIndexLoop position ls (i + 1)

/-- The function `SimpleTextEditor::getLineIndexAtPosition`; the fall-through
value `lines.size() - 1` is computed in `size_t`. -/
def getLineIndexAtPosition (position : Nat) (lines : List WrappedLine) : Nat :=
  match getLineIndexLoop position lines 0 with
  | some i => i
  | none => sizeSub lines.length 1

/-- The function `SimpleTextEditor::getLineStartPosition`. -/
def getLineStartPosition (lineIndex : Nat) (lines : List WrappedLine) : Res Nat :=
  match vecAt lines lineIndex with
  | .error f => .error f
  | .ok l => .ok l.startPos

/-! ## Editor state and history manager -/

/-- The record `SyntaxToken` produced by the external tokenizer. -/
structure SyntaxToken where
  startPos : Nat
  text : Text
  type : Nat
deriving DecidableEq, Repr

/-- The members of `SimpleTextEditor` read or written by the editing code.  A
`std::stack` is a list with its top at the head. -/
structure EditorState where
  text : Text
  cursorPosition : Nat
  selectionStart : Nat
  selectionEnd : Nat
  undoStack : List Text
  redoStack : List Text
  textChanged : Bool
  tokens : List SyntaxToken
deriving DecidableEq, Repr

/-- The state left by the constructor: buffer `" "`, cursor 0, empty selection,
empty history. -/
def initialState : EditorState :=
  { text := [' '], cursorPosition := 0, selectionStart := 0, selectionEnd := 0,
    undoStack := [], redoStack := [], textChanged := true, tokens := [] }

/-- The call `stack.pop()`; undefined on an empty stack. -/
def stackPop : List Text → Res (List Text)
  | [] => .error .undefinedBehaviour
  | _ :: s => .ok s

/-- First loop of `pushUndoState`:
`while (undoStack.size() > 1) { tempStack.push(undoStack.top()); undoStack.pop(); }`;
returns `(undoStack, tempStack)`. -/
def moveToTemp : List Text → List Text → List Text × List Text
  | a :: b :: rest, tempStack => moveToTemp (b :: rest) (a :: tempStack)
  | undoStack, tempStack => (undoStack, tempStack)

/-- Second loop of `pushUndoState`:
`while (!tempStack.empty()) { undoStack.push(tempStack.top()); tempStack.pop(); }`. -/
def moveBack : List Text → List Text → List Text
  | [], undoStack => undoStack
  | a :: tempStack, undoStack => moveBack tempStack (a :: undoStack)

/-- The loop `while (!redoStack.empty()) redoStack.pop();`. -/
def clearStack : List Text → List Text
  | [] => []
  | _ :: s => clearStack s

/-- The function `SimpleTextEditor::pushUndoState`; `MAX_STACK_SIZE` is the
constant of `Editor.h`. -/
def pushUndoState (MAX_STACK_SIZE : Nat) (st : EditorState) : Res EditorState :=
  let evicted : Res (List Text) :=
    if MAX_STACK_SIZE ≤ st.undoStack.length then
      let r := moveToTemp st.undoStack []
      match stackPop r.1 with
      | .error f => .error f
      | .ok u => .ok (moveBack r.2 u)
    else .ok st.undoStack
  match evicted with
  | .error f => .error f
  | .ok u => .ok { st with undoStack := st.text :: u, redoStack := clearStack st.redoStack }

/-- The function `SimpleTextEditor::resetSelection`. -/
def resetSelection (st : EditorState) : EditorState :=
  { st with selectionStart := st.cursorPosition, selectionEnd := st.cursorPosition }

/-- The function `SimpleTextEditor::hasSelection`. -/
def hasSelection (st : EditorState) : Bool :=
  decide (st.selectionStart ≠ st.selectionEnd)

/-- The function `SimpleTextEditor::undo`; `text.length() - 1` is a `size_t`
difference. -/
def undo (st : EditorState) : EditorState :=
  match st.undoStack with
  | [] => st
  | top :: rest =>
    let st1 := { st with redoStack := st.text :: st.redoStack, text := top, undoStack := rest }
    let st2 := { st1 with
      cursorPosition := min st1.cursorPosition (sizeSub st1.text.length 1) }
    { resetSelection st2 with textChanged := true }

/-- The function `SimpleTextEditor::redo`. -/
def redo (st : EditorState) : EditorState :=
  match st.redoStack with
  | [] => st
  | top :: rest =>
    let st1 := { st with undoStack := st.text :: st.undoStack, text := top, redoStack := rest }
    let st2 := { st1 with
      cursorPosition := min st1.cursorPosition (sizeSub st1.text.length 1) }
    { resetSelection st2 with textChanged := true }

/-- The token recomputation of `SimpleTextEditor::render`, with `tokenize` the
external tokenizer; the rest of the function lays out and draws the buffer and only
reads these members. -/
def render (tokenize : Text → List SyntaxToken) (st : EditorState) : EditorState :=
  if st.textChanged then { st with tokens := tokenize st.text, textChanged := false }
  else st

/-! ## Edit / selection engine -/

/-- The function `SimpleTextEditor::deleteSelection`. -/
def deleteSelection (st : EditorState) : Res EditorState :=
  let start := min st.selectionStart st.selectionEnd
  let end_ := max st.selectionStart st.selectionEnd
  match strErase st.text start (end_ - start) with
  | .error f => .error f
  | .ok t => .ok (resetSelection { st with text := t, cursorPosition := start })

/-- The function `SimpleTextEditor::copySelectedText`; returns the text handed to
the clipboard, if any. -/
def copySelectedText (st : EditorState) : Res (Option Text) :=
  if hasSelection st then
    let start := min st.selectionStart st.selectionEnd
    let end_ := max st.selectionStart st.selectionEnd
    match strSubstr st.text start (end_ - start) with
    | .error f => .error f
    | .ok t => .ok (some t)
  else .ok none

/-- The `SDL_EVENT_TEXT_INPUT` branch of `handleInput`, with `s` the characters of
`event.text.text` (so `SDL_strlen` is `s.length`). -/
def textInput (MAX_STACK_SIZE : Nat) (s : Text) (st : EditorState) : Res EditorState := do
  let st1 ← pushUndoState MAX_STACK_SIZE st
  let st2 ← if hasSelection st1 then deleteSelection st1 else .ok st1
  let t ← strInsert st2.text st2.cursorPosition s
  .ok (resetSelection { st2 with text := t, cursorPosition := st2.cursorPosition + s.length })

/-- The `SDLK_RETURN` / `SDLK_KP_ENTER` case of `handleInput`. -/
def keyReturn (MAX_STACK_SIZE : Nat) (st : EditorState) : Res EditorState := do
  let st1 ← pushUndoState MAX_STACK_SIZE st
  let st2 ← if hasSelection st1 then deleteSelection st1 else .ok st1
  let t ← strInsert st2.text st2.cursorPosition ['\n']
  .ok (resetSelection { st2 with text := t, cursorPosition := st2.cursorPosition + 1 })

/-- The `SDLK_BACKSPACE` case of `handleInput`. -/
def keyBackspace (MAX_STACK_SIZE : Nat) (st : EditorState) : Res EditorState := do
  let st1 ←
    if hasSelection st then do
      let st0 ← pushUndoState MAX_STACK_SIZE st
      deleteSelection st0
    else if 0 < st.cursorPosition then do
      let st0 ← pushUndoState MAX_STACK_SIZE st
      let t ← strErase st0.text (st0.cursorPosition - 1) 1
      .ok { st0 with text := t, cursorPosition := st0.cursorPosition - 1 }
    else .ok st
  .ok (resetSelection st1)

/-- The `SDLK_DELETE` case of `handleInput`. -/
def keyDelete (MAX_STACK_SIZE : Nat) (st : EditorState) : Res EditorState := do
  let st1 ←
    if hasSelection st then do
      let st0 ← pushUndoState MAX_STACK_SIZE st
      deleteSelection st0
    else if st.cursorPosition < st.text.length then do
      let st0 ← pushUndoState MAX_STACK_SIZE st
      let t ← strErase st0.text st0.cursorPosition 1
      .ok { st0 with text := t }
    else .ok st
  .ok (resetSelection st1)

/-- The function `SimpleTextEditor::cutSelectedText`. -/
def cutSelectedText (MAX_STACK_SIZE : Nat) (st : EditorState) : Res EditorState :=
  if hasSelection st then do
    let st1 ← pushUndoState MAX_STACK_SIZE st
    let _ ← copySelectedText st1
    deleteSelection st1
  else .ok st

/-- The function `SimpleTextEditor::pasteText`; `clipboard` is the clipboard text
when `SDL_HasClipboardText()` holds and `SDL_GetClipboardText()` is not null. -/
def pasteText (MAX_STACK_SIZE : Nat) (clipboard : Option Text) (st : EditorState) :
    Res EditorState :=
  match clipboard with
  | none => .ok st
  | some clipboardText => do
    let st1 ← pushUndoState MAX_STACK_SIZE st
    let st2 ← if hasSelection st1 then deleteSelection st1 else .ok st1
    let t ← strInsert st2.text st2.cursorPosition clipboardText
    .ok (resetSelection
      { st2 with text := t, cursorPosition := st2.cursorPosition + clipboardText.length })

/-- The function `SimpleTextEditor::updateSelection`. -/
def updateSelection (shiftPressed : Bool) (oldCursorPosition : Nat) (st : EditorState) :
    EditorState :=
  if shiftPressed then
    let st1 := if hasSelection st then st else { st with selectionStart := oldCursorPosition }
    { st1 with selectionEnd := st1.cursorPosition }
  else resetSelection st

/-- The function `SimpleTextEditor::moveCursorLeft`. -/
def moveCursorLeft (shiftPressed : Bool) (st : EditorState) : EditorState :=
  let oldCursorPosition := st.cursorPosition
  let st1 := if 0 < st.cursorPosition then { st with cursorPosition := st.cursorPosition - 1 }
    else st
  updateSelection shiftPressed oldCursorPosition st1

/-- The function `SimpleTextEditor::moveCursorRight`. -/
def moveCursorRight (shiftPressed : Bool) (st : EditorState) : EditorState :=
  let oldCursorPosition := st.cursorPosition
  let st1 := if st.cursorPosition < st.text.length then
      { st with cursorPosition := st.cursorPosition + 1 }
    else st
  updateSelection shiftPressed oldCursorPosition st1

/-- The function `SimpleTextEditor::jumpToTop`. -/
def jumpToTop (st : EditorState) : EditorState :=
  resetSelection { st with cursorPosition := 0 }

/-- The function `SimpleTextEditor::jumpToBottom`. -/
def jumpToBottom (st : EditorState) : EditorState :=
  resetSelection { st with cursorPosition := st.text.length }

/-- The function `SimpleTextEditor::handleCommandPaletteSelection`; the scroll
computation after the cursor update only reads the state. -/
def handleCommandPaletteSelection (position : Nat) (st : EditorState) : EditorState :=
  resetSelection { st with cursorPosition := position }

/-- The function `SimpleTextEditor::loadTextFromFile`, with `file` the content read
when the file could be opened. -/
def loadTextFromFile (file : Option Text) (st : EditorState) : EditorState :=
  match file with
  | some content =>
    { resetSelection { st with text := content, cursorPosition := 0 } with textChanged := true }
  | none => st

/-- The function `SimpleTextEditor::formatCodeWithClangFormat`, with `formatted`
the formatter's output when the language is supported, the command succeeded and
its output file could be read. -/
def formatCodeWithClangFormat (MAX_STACK_SIZE : Nat) (formatted : Option Text)
    (st : EditorState) : Res EditorState :=
  match formatted with
  | none => .ok st
  | some buffer => do
    let st1 ← pushUndoState MAX_STACK_SIZE st
    .ok (resetSelection { st1 with text := buffer })

section Navigation

variable {W : Type} [Zero W] [Add W] [LT W] [DecidableRel (fun (a b : W) => a < b)]

/-- The function `SimpleTextEditor::moveCursorUp`. -/
def moveCursorUp (m : Metrics W) (shiftPressed : Bool) (st : EditorState) : Res EditorState := do
  let oldCursorPosition := st.cursorPosition
  let lines ← wrapText m st.text
  let lineIndex := getLineIndexAtPosition st.cursorPosition lines
  if lineIndex = 0 then .ok st
  else do
    let prevLineStartPos ← getLineStartPosition (lineIndex - 1) lines
    let prevLine ← vecAt lines (lineIndex - 1)
    let prevLineLength := prevLine.text.length
    let lineStart ← getLineStartPosition lineIndex lines
    let cursorInLine := sizeSub st.cursorPosition lineStart
    .ok (updateSelection shiftPressed oldCursorPosition
      { st with cursorPosition := prevLineStartPos + min prevLineLength cursorInLine })

/-- The function `SimpleTextEditor::moveCursorDown`; `lines.size() - 1` is a
`size_t` difference. -/
def moveCursorDown (m : Metrics W) (shiftPressed : Bool) (st : EditorState) :
    Res EditorState := do
  let oldCursorPosition := st.cursorPosition
  let lines ← wrapText m st.text
  let lineIndex := getLineIndexAtPosition st.cursorPosition lines
  if sizeSub lines.length 1 ≤ lineIndex then .ok st
  else do
    let nextLineStartPos ← getLineStartPosition (lineIndex + 1) lines
    let nextLine ← vecAt lines (lineIndex + 1)
    let nextLineLength := nextLine.text.length
    let lineStart ← getLineStartPosition lineIndex lines
    let cursorInLine := sizeSub st.cursorPosition lineStart
    .ok (updateSelection shiftPressed oldCursorPosition
      { st with cursorPosition := nextLineStartPos + min nextLineLength cursorInLine })

/-- The function `SimpleTextEditor::moveCursorToLineStart`. -/
def moveCursorToLineStart (m : Metrics W) (shiftPressed : Bool) (st : EditorState) :
    Res EditorState := do
  let oldCursorPosition := st.cursorPosition
  let lines ← wrapText m st.text
  let lineIndex := getLineIndexAtPosition st.cursorPosition lines
  let lineStart ← getLineStartPosition lineIndex lines
  .ok (updateSelection shiftPressed oldCursorPosition { st with cursorPosition := lineStart })

/-- The function `SimpleTextEditor::moveCursorToLineEnd`. -/
def moveCursorToLineEnd (m : Metrics W) (shiftPressed : Bool) (st : EditorState) :
    Res EditorState := do
  let oldCursorPosition := st.cursorPosition
  let lines ← wrapText m st.text
  let lineIndex := getLineIndexAtPosition st.cursorPosition lines
  let lineStart ← getLineStartPosition lineIndex lines
  let line ← vecAt lines lineIndex
  .ok (updateSelection shiftPressed oldCursorPosition
    { st with cursorPosition := lineStart + line.text.length })

/-- The function `SimpleTextEditor::jumpToMiddleOfLine`. -/
def jumpToMiddleOfLine (m : Metrics W) (st : EditorState) : Res EditorState := do
  let lines ← wrapText m st.text
  let currentLineIndex := getLineIndexAtPosition st.cursorPosition lines
  let currentLine ← vecAt lines currentLineIndex
  let lineStart := currentLine.startPos
  let lineLength := currentLine.text.length
  .ok (resetSelection { st with cursorPosition := lineStart + lineLength / 2 })

end Navigation

/-- The constant `space_size` of `insertTab` and `removeTab`. -/
def space_size : Nat := 2

/-- The loop `while (spaces < space_size && text[lineStart + spaces] == ' ') spaces++`
of `insertTab`, with `n` the iterations left before `spaces` reaches `space_size`. -/
def countSpacesAt (text : Text) (lineStart : Nat) : Nat → Nat → Res Nat
  | 0, spaces => .ok spaces
  | n + 1, spaces =>
    match strAt text (sizeAdd lineStart spaces) with
    | .error f => .error f
    | .ok c => if c = ' ' then countSpacesAt text lineStart n (spaces + 1) else .ok spaces

/-- The loop `for (i = startLine; i <= endLine; ++i)` of `insertTab`, with `n` the
number of iterations left; returns the buffer and `offset`. -/
def insertTabLoop (lines : List WrappedLine) (unindent : Bool) :
    Nat → Nat → Text → Nat → Res (Text × Nat)
  | 0, _, text, offset => .ok (text, offset)
  | n + 1, i, text, offset => do
    let line ← vecAt lines i
    let lineStart := sizeAdd line.startPos offset
    if unindent then do
      let spaces ← countSpacesAt text lineStart space_size 0
      if 0 < spaces then do
        let t ← strErase text lineStart spaces
        insertTabLoop lines unindent n (i + 1) t (sizeSub offset spaces)
      else insertTabLoop lines unindent n (i + 1) text offset
    else do
      let t ← strInsert text lineStart (List.replicate space_size ' ')
      insertTabLoop lines unindent n (i + 1) t (sizeAdd offset space_size)

/-- The loop `for (j = 0; j < space_size && lineStart + j < text.length(); ++j)` of
the selection branch of `removeTab`, with `n` the iterations left before `j`
reaches `space_size`; returns `spacesToRemove`. -/
def countSpacesBounded (text : Text) (lineStart : Nat) : Nat → Nat → Nat
  | 0, j => j
  | n + 1, j =>
    if sizeAdd lineStart j < text.length then
      if text[sizeAdd lineStart j]? = some ' ' then countSpacesBounded text lineStart n (j + 1)
      else j
    else j

/-- The loop `for (i = startLine; i <= endLine; ++i)` of `removeTab`, with `n` the
number of iterations left; returns the buffer and `totalRemoved`. -/
def removeTabLoop (lines : List WrappedLine) : Nat → Nat → Text → Nat → Res (Text × Nat)
  | 0, _, text, totalRemoved => .ok (text, totalRemoved)
  | n + 1, i, text, totalRemoved => do
    let line ← vecAt lines i
    let lineStart := sizeSub line.startPos totalRemoved
    let spacesToRemove := countSpacesBounded text lineStart space_size 0
    if 0 < spacesToRemove then do
      let t ← strErase text lineStart spacesToRemove
      removeTabLoop lines n (i + 1) t (sizeAdd totalRemoved spacesToRemove)
    else removeTabLoop lines n (i + 1) text totalRemoved

/-- The search of `text.rfind(c, pos)` downwards from index `i`. -/
def rfindFrom (t : Text) (c : Char) : Nat → Option Nat
  | 0 => if t[0]? = some c then some 0 else none
  | i + 1 => if t[i + 1]? = some c then some (i + 1) else rfindFrom t c i

/-- The call `text.rfind(c, pos)`: the last index `≤ pos` holding `c`; `none` is
`std::string::npos`. -/
def strRfind (t : Text) (c : Char) (pos : Nat) : Option Nat :=
  if t.length = 0 then none else rfindFrom t c (min pos (t.length - 1))

/-- The loop `for (i = 0; i < spacesToRemove; ++i)` of the no-selection branch of
`removeTab`, with `n` the iterations left; returns `actualSpaces`. -/
def countActualSpaces (text : Text) (lineStart : Nat) : Nat → Nat → Res Nat
  | 0, i => .ok i
  | n + 1, i =>
    match strAt text (sizeAdd lineStart i) with
    | .error f => .error f
    | .ok c => if c = ' ' then countActualSpaces text lineStart n (i + 1) else .ok i

section Indent

variable {W : Type} [Zero W] [Add W] [LT W] [DecidableRel (fun (a b : W) => a < b)]

/-- The function `SimpleTextEditor::insertTab`. -/
def insertTab (m : Metrics W) (unindent : Bool) (st : EditorState) : Res EditorState :=
  if st.selectionStart = st.selectionEnd then
    if unindent then .ok st
    else do
      let t ← strInsert st.text st.cursorPosition (List.replicate space_size ' ')
      .ok { st with text := t, cursorPosition := st.cursorPosition + space_size }
  else do
    let start := min st.selectionStart st.selectionEnd
    let end_ := max st.selectionStart st.selectionEnd
    let lines ← wrapText m st.text
    let startLine := getLineIndexAtPosition start lines
    let endLine := getLineIndexAtPosition end_ lines
    let r ← insertTabLoop lines unindent (endLine + 1 - startLine) startLine st.text 0
    let offset := r.2
    let same := if startLine = endLine then space_size else 0
    let st1 :=
      if st.selectionStart < st.selectionEnd then
        { st with text := r.1, selectionStart := sizeAdd st.selectionStart same,
                  selectionEnd := sizeAdd st.selectionEnd offset }
      else
        { st with text := r.1, selectionEnd := sizeAdd st.selectionEnd same,
                  selectionStart := sizeAdd st.selectionStart offset }
    .ok { st1 with cursorPosition := st1.selectionEnd }

/-- The function `SimpleTextEditor::removeTab`. -/
def removeTab (m : Metrics W) (st : EditorState) : Res EditorState :=
  if st.selectionStart = st.selectionEnd then do
    let lineStart :=
      match strRfind st.text '\n' st.cursorPosition with
      | none => 0
      | some p => p + 1
    let spacesToRemove := min (sizeSub st.cursorPosition lineStart) space_size
    let actualSpaces ← countActualSpaces st.text lineStart spacesToRemove 0
    if 0 < actualSpaces then do
      let t ← strErase st.text lineStart actualSpaces
      .ok { st with text := t, cursorPosition := sizeSub st.cursorPosition actualSpaces }
    else .ok st
  else do
    let start := min st.selectionStart st.selectionEnd
    let end_ := max st.selectionStart st.selectionEnd
    let lines ← wrapText m st.text
    let startLine := getLineIndexAtPosition start lines
    let endLine := getLineIndexAtPosition end_ lines
    let r ← removeTabLoop lines (endLine + 1 - startLine) startLine st.text 0
    let totalRemoved := r.2
    let st1 :=
      if st.selectionStart < st.selectionEnd then
        { st with text := r.1, selectionEnd := sizeSub st.selectionEnd totalRemoved }
      else
        { st with text := r.1, selectionStart := sizeSub st.selectionStart totalRemoved }
    .ok { st1 with cursorPosition := max st1.selectionStart st1.selectionEnd }

/-- The function `SimpleTextEditor::toggleComment`; `cursorPosition - 2` and
`selectedText.length() - 2` are `size_t` differences. -/
def toggleComment (m : Metrics W) (st : EditorState) : Res EditorState :=
  if st.selectionStart = st.selectionEnd then do
    let lines ← wrapText m st.text
    let lineIndex := getLineIndexAtPosition st.cursorPosition lines
    let line ← vecAt lines lineIndex
    let lineStart := line.startPos
    let lineText := line.text
    let head ← strSubstr lineText 0 2
    if head = ['/', '/'] then do
      let t ← strErase st.text lineStart 2
      .ok { st with text := t, cursorPosition := max (sizeSub st.cursorPosition 2) lineStart }
    else do
      let t ← strInsert st.text lineStart ['/', '/']
      .ok { st with text := t, cursorPosition := st.cursorPosition + 2 }
  else do
    let start := min st.selectionStart st.selectionEnd
    let end_ := max st.selectionStart st.selectionEnd
    let selectedText ← strSubstr st.text start (end_ - start)
    let head ← strSubstr selectedText 0 2
    let wrapped ←
      if head = ['/', '*'] then do
        let tail ← strSubstr selectedText (sizeSub selectedText.length 2) npos
        .ok (decide (tail = ['*', '/']))
      else .ok false
    if wrapped then do
      let t1 ← strErase st.text (sizeSub end_ 2) 2
      let t2 ← strErase t1 start 2
      let st1 := { st with text := t2, selectionEnd := sizeSub st.selectionEnd 4 }
      .ok { st1 with cursorPosition := st1.selectionEnd }
    else do
      let t1 ← strInsert st.text end_ ['*', '/']
      let t2 ← strInsert t1 start ['/', '*']
      let st1 := { st with text := t2, selectionEnd := sizeAdd st.selectionEnd 4 }
      .ok { st1 with cursorPosition := st1.selectionEnd }

/-- The function `SimpleTextEditor::duplicateLine`.  In the selection branch the
source declares locals named `selectionStart` and `selectionEnd`, so the members of
the same names are not assigned. -/
def duplicateLine (m : Metrics W) (st : EditorState) : Res EditorState :=
  if st.text.length = 0 then .ok st
  else do
    let lines ← wrapText m st.text
    if st.selectionStart = st.selectionEnd then do
      let lineIndex := getLineIndexAtPosition st.cursorPosition lines
      let line ← vecAt lines lineIndex
      let lineStart := line.startPos
      let lineEnd ←
        if lineIndex < sizeSub lines.length 1 then do
          let next ← vecAt lines (lineIndex + 1)
          .ok next.startPos
        else .ok st.text.length
      let lineToDuplicate ← strSubstr st.text lineStart (sizeSub lineEnd lineStart)
      let t ← strInsert st.text lineEnd lineToDuplicate
      .ok { st with text := t,
                    cursorPosition := sizeAdd lineEnd (sizeSub st.cursorPosition lineStart) }
    else do
      let start := min st.selectionStart st.selectionEnd
      let end_ := max st.selectionStart st.selectionEnd
      let startLine := getLineIndexAtPosition start lines
      let endLine := getLineIndexAtPosition end_ lines
      let firstLine ← vecAt lines startLine
      let localSelectionStart := firstLine.startPos
      let localSelectionEnd ←
        if endLine < sizeSub lines.length 1 then do
          let next ← vecAt lines (endLine + 1)
          .ok next.startPos
        else .ok st.text.length
      let textToDuplicate ←
        strSubstr st.text localSelectionStart (sizeSub localSelectionEnd localSelectionStart)
      let t ← strInsert st.text localSelectionEnd textToDuplicate
      let insertedLength := sizeSub localSelectionEnd localSelectionStart
      let localSelectionStart1 := localSelectionEnd
      let localSelectionEnd1 := sizeAdd localSelectionStart1 insertedLength
      .ok { st with text := t, cursorPosition := localSelectionEnd1 }

end Indent

/-! ## Input dispatch -/

/-- The key codes distinguished by `handleInput`. -/
inductive Key
  | BACKSPACE | DELETE | TAB | D | M | SLASH | LEFT | RIGHT | UP | DOWN | HOME | END
  | RETURN | KP_ENTER | A | C | X | V | S | O | B | Z | Y | OTHER
deriving DecidableEq, Repr

/-- The events distinguished by `handleInput`. -/
inductive Event
  | KEY_DOWN (key : Key)
  | TEXT_INPUT (text : Text)
  | MOUSE_WHEEL (y : Int)
  | OTHER
deriving DecidableEq, Repr

/-- What `handleInput` reads from outside the editor: the modifier state, the
clipboard (`none` when it holds no text), whether the project configuration enables
`format_on_save`, the output of the formatter run (`none` when it is skipped or
fails) and the content of the file `bufferName` (`none` when `bufferName` is empty
or the file cannot be opened). -/
structure World where
  shiftPressed : Bool
  ctrlPressed : Bool
  clipboard : Option Text
  formatOnSave : Bool
  formatted : Option Text
  file : Option Text

/-- Modelled from the spec: the default argument of `insertTab(bool unindent)`, which
is declared in `Editor.h` (not among the sources); Tab without shift indents. -/
def insertTabDefault : Bool := false

section Dispatch

variable {W : Type} [Zero W] [Add W] [LT W] [DecidableRel (fun (a b : W) => a < b)]

/-- The function `SimpleTextEditor::handleInput`. -/
def handleInput (MAX_STACK_SIZE : Nat) (m : Metrics W) (w : World) (event : Event)
    (st : EditorState) : Res EditorState :=
  match event with
  | .KEY_DOWN key =>
    let st := { st with textChanged := true }
    match key with
    | .BACKSPACE => keyBackspace MAX_STACK_SIZE st
    | .DELETE => keyDelete MAX_STACK_SIZE st
    | .TAB => if w.shiftPressed then removeTab m st else insertTab m insertTabDefault st
    | .D => if w.ctrlPressed then duplicateLine m st else .ok st
    | .M =>
      if w.ctrlPressed then jumpToMiddleOfLine m st
      else if w.ctrlPressed then toggleComment m st else .ok st
    | .SLASH => if w.ctrlPressed then toggleComment m st else .ok st
    | .LEFT => .ok (moveCursorLeft w.shiftPressed st)
    | .RIGHT => .ok (moveCursorRight w.shiftPressed st)
    | .UP => if w.ctrlPressed then .ok st else moveCursorUp m w.shiftPressed st
    | .DOWN => if w.ctrlPressed then .ok st else moveCursorDown m w.shiftPressed st
    | .HOME => moveCursorToLineStart m w.shiftPressed st
    | .END => moveCursorToLineEnd m w.shiftPressed st
    | .RETURN => keyReturn MAX_STACK_SIZE st
    | .KP_ENTER => keyReturn MAX_STACK_SIZE st
    | .A =>
      if w.ctrlPressed then
        .ok { st with selectionStart := 0, selectionEnd := st.text.length,
                      cursorPosition := st.text.length }
      else .ok st
    | .C =>
      if w.ctrlPressed then
        match copySelectedText st with
        | .error f => .error f
        | .ok _ => .ok st
      else .ok st
    | .X => if w.ctrlPressed then cutSelectedText MAX_STACK_SIZE st else .ok st
    | .V => if w.ctrlPressed then pasteText MAX_STACK_SIZE w.clipboard st else .ok st
    | .S =>
      if w.ctrlPressed then
        if w.formatOnSave then formatCodeWithClangFormat MAX_STACK_SIZE w.formatted st
        else .ok st
      else .ok st
    | .O => if w.ctrlPressed then .ok (loadTextFromFile w.file st) else .ok st
    | .B => .ok st
    | .Z =>
      if w.ctrlPressed ∧ ¬ w.shiftPressed then .ok (undo st)
      else if w.ctrlPressed ∧ w.shiftPressed then .ok (redo st)
      else .ok st
    | .Y => if w.ctrlPressed then .ok (redo st) else .ok st
    | .OTHER => .ok st
  | .TEXT_INPUT text => textInput MAX_STACK_SIZE text st
  | .MOUSE_WHEEL _ => .ok st
  | .OTHER => .ok st

end Dispatch

/-- The states reachable from the constructor's state by input events (under any
font metrics and surroundings), file loads and command-palette jumps to a position
of the buffer. -/
inductive Reachable (MAX_STACK_SIZE : Nat) : EditorState → Prop
  | init : Reachable MAX_STACK_SIZE initialState
  | input {s s1 : EditorState} {W : Type} [Zero W] [Add W] [LT W]
      [DecidableRel (fun (a b : W) => a < b)] (m : Metrics W) (w : World) (e : Event) :
      Reachable MAX_STACK_SIZE s → handleInput MAX_STACK_SIZE m w e s = .ok s1 →
      Reachable MAX_STACK_SIZE s1
  | load {s : EditorState} (file : Option Text) :
      Reachable MAX_STACK_SIZE s → Reachable MAX_STACK_SIZE (loadTextFromFile file s)
  | jump {s : EditorState} (position : Nat) :
      Reachable MAX_STACK_SIZE s → position ≤ s.text.length →
      Reachable MAX_STACK_SIZE (handleCommandPaletteSelection position s)

/-- The states reachable from the constructor's state by input events, calls of
`undo`, `redo` and `loadTextFromFile`, and frames drawn by `render` with the
tokenizer `tokenize`. -/
inductive CacheReachable (MAX_STACK_SIZE : Nat) (tokenize : Text → List SyntaxToken) :
    EditorState → Prop
  | init : CacheReachable MAX_STACK_SIZE tokenize initialState
  | input {s s1 : EditorState} {W : Type} [Zero W] [Add W] [LT W]
      [DecidableRel (fun (a b : W) => a < b)] (m : Metrics W) (w : World) (e : Event) :
      CacheReachable MAX_STACK_SIZE tokenize s → handleInput MAX_STACK_SIZE m w e s = .ok s1 →
      CacheReachable MAX_STACK_SIZE tokenize s1
  | undo {s : EditorState} : CacheReachable MAX_STACK_SIZE tokenize s →
      CacheReachable MAX_STACK_SIZE tokenize (undo s)
  | redo {s : EditorState} : CacheReachable MAX_STACK_SIZE tokenize s →
      CacheReachable MAX_STACK_SIZE tokenize (redo s)
  | load {s : EditorState} (file : Option Text) :
      CacheReachable MAX_STACK_SIZE tokenize s →
      CacheReachable MAX_STACK_SIZE tokenize (loadTextFromFile file s)
  | render {s : EditorState} : CacheReachable MAX_STACK_SIZE tokenize s →
      CacheReachable MAX_STACK_SIZE tokenize (render tokenize s)

/-- The offsets of a state are valid: cursor and both selection bounds lie in
`[0, len(text)]`. -/
def ValidOffsets (st : EditorState) : Prop :=
  st.cursorPosition ≤ st.text.length ∧ st.selectionStart ≤ st.text.length ∧
    st.selectionEnd ≤ st.text.length

instance (st : EditorState) : Decidable (ValidOffsets st) := by
  unfold ValidOffsets; infer_instance

/-- A stack read from its bottom entry to its top entry. -/
def bottomToTop (stack : List Text) : List Text := stack.reverse

/-- The states of the history manager reachable from empty stacks by
`pushUndoState`, `undo` and `redo`, interleaved with arbitrary changes of the
buffer and the offsets. -/
inductive HistoryReachable (MAX_STACK_SIZE : Nat) : EditorState → Prop
  | init (s : EditorState) : s.undoStack = [] → s.redoStack = [] →
      HistoryReachable MAX_STACK_SIZE s
  | push {s s1 : EditorState} : HistoryReachable MAX_STACK_SIZE s →
      pushUndoState MAX_STACK_SIZE s = .ok s1 → HistoryReachable MAX_STACK_SIZE s1
  | undo {s : EditorState} : HistoryReachable MAX_STACK_SIZE s →
      HistoryReachable MAX_STACK_SIZE (undo s)
  | redo {s : EditorState} : HistoryReachable MAX_STACK_SIZE s →
      HistoryReachable MAX_STACK_SIZE (redo s)
  | edit {s s1 : EditorState} : HistoryReachable MAX_STACK_SIZE s →
      s1.undoStack = s.undoStack → s1.redoStack = s.redoStack →
      HistoryReachable MAX_STACK_SIZE s1

/-! ## Vocabulary of the edit contracts -/

/-- The undo stack after one snapshot of the buffer has been pushed: the buffer on
top of the previous stack, which loses its bottom entry when it was full. -/
def pushedStack (MAX_STACK_SIZE : Nat) (st : EditorState) : List Text :=
  st.text :: (if MAX_STACK_SIZE ≤ st.undoStack.length then st.undoStack.dropLast
              else st.undoStack)

/-- Left end of the range replaced by an insertion: the selection's minimum, or the
cursor when the selection is empty. -/
def editStart (st : EditorState) : Nat :=
  if st.selectionStart ≠ st.selectionEnd then min st.selectionStart st.selectionEnd
  else st.cursorPosition

/-- Right end of the range replaced by an insertion: the selection's maximum, or the
cursor when the selection is empty. -/
def editEnd (st : EditorState) : Nat :=
  if st.selectionStart ≠ st.selectionEnd then max st.selectionStart st.selectionEnd
  else st.cursorPosition

/-- The function `SimpleTextEditor::measureTextWidth` in exact arithmetic: the
character widths of `t` added up from zero, left to right. -/
def measureTextWidth {W : Type} [Zero W] [Add W] (m : Metrics W) (t : Text) : W :=
  t.foldl (fun totalWidth c => totalWidth + m.widthOf c) 0

/-- The offset `position` lies in the inclusive range `[startPos, startPos + len(text)]`
of the line `l`: the test of `getLineIndexAtPosition`. -/
def containsPosition (l : WrappedLine) (position : Nat) : Prop :=
  l.startPos ≤ position ∧ position ≤ l.startPos + l.text.length

instance (l : WrappedLine) (position : Nat) : Decidable (containsPosition l position) := by
  unfold containsPosition; infer_instance

/-- No hard line is soft-wrapped: every wrapped line runs up to a newline or to the
end of the buffer, so the inner loop of `wrapText` never stopped on the width. -/
def NoSoftWrap (text : Text) (lines : List WrappedLine) : Prop :=
  ∀ l ∈ lines, l.startPos + l.text.length = text.length ∨
    text[l.startPos + l.text.length]? = some '\n'

instance (text : Text) (lines : List WrappedLine) : Decidable (NoSoftWrap text lines) := by
  unfold NoSoftWrap; infer_instance

/-- The lines `ls` written out, each with a two-space indent in front of its text
and the newline consumed after it behind. -/
def indentBlock (text : Text) (ls : List WrappedLine) : Text :=
  (ls.map (fun l => [' ', ' '] ++ lineWithNewline text l)).flatten

/-- The buffer in which the lines `a .. b` of `lines` have gained a two-space prefix
and every other character is unchanged: the lines before `a` as they are, the lines
`a .. b` indented, the lines after `b` as they are. -/
def indentedText (text : Text) (lines : List WrappedLine) (a b : Nat) : Text :=
  reassemble text (lines.take a) ++ indentBlock text ((lines.drop a).take (b + 1 - a)) ++
    reassemble text (lines.drop (b + 1))

/-- A line is a whole hard line of the buffer: it starts at offset 0 or right after
a newline, it ends right before a newline or at the end of the buffer, and it holds
no newline. -/
def IsHardLine (text : Text) (l : WrappedLine) : Prop :=
  (l.startPos = 0 ∨ text[l.startPos - 1]? = some '\n') ∧
    (l.startPos + l.text.length = text.length ∨
      text[l.startPos + l.text.length]? = some '\n') ∧
    ∀ c ∈ l.text, c ≠ '\n'

/-! ## Line shapes, used to compare the line tables of two buffers -/

/-- The shape of a line table: the text of each line and whether a newline follows
it. -/
abbrev Shape := List (Text × Bool)

/-- One line of a shape written out. -/
def renderLine (x : Text × Bool) : Text :=
  x.1 ++ (if x.2 then ['\n'] else [])

/-- A shape written out as a buffer. -/
def renderShape (sh : Shape) : Text :=
  (sh.map renderLine).flatten

/-- The shape of the line table `lines` of the buffer `text`. -/
def shapeOf (text : Text) (lines : List WrappedLine) : Shape :=
  lines.map (fun l => (l.text, newlineAfter text l))

/-- A shape of hard lines: no line text holds a newline, a newline follows every
line but possibly the last, and a last line without newline is not empty. -/
def Canon : Shape → Prop
  | [] => True
  | x :: sh => (∀ c ∈ x.1, c ≠ '\n') ∧ (x.2 = true ∨ (x.1 ≠ [] ∧ sh = [])) ∧ Canon sh

/-- A shape line with a two-space indent in front. -/
def indentOne (x : Text × Bool) : Text × Bool :=
  ([' ', ' '] ++ x.1, x.2)

/-- The shape `sh`, whose first line has index `i`, with the lines of index
`a .. b` indented. -/
def indentShape (a b : Nat) : Nat → Shape → Shape
  | _, [] => []
  | i, x :: sh =>
    (if a ≤ i ∧ i ≤ b then indentOne x else x) :: indentShape a b (i + 1) sh

/-- The number of leading spaces that `removeTab` removes from a line: at most
`space_size`. -/
def leadingSpaces (t : Text) : Nat :=
  if t[0]? = some ' ' then (if t[1]? = some ' ' then 2 else 1) else 0

/-- A shape line without its leading spaces. -/
def outdentOne (x : Text × Bool) : Text × Bool :=
  (x.1.drop (leadingSpaces x.1), x.2)

/-! ## Hard lines, as the wrap contract words them -/

/-- The pieces of the buffer split on the newline character, without the final empty
piece when the buffer is empty or ends with a newline. -/
def hardLinePieces (text : Text) : List Text :=
  if text = [] ∨ text.getLast? = some '\n' then (text.splitOn '\n').dropLast
  else text.splitOn '\n'

/-- The pieces `pieces` as lines, the first with index `index` at offset `offset`:
each piece starts one character (the newline) after the end of the piece before it,
and is the whole of its logical line. -/
def hardLinesFrom : Nat → Nat → List Text → List WrappedLine
  | _, _, [] => []
  | index, offset, p :: ps =>
    { startPos := offset, text := p, logicalLineIndex := index,
      logicalLineStartPos := offset } :: hardLinesFrom (index + 1) (offset + p.length + 1) ps

/-- One line per hard line of the buffer: the piece, its offset in the buffer (as
`startPos` and as `logicalLineStartPos`) and its position in the list. -/
def hardLines (text : Text) : List WrappedLine :=
  hardLinesFrom 0 0 (hardLinePieces text)

/-- Line `i` of the line table continues the line before it: the scan consumed no
newline between the two, so line `i` starts at the inclusive end of line `i - 1`. -/
def IsContinuation (text : Text) (lines : List WrappedLine) (i : Nat) : Prop :=
  0 < i ∧ ∃ previous, lines[i - 1]? = some previous ∧ newlineAfter text previous = false

/-- The selection `[s, e)` touches the line `l`: it holds a character of the line or
the newline consumed after it, that is an offset of `[startPos, next startPos)`. -/
def touchesLine (text : Text) (l : WrappedLine) (s e : Nat) : Prop :=
  l.startPos < e ∧ s < l.startPos + l.text.length + (if newlineAfter text l then 1 else 0)

instance (text : Text) (l : WrappedLine) (s e : Nat) : Decidable (touchesLine text l s e) := by
  unfold touchesLine; infer_instance

/-! ## Concrete states used as examples -/

/-- A full stack of two entries, with the buffer about to be pushed on it. -/
def fullStackState : EditorState :=
  { initialState with text := ['c'], undoStack := [['b'], ['a']], redoStack := [['z']] }

/-- The state after three snapshots, one `undo` and one `redo` with a bound of two. -/
def afterThreePushes : EditorState :=
  { initialState with text := ['c'], undoStack := [['b'], ['a']], redoStack := [] }

/-- The empty buffer with the cursor at offset 0 and no history. -/
def emptyBufferState : EditorState :=
  { initialState with text := [] }

/-- Buffer `"abcd"` with the selection `[1, 3)` made backwards and a full undo stack
(for a bound of one entry). -/
def selectionState : EditorState :=
  { initialState with
    text := ['a', 'b', 'c', 'd']
    cursorPosition := 1
    selectionStart := 3
    selectionEnd := 1
    undoStack := [['o', 'l', 'd']] }

/-- Buffer `"abcd"` with the cursor at offset 2, no selection and a full undo stack
(for a bound of one entry). -/
def cursorState : EditorState :=
  { initialState with
    text := ['a', 'b', 'c', 'd']
    cursorPosition := 2
    selectionStart := 2
    selectionEnd := 2
    undoStack := [['o', 'l', 'd']] }

/-- Metrics under which every character is one unit wide and 80 units fit a line. -/
def unitMetrics : Metrics Nat :=
  { widthOf := fun _ => 1, availableWidth := 80 }

/-- Surroundings with no modifier key held, an empty clipboard and nothing to load. -/
def plainWorld : World :=
  { shiftPressed := false, ctrlPressed := false, clipboard := none, formatOnSave := false,
    formatted := none, file := none }

/-- Surroundings with Ctrl held. -/
def ctrlWorld : World := { plainWorld with ctrlPressed := true }

/-- Surroundings with Shift held. -/
def shiftWorld : World := { plainWorld with shiftPressed := true }

/-- The state after Ctrl+A on the constructor's state. -/
def afterSelectAll : EditorState :=
  { initialState with selectionStart := 0, selectionEnd := 1, cursorPosition := 1 }

/-- The state after Ctrl+A, Backspace on the constructor's state. -/
def afterClear : EditorState :=
  { initialState with text := [], undoStack := [[' ']] }

/-- The state after Ctrl+A, Backspace and the text input `"ab"`. -/
def afterTyping (MAX_STACK_SIZE : Nat) : EditorState :=
  { initialState with
    text := ['a', 'b']
    cursorPosition := 2
    selectionStart := 2
    selectionEnd := 2
    undoStack := [] :: (if MAX_STACK_SIZE ≤ 1 then [] else [[' ']]) }

/-- The state after Ctrl+A, Backspace, the text input `"ab"` and Ctrl+Z. -/
def afterUndo (MAX_STACK_SIZE : Nat) : EditorState :=
  { initialState with
    text := []
    cursorPosition := 2
    selectionStart := 2
    selectionEnd := 2
    undoStack := if MAX_STACK_SIZE ≤ 1 then [] else [[' ']]
    redoStack := [['a', 'b']] }

/-- Buffer `"  //x"` with the cursor at offset 2, no selection and no history. -/
def indentedLineState : EditorState :=
  { initialState with
    text := [' ', ' ', '/', '/', 'x']
    cursorPosition := 2
    selectionStart := 2
    selectionEnd := 2 }

/-- Metrics under which every character is 5 units wide and 3 units fit a line. -/
def wideCharMetrics : Metrics Nat :=
  { widthOf := fun _ => 5, availableWidth := 3 }

/-- Metrics with a negative available width (a window narrower than the line-number
gutter), every character one unit wide. -/
def negativeWidthMetrics : Metrics Int :=
  { widthOf := fun _ => 1, availableWidth := -1 }

/-- The two lines of the buffer `"ab\ncd"` when nothing wraps. -/
def twoLines : List WrappedLine :=
  [⟨0, ['a', 'b'], 0, 0⟩, ⟨3, ['c', 'd'], 1, 3⟩]

/-- Buffer `"  ab"` with the forward selection `[3, 4)` (the character `b`). -/
def indentedSelectionState : EditorState :=
  { initialState with
    text := [' ', ' ', 'a', 'b']
    cursorPosition := 4
    selectionStart := 3
    selectionEnd := 4 }

/-- Buffer `"a\n  b"` with the cursor at offset 1, the end of the first line,
immediately before its newline, and no selection. -/
def cursorBeforeNewlineState : EditorState :=
  { initialState with
    text := ['a', '\n', ' ', ' ', 'b']
    cursorPosition := 1
    selectionStart := 1
    selectionEnd := 1 }

/-- Buffer `"//x"` with the cursor at column `column` of its only line and no
selection. -/
def commentedLineState (column : Nat) : EditorState :=
  { initialState with
    text := ['/', '/', 'x']
    cursorPosition := column
    selectionStart := column
    selectionEnd := column }

/-- Buffer `"ab\ncd"` with the cursor at offset 1 (between `a` and `b`) and no
selection. -/
def twoLineState : EditorState :=
  { initialState with
    text := ['a', 'b', '\n', 'c', 'd']
    cursorPosition := 1
    selectionStart := 1
    selectionEnd := 1 }

/-- Buffer `"x\ny\nz"`, fully selected forwards. -/
def threeLineState : EditorState :=
  { initialState with
    text := ['x', '\n', 'y', '\n', 'z']
    cursorPosition := 5
    selectionStart := 0
    selectionEnd := 5 }

/-- The three lines of the buffer `"x\ny\nz"` when nothing wraps. -/
def threeLines : List WrappedLine :=
  [⟨0, ['x'], 0, 0⟩, ⟨2, ['y'], 1, 2⟩, ⟨4, ['z'], 2, 4⟩]

/-- Buffer `"a/*/b"` with the forward selection `[1, 4)`, the three characters
`"/*/"`. -/
def malformedCommentState : EditorState :=
  { initialState with
    text := ['a', '/', '*', '/', 'b']
    cursorPosition := 4
    selectionStart := 1
    selectionEnd := 4 }

/-- Buffer `"/*x*/"`, fully selected forwards, between the characters `a` and `b`. -/
def blockCommentState : EditorState :=
  { initialState with
    text := ['a', '/', '*', 'x', '*', '/', 'b']
    cursorPosition := 6
    selectionStart := 1
    selectionEnd := 6 }

/-- Buffer `"ab"` with the cursor at offset `cursor` and no selection. -/
def shortLineState (cursor : Nat) : EditorState :=
  { initialState with
    text := ['a', 'b']
    cursorPosition := cursor
    selectionStart := cursor
    selectionEnd := cursor }

/-- Buffer `"ab\ncd"` with the forward selection `[1, 4)`. -/
def selectedLinesState : EditorState :=
  { initialState with
    text := ['a', 'b', '\n', 'c', 'd']
    cursorPosition := 4
    selectionStart := 1
    selectionEnd := 4 }

/-- The state after one frame and the text input `"a"` on the constructor's state:
the tokens are those of the buffer `" "` drawn by the frame. -/
def afterFrameAndTyping (tokenize : Text → List SyntaxToken) : EditorState :=
  { initialState with
    text := ['a', ' ']
    cursorPosition := 1
    selectionStart := 1
    selectionEnd := 1
    undoStack := [[' ']]
    textChanged := false
    tokens := tokenize [' '] }

/-- A tokenizer that returns the whole buffer as one token. -/
def wholeBufferTokenizer (t : Text) : List SyntaxToken :=
  [{ startPos := 0, text := t, type := 0 }]

/-- Buffer `"x\ny\nz"` with the forward selection `[0, 4)`, the text `"x\ny\n"`: the
first two lines with their newlines. -/
def leadingLinesState : EditorState :=
  { initialState with
    text := ['x', '\n', 'y', '\n', 'z']
    cursorPosition := 4
    selectionStart := 0
    selectionEnd := 4 }

/-! ## Theorems: wrap engine -/

set_option linter.unusedSectionVars false

section WrapProofs

variable {W : Type} [Zero W] [Add W] [LT W] [DecidableRel (fun (a b : W) => a < b)]

theorem wrapInner_spec (m : Metrics W) (cs : List Char) :
    ∀ (p : Nat) (w : W) (n : Nat),
      ∃ k, k ≤ cs.length ∧ wrapInner m cs p w n = (p + k, n + k) ∧
        (∀ c ∈ cs.take k, c ≠ '\n') ∧
        (n = 0 → (∀ c, cs.head? = some c → c ≠ '\n') → cs ≠ [] → 0 < k) := by
  induction cs with
  | nil => intro p w n; exact ⟨0, by simp [wrapInner]⟩
  | cons c cs ih =>
    intro p w n
    by_cases hc : c = '\n'
    · refine ⟨0, by simp, by simp [wrapInner, hc], by simp, ?_⟩
      intro _ h _
      exact absurd hc (h c rfl)
    · by_cases hb : m.availableWidth < w + m.widthOf c ∧ 0 < n
      · refine ⟨0, by simp, by simp [wrapInner, hc, hb], by simp, ?_⟩
        intro h0 _ _
        omega
      · obtain ⟨k, hk, he, hn, _⟩ := ih (p + 1) (w + m.widthOf c) (n + 1)
        refine ⟨k + 1, by simpa using hk, ?_, ?_, fun _ _ _ => Nat.succ_pos k⟩
        · rw [wrapInner, if_neg hc, if_neg hb, he]
          simp only [Prod.mk.injEq]
          omega
        · intro d hd
          rw [List.take_succ_cons, List.mem_cons] at hd
          rcases hd with rfl | hd
          · exact hc
          · exact hn d hd

theorem wrapLoop_tiles (m : Metrics W) (text : Text) :
    ∀ (fuel p lli llsp : Nat) (acc : List WrappedLine), text.length ≤ p + fuel →
      ∃ rest, wrapLoop m text fuel p lli llsp acc = .ok (acc ++ rest) ∧ Tiles text p rest := by
  intro fuel
  induction fuel with
  | zero =>
    intro p lli llsp acc h
    refine ⟨[], ?_, ?_⟩
    · have : ¬ p < text.length := by omega
      simp [wrapLoop, this]
    · simpa [Tiles] using h
  | succ fuel ih =>
    intro p lli llsp acc h
    by_cases hp : p < text.length
    · by_cases hnl : text[p]? = some '\n'
      · obtain ⟨rest, hr, ht⟩ := ih (p + 1) (lli + 1) (p + 1)
          (acc ++ [{ startPos := p, text := [], logicalLineIndex := lli,
                     logicalLineStartPos := llsp }]) (by omega)
        refine ⟨{ startPos := p, text := [], logicalLineIndex := lli,
                  logicalLineStartPos := llsp } :: rest, ?_, ?_⟩
        · rw [wrapLoop, if_pos hp, if_pos hnl, hr]
          simp
        · simp only [Tiles, newlineAfter, List.length_nil, Nat.add_zero, hnl, decide_True,
            if_true, List.take_zero, List.not_mem_nil, false_implies, implies_true, true_and]
          exact ⟨hp, by omega, ht⟩
      · obtain ⟨k, hk, he, hn, hpos⟩ := wrapInner_spec m (text.drop p) p (0 : W) 0
        have hk' : k ≤ text.length - p := by simpa using hk
        have hne : text.drop p ≠ [] := by
          intro h0
          have := congrArg List.length h0
          simp at this
          omega
        have hhead : ∀ c, (text.drop p).head? = some c → c ≠ '\n' := by
          intro c hc hcn
          apply hnl
          rw [← hcn, ← hc, List.head?_drop]
        have hkpos : 0 < k := hpos rfl hhead hne
        have hlen : ((text.drop p).take k).length = k := by
          simp; omega
        let line : WrappedLine :=
          { startPos := p, text := (text.drop p).take k, logicalLineIndex := lli,
            logicalLineStartPos := llsp }
        have hsub : strSubstr text p (0 + k) = .ok ((text.drop p).take k) := by
          simp [strSubstr, Nat.le_of_lt hp]
        by_cases hc : p + k < text.length ∧ text[p + k]? = some '\n'
        · obtain ⟨rest, hr, ht⟩ := ih (p + k + 1) (lli + 1) (p + k + 1) (acc ++ [line])
            (by omega)
          refine ⟨line :: rest, ?_, ?_⟩
          · rw [wrapLoop, if_pos hp, if_neg hnl]
            simp only [he, hsub, if_pos hc, hr]
            simp [line]
          · simp only [Tiles, newlineAfter, line, hlen, hc.2, decide_True, if_true, true_and]
            refine ⟨hp, by omega, hn, ?_, ht⟩
            intro h0
            rw [h0] at hlen
            simp at hlen
            omega
        · obtain ⟨rest, hr, ht⟩ := ih (p + k) lli llsp (acc ++ [line]) (by omega)
          refine ⟨line :: rest, ?_, ?_⟩
          · rw [wrapLoop, if_pos hp, if_neg hnl]
            simp only [he, hsub, if_neg hc, hr]
            simp [line]
          · have hnn : ¬ text[p + k]? = some '\n' := by
              intro h1
              apply hc
              refine ⟨?_, h1⟩
              by_contra h2
              rw [List.getElem?_eq_none (by omega)] at h1
              exact Option.noConfusion h1
            simp only [Tiles, newlineAfter, line, hlen, hnn, decide_False, if_false,
              Nat.add_zero, true_and]
            refine ⟨hp, by omega, hn, ?_, ht⟩
            intro h0
            rw [h0] at hlen
            simp at hlen
            omega
    · refine ⟨[], ?_, ?_⟩
      · rw [wrapLoop, if_neg hp]; simp
      · simp only [Tiles]; omega

theorem wrapText_tiles (m : Metrics W) (text : Text) :
    ∃ lines, wrapText m text = .ok lines ∧ Tiles text 0 lines := by
  obtain ⟨rest, hr, ht⟩ := wrapLoop_tiles m text text.length 0 0 0 [] (by omega)
  exact ⟨rest, by simpa [wrapText] using hr, ht⟩

end WrapProofs

theorem drop_eq_cons_of_getElem? {text : Text} {i : Nat} {c : Char}
    (h : text[i]? = some c) : text.drop i = c :: text.drop (i + 1) := by
  obtain ⟨hi, hc⟩ := List.getElem?_eq_some_iff.mp h
  rw [← hc]
  exact List.drop_eq_getElem_cons hi

theorem take_append_drop_add (text : Text) (pos : Nat) (t : Text)
    (h : t = (text.drop pos).take t.length) : t ++ text.drop (pos + t.length) = text.drop pos := by
  generalize t.length = n at h
  rw [h, ← List.drop_drop]
  exact List.take_append_drop _ _

theorem tiles_reassemble (text : Text) :
    ∀ (ls : List WrappedLine) (pos : Nat), Tiles text pos ls →
      reassemble text ls = text.drop pos := by
  intro ls
  induction ls with
  | nil =>
    intro pos h
    simp only [Tiles] at h
    simp [reassemble, List.drop_eq_nil_of_le h]
  | cons l ls ih =>
    intro pos h
    obtain ⟨hs, _, htxt, _, _, _, ht⟩ := h
    have hrest := ih _ ht
    simp only [reassemble, List.map_cons, List.flatten_cons] at hrest ⊢
    rw [hrest, lineWithNewline]
    by_cases hn : newlineAfter text l = true
    · have hget : text[pos + l.text.length]? = some '\n' := by
        simpa [newlineAfter, hs] using hn
      rw [if_pos hn, if_pos hn, List.append_assoc, List.singleton_append,
        ← drop_eq_cons_of_getElem? hget]
      exact take_append_drop_add text pos l.text htxt
    · rw [if_neg hn, if_neg hn, List.append_nil, Nat.add_zero]
      exact take_append_drop_add text pos l.text htxt

theorem tiles_lines (text : Text) :
    ∀ (ls : List WrappedLine) (pos : Nat), Tiles text pos ls →
      ∀ l ∈ ls, pos ≤ l.startPos ∧ l.startPos + l.text.length ≤ text.length ∧
        l.text = (text.drop l.startPos).take l.text.length ∧ (∀ c ∈ l.text, c ≠ '\n') := by
  intro ls
  induction ls with
  | nil => intro pos _ l hl; simp at hl
  | cons a ls ih =>
    intro pos h l hl
    obtain ⟨hs, _, htxt, hle, hnn, _, ht⟩ := h
    rcases List.mem_cons.mp hl with rfl | hl
    · rw [hs]; exact ⟨le_refl _, hle, htxt, hnn⟩
    · obtain ⟨h1, h2⟩ := ih _ ht l hl
      exact ⟨by omega, h2⟩

theorem tiles_cover (text : Text) :
    ∀ (ls : List WrappedLine) (pos : Nat), Tiles text pos ls →
      ∀ i, pos ≤ i → i < text.length →
        (∃ l ∈ ls, l.startPos ≤ i ∧ i < l.startPos + l.text.length) ∨
          text[i]? = some '\n' := by
  intro ls
  induction ls with
  | nil =>
    intro pos h i h1 h2
    simp only [Tiles] at h
    omega
  | cons a ls ih =>
    intro pos h i h1 h2
    obtain ⟨hs, _, _, _, _, _, ht⟩ := h
    by_cases hin : i < pos + a.text.length
    · exact Or.inl ⟨a, List.mem_cons_self _ _, by omega, by omega⟩
    · by_cases hn : newlineAfter text a = true
      · have hget : text[pos + a.text.length]? = some '\n' := by
          simpa [newlineAfter, hs] using hn
        by_cases hi : i = pos + a.text.length
        · right; rw [hi]; exact hget
        · rw [if_pos hn] at ht
          rcases ih _ ht i (by omega) h2 with ⟨l, hl, hb⟩ | hnl
          · exact Or.inl ⟨l, List.mem_cons_of_mem _ hl, hb⟩
          · exact Or.inr hnl
      · rw [if_neg hn] at ht
        rcases ih _ ht i (by omega) h2 with ⟨l, hl, hb⟩ | hnl
        · exact Or.inl ⟨l, List.mem_cons_of_mem _ hl, hb⟩
        · exact Or.inr hnl

theorem tiles_chain (text : Text) :
    ∀ (ls : List WrappedLine) (pos : Nat), Tiles text pos ls →
      ∀ (i : Nat) (a b : WrappedLine), ls[i]? = some a → ls[i + 1]? = some b →
        b.startPos = a.startPos + a.text.length + (if newlineAfter text a then 1 else 0) ∧
          a.startPos < b.startPos := by
  intro ls
  induction ls with
  | nil => intro pos _ i a b ha; simp at ha
  | cons l ls ih =>
    intro pos h i a b ha hb
    obtain ⟨hs, _, _, _, _, hempty, ht⟩ := h
    cases i with
    | zero =>
      simp only [List.getElem?_cons_zero, Option.some.injEq] at ha
      subst ha
      cases ls with
      | nil => simp at hb
      | cons b2 ls2 =>
        simp only [Nat.zero_add, List.getElem?_cons_succ, List.getElem?_cons_zero,
          Option.some.injEq] at hb
        subst hb
        have hb2 : b2.startPos = pos + l.text.length + (if newlineAfter text l then 1 else 0) :=
          ht.1
        refine ⟨by rw [hb2, hs], ?_⟩
        rw [hb2, hs]
        by_cases hl : l.text = []
        · have hnl : newlineAfter text l = true := by
            simp [newlineAfter, hs, hl, hempty hl]
          rw [if_pos hnl]; omega
        · have : 0 < l.text.length := List.length_pos.mpr hl
          omega
    | succ j =>
      simp only [List.getElem?_cons_succ] at ha hb
      exact ih _ ht j a b ha hb

section WrapClaims

variable {W : Type} [Zero W] [Add W] [LT W] [DecidableRel (fun (a b : W) => a < b)]

/-- C1 (wrap coverage).  For every buffer, every character-width function and every
available width (positive or not), `wrapText` returns a list of lines such that
walking the lines in order and concatenating each line's text, followed by a newline
exactly when the scan consumed one after that line, reconstructs the buffer exactly;
every line's text is the slice `text[startPos, startPos + len)` of the buffer and
contains no newline, and every offset of the buffer that lies inside no line holds a
newline character. -/
theorem wrapText_coverage (m : Metrics W) (text : Text) :
    ∃ lines, wrapText m text = .ok lines ∧
      reassemble text lines = text ∧
      (∀ l ∈ lines, l.startPos + l.text.length ≤ text.length ∧
        l.text = (text.drop l.startPos).take l.text.length ∧ (∀ c ∈ l.text, c ≠ '\n')) ∧
      (∀ i, i < text.length →
        (∃ l ∈ lines, l.startPos ≤ i ∧ i < l.startPos + l.text.length) ∨
          text[i]? = some '\n') := by
  obtain ⟨lines, hl, ht⟩ := wrapText_tiles m text
  refine ⟨lines, hl, ?_, ?_, ?_⟩
  · simpa using tiles_reassemble text lines 0 ht
  · intro l hmem
    exact (tiles_lines text lines 0 ht l hmem).2
  · intro i hi
    exact tiles_cover text lines 0 ht i (Nat.zero_le _) hi

/-- C10 (wrap contiguity).  For every buffer and available width the lines returned
by `wrapText` have strictly ascending `startPos` with no gaps: the first line, if
any, starts at offset 0, and each following line starts at the previous line's
`startPos + len(text)`, plus one exactly when the character at that offset is a
newline, which is the newline the scan consumed after the previous line. -/
theorem wrapText_contiguous (m : Metrics W) (text : Text) :
    ∃ lines, wrapText m text = .ok lines ∧
      (∀ l, lines.head? = some l → l.startPos = 0) ∧
      (∀ (i : Nat) (a b : WrappedLine), lines[i]? = some a → lines[i + 1]? = some b →
        b.startPos = a.startPos + a.text.length + (if newlineAfter text a then 1 else 0) ∧
          a.startPos < b.startPos) := by
  obtain ⟨lines, hl, ht⟩ := wrapText_tiles m text
  refine ⟨lines, hl, ?_, tiles_chain text lines 0 ht⟩
  intro l hhead
  cases lines with
  | nil => simp at hhead
  | cons a ls =>
    simp only [List.head?_cons, Option.some.injEq] at hhead
    subst hhead
    exact ht.1

end WrapClaims

/-! ## Theorems: history manager -/

theorem moveToTemp_append_singleton (u : List Text) :
    ∀ (a : Text) (t : List Text), moveToTemp (u ++ [a]) t = ([a], u.reverse ++ t) := by
  induction u with
  | nil => intro a t; simp [moveToTemp]
  | cons b u ih =>
    intro a t
    cases u with
    | nil => simp [moveToTemp]
    | cons c u =>
      have := ih a (b :: t)
      simp only [List.cons_append] at this ⊢
      rw [moveToTemp, this]
      simp

theorem moveBack_eq (t : List Text) : ∀ u : List Text, moveBack t u = t.reverse ++ u := by
  induction t with
  | nil => intro u; simp [moveBack]
  | cons a t ih => intro u; simp [moveBack, ih]

theorem clearStack_eq (s : List Text) : clearStack s = [] := by
  induction s with
  | nil => rfl
  | cons a s ih => simpa [clearStack] using ih

/-- The stack left by `pushUndoState`, below the new top. -/
theorem pushUndoState_eq (MAX_STACK_SIZE : Nat) (st : EditorState)
    (h : 1 ≤ MAX_STACK_SIZE ∨ st.undoStack ≠ []) :
    pushUndoState MAX_STACK_SIZE st =
      .ok { st with
        undoStack := st.text ::
          (if MAX_STACK_SIZE ≤ st.undoStack.length then st.undoStack.dropLast
           else st.undoStack),
        redoStack := [] } := by
  unfold pushUndoState
  by_cases hfull : MAX_STACK_SIZE ≤ st.undoStack.length
  · have hne : st.undoStack ≠ [] := by
      rcases h with h | h
      · intro h0; rw [h0] at hfull; simp at hfull; omega
      · exact h
    have hsplit := List.dropLast_append_getLast hne
    have hm := moveToTemp_append_singleton st.undoStack.dropLast (st.undoStack.getLast hne) []
    rw [hsplit] at hm
    simp only [hfull, if_true, hm, stackPop, moveBack_eq, clearStack_eq]
    simp
  · simp only [hfull, if_false, clearStack_eq]

theorem reverse_dropLast_eq_tail (u : List Text) : u.dropLast.reverse = u.reverse.tail := by
  induction u using List.reverseRecOn with
  | nil => rfl
  | append_singleton u a _ => simp

/-- C7 (eviction order).  With `MAX_STACK_SIZE >= 1` and an undo stack `u` of at most
`MAX_STACK_SIZE` entries, `pushUndoState` returns normally and leaves, read from
bottom to top, the stack `u ++ [text]` when `len(u) < MAX_STACK_SIZE` and
`(u without its bottom entry) ++ [text]` when `len(u) = MAX_STACK_SIZE`, the retained
entries keeping their order; in both cases the redo stack becomes empty, and buffer,
cursor and selection are untouched. -/
theorem pushUndoState_eviction (MAX_STACK_SIZE : Nat) (st : EditorState)
    (hmax : 1 ≤ MAX_STACK_SIZE) (hlen : st.undoStack.length ≤ MAX_STACK_SIZE) :
    ∃ st1, pushUndoState MAX_STACK_SIZE st = .ok st1 ∧
      bottomToTop st1.undoStack =
        (if st.undoStack.length < MAX_STACK_SIZE then bottomToTop st.undoStack
         else (bottomToTop st.undoStack).tail) ++ [st.text] ∧
      st1.redoStack = [] ∧ st1.text = st.text ∧
      st1.cursorPosition = st.cursorPosition ∧
      st1.selectionStart = st.selectionStart ∧ st1.selectionEnd = st.selectionEnd := by
  refine ⟨_, pushUndoState_eq MAX_STACK_SIZE st (Or.inl hmax), ?_, rfl, rfl, rfl, rfl, rfl⟩
  by_cases hfull : MAX_STACK_SIZE ≤ st.undoStack.length
  · have hlt : ¬ st.undoStack.length < MAX_STACK_SIZE := by omega
    simp only [bottomToTop, hfull, hlt, if_true, if_false, List.reverse_cons,
      reverse_dropLast_eq_tail]
  · have hlt : st.undoStack.length < MAX_STACK_SIZE := by omega
    simp only [bottomToTop, hfull, hlt, if_true, if_false, List.reverse_cons]

theorem pushUndoState_eviction_witness :
    ∃ st1, pushUndoState 2 fullStackState = .ok st1 ∧
      bottomToTop st1.undoStack = [['b'], ['c']] ∧ st1.redoStack = [] := by
  obtain ⟨st1, h1, h2, h3, _⟩ :=
    pushUndoState_eviction 2 fullStackState (by decide) (by decide)
  exact ⟨st1, h1, by simpa [bottomToTop, fullStackState] using h2, h3⟩

theorem history_sizes (MAX_STACK_SIZE : Nat) (hmax : 1 ≤ MAX_STACK_SIZE) (st : EditorState)
    (hr : HistoryReachable MAX_STACK_SIZE st) :
    st.undoStack.length + st.redoStack.length ≤ MAX_STACK_SIZE := by
  induction hr with
  | init s hu hr => simp [hu, hr]
  | @push s s1 _ hp ih =>
    rw [pushUndoState_eq MAX_STACK_SIZE s (Or.inl hmax)] at hp
    injection hp with hp
    subst hp
    by_cases hfull : MAX_STACK_SIZE ≤ s.undoStack.length
    · simp only [hfull, if_true, List.length_cons, List.length_dropLast, List.length_nil]
      omega
    · simp only [hfull, if_false, List.length_cons, List.length_nil]
      omega
  | @undo s _ ih =>
    unfold SimpleTextEditor.undo
    cases hu : s.undoStack with
    | nil => simpa [hu] using ih
    | cons a u =>
      simp only [resetSelection, List.length_cons]
      rw [hu] at ih
      simp only [List.length_cons] at ih
      omega
  | @redo s _ ih =>
    unfold SimpleTextEditor.redo
    cases hu : s.redoStack with
    | nil => simpa [hu] using ih
    | cons a u =>
      simp only [resetSelection, List.length_cons]
      rw [hu] at ih
      simp only [List.length_cons] at ih
      omega
  | @edit s s1 _ hu hr ih => rw [hu, hr]; exact ih

/-- C6 (history bound).  With `MAX_STACK_SIZE >= 1`, in every state reachable from
empty stacks by any interleaving of `pushUndoState`, `undo` and `redo` (and of edits
of the buffer in between), the undo stack holds at most `MAX_STACK_SIZE` entries;
the invariant behind it is that both stacks together hold at most `MAX_STACK_SIZE`
entries, which is what keeps the unchecked push of `redo` inside the bound. -/
theorem history_bound (MAX_STACK_SIZE : Nat) (hmax : 1 ≤ MAX_STACK_SIZE) (st : EditorState)
    (hr : HistoryReachable MAX_STACK_SIZE st) :
    st.undoStack.length ≤ MAX_STACK_SIZE ∧
      st.undoStack.length + st.redoStack.length ≤ MAX_STACK_SIZE := by
  have h := history_sizes MAX_STACK_SIZE hmax st hr
  exact ⟨by omega, h⟩

theorem afterThreePushes_reachable : HistoryReachable 2 afterThreePushes := by
  have h0 : HistoryReachable 2 { initialState with text := [] } :=
    HistoryReachable.init _ rfl rfl
  have h1 : HistoryReachable 2 { initialState with text := [], undoStack := [[]] } :=
    HistoryReachable.push h0 rfl
  have h2 : HistoryReachable 2 { initialState with text := ['a'], undoStack := [[]] } :=
    HistoryReachable.edit h1 rfl rfl
  have h3 : HistoryReachable 2 { initialState with text := ['a'], undoStack := [['a'], []] } :=
    HistoryReachable.push h2 rfl
  have h4 : HistoryReachable 2 { initialState with text := ['b'], undoStack := [['a'], []] } :=
    HistoryReachable.edit h3 rfl rfl
  have h5 : HistoryReachable 2
      { initialState with text := ['b'], undoStack := [['b'], ['a']] } :=
    HistoryReachable.push h4 rfl
  have h6 : HistoryReachable 2
      { initialState with text := ['c'], undoStack := [['b'], ['a']] } :=
    HistoryReachable.edit h5 rfl rfl
  have h7 := HistoryReachable.redo (HistoryReachable.undo h6)
  exact h7

theorem history_bound_witness :
    HistoryReachable 2 afterThreePushes ∧ afterThreePushes.undoStack.length ≤ 2 :=
  ⟨afterThreePushes_reachable,
   (history_bound 2 (by decide) afterThreePushes afterThreePushes_reachable).1⟩

/-- C4 (redo inverse law).  For every state with a non-empty undo stack, `undo()`
followed immediately by `redo()` leaves the buffer text, the undo stack and the redo
stack exactly as they were before the `undo()`. -/
theorem redo_undo_inverse (st : EditorState) (h : st.undoStack ≠ []) :
    (redo (undo st)).text = st.text ∧ (redo (undo st)).undoStack = st.undoStack ∧
      (redo (undo st)).redoStack = st.redoStack := by
  cases hu : st.undoStack with
  | nil => exact absurd hu h
  | cons a u => simp [undo, redo, hu, resetSelection]

theorem redo_undo_inverse_witness :
    fullStackState.undoStack ≠ [] ∧
      (redo (undo fullStackState)).text = fullStackState.text ∧
      (redo (undo fullStackState)).undoStack = fullStackState.undoStack ∧
      (redo (undo fullStackState)).redoStack = fullStackState.redoStack :=
  ⟨by decide, redo_undo_inverse fullStackState (by decide)⟩

/-! ## Theorems: primitive edits -/

theorem strErase_range (t : Text) (a b : Nat) (hab : a ≤ b) (hb : b ≤ t.length) :
    strErase t a (b - a) = .ok (t.take a ++ t.drop b) := by
  have ha : a ≤ t.length := le_trans hab hb
  have hmin : a + min (b - a) (t.length - a) = b := by omega
  simp [strErase, ha, hmin]

theorem strInsert_after_erase (t : Text) (a b : Nat) (s : Text) (hab : a ≤ b)
    (hb : b ≤ t.length) :
    strInsert (t.take a ++ t.drop b) a s = .ok (t.take a ++ s ++ t.drop b) := by
  have ha : a ≤ t.length := le_trans hab hb
  have hl : (t.take a).length = a := by simp [ha]
  have h1 : a ≤ (t.take a ++ t.drop b).length := by simp; omega
  have h2 : (t.take a ++ t.drop b).take a = t.take a := by
    rw [List.take_append_of_le_length (by omega)]
    simp
  have h3 : (t.take a ++ t.drop b).drop a = t.drop b := by
    rw [List.drop_append_of_le_length (by omega)]
    simp [List.drop_eq_nil_of_le (le_of_eq hl)]
  rw [strInsert, if_pos h1, h2, h3]

theorem insert_eq (MAX_STACK_SIZE : Nat) (s : Text) (st : EditorState)
    (hmax : 1 ≤ MAX_STACK_SIZE) (hv : ValidOffsets st) :
    (do
      let st1 ← pushUndoState MAX_STACK_SIZE st
      let st2 ← if hasSelection st1 then deleteSelection st1 else .ok st1
      let t ← strInsert st2.text st2.cursorPosition s
      (.ok (resetSelection
        { st2 with text := t, cursorPosition := st2.cursorPosition + s.length }) :
          Res EditorState)) =
      .ok { st with
        text := st.text.take (editStart st) ++ s ++ st.text.drop (editEnd st),
        cursorPosition := editStart st + s.length,
        selectionStart := editStart st + s.length,
        selectionEnd := editStart st + s.length,
        undoStack := pushedStack MAX_STACK_SIZE st,
        redoStack := [] } := by
  obtain ⟨hc, hs, he⟩ := hv
  rw [pushUndoState_eq MAX_STACK_SIZE st (Or.inl hmax)]
  by_cases hsel : st.selectionStart = st.selectionEnd
  · have h1 := strInsert_after_erase st.text st.cursorPosition st.cursorPosition s
      (le_refl _) hc
    rw [List.take_append_drop] at h1
    simp [hasSelection, hsel, editStart, editEnd, pushedStack, resetSelection, h1,
      bind, Except.bind]
  · have hle : min st.selectionStart st.selectionEnd ≤ max st.selectionStart st.selectionEnd :=
      le_trans (min_le_left _ _) (le_max_left _ _)
    have hmx : max st.selectionStart st.selectionEnd ≤ st.text.length := max_le hs he
    have h0 := strErase_range st.text _ _ hle hmx
    have h1 := strInsert_after_erase st.text _ _ s hle hmx
    simp [hasSelection, hsel, editStart, editEnd, pushedStack, resetSelection, h0, h1,
      deleteSelection, bind, Except.bind]

theorem textInput_eq (MAX_STACK_SIZE : Nat) (s : Text) (st : EditorState)
    (hmax : 1 ≤ MAX_STACK_SIZE) (hv : ValidOffsets st) :
    textInput MAX_STACK_SIZE s st =
      .ok { st with
        text := st.text.take (editStart st) ++ s ++ st.text.drop (editEnd st),
        cursorPosition := editStart st + s.length,
        selectionStart := editStart st + s.length,
        selectionEnd := editStart st + s.length,
        undoStack := pushedStack MAX_STACK_SIZE st,
        redoStack := [] } := by
  unfold textInput
  exact insert_eq MAX_STACK_SIZE s st hmax hv

theorem keyReturn_eq (MAX_STACK_SIZE : Nat) (st : EditorState)
    (hmax : 1 ≤ MAX_STACK_SIZE) (hv : ValidOffsets st) :
    keyReturn MAX_STACK_SIZE st =
      .ok { st with
        text := st.text.take (editStart st) ++ ['\n'] ++ st.text.drop (editEnd st),
        cursorPosition := editStart st + 1,
        selectionStart := editStart st + 1,
        selectionEnd := editStart st + 1,
        undoStack := pushedStack MAX_STACK_SIZE st,
        redoStack := [] } := by
  unfold keyReturn
  exact insert_eq MAX_STACK_SIZE ['\n'] st hmax hv

theorem pasteText_eq (MAX_STACK_SIZE : Nat) (clipboardText : Text) (st : EditorState)
    (hmax : 1 ≤ MAX_STACK_SIZE) (hv : ValidOffsets st) :
    pasteText MAX_STACK_SIZE (some clipboardText) st =
      .ok { st with
        text := st.text.take (editStart st) ++ clipboardText ++ st.text.drop (editEnd st),
        cursorPosition := editStart st + clipboardText.length,
        selectionStart := editStart st + clipboardText.length,
        selectionEnd := editStart st + clipboardText.length,
        undoStack := pushedStack MAX_STACK_SIZE st,
        redoStack := [] } := by
  unfold pasteText
  exact insert_eq MAX_STACK_SIZE clipboardText st hmax hv

theorem keyBackspace_selection (MAX_STACK_SIZE : Nat) (st : EditorState)
    (hmax : 1 ≤ MAX_STACK_SIZE) (hv : ValidOffsets st)
    (hsel : st.selectionStart ≠ st.selectionEnd) :
    keyBackspace MAX_STACK_SIZE st =
      .ok { st with
        text := st.text.take (min st.selectionStart st.selectionEnd) ++
          st.text.drop (max st.selectionStart st.selectionEnd),
        cursorPosition := min st.selectionStart st.selectionEnd,
        selectionStart := min st.selectionStart st.selectionEnd,
        selectionEnd := min st.selectionStart st.selectionEnd,
        undoStack := pushedStack MAX_STACK_SIZE st,
        redoStack := [] } := by
  obtain ⟨_, hs, he⟩ := hv
  have hle : min st.selectionStart st.selectionEnd ≤ max st.selectionStart st.selectionEnd :=
    le_trans (min_le_left _ _) (le_max_left _ _)
  have hmx : max st.selectionStart st.selectionEnd ≤ st.text.length := max_le hs he
  have h0 := strErase_range st.text _ _ hle hmx
  rw [keyBackspace, pushUndoState_eq MAX_STACK_SIZE st (Or.inl hmax)]
  simp [hasSelection, hsel, deleteSelection, h0, resetSelection, pushedStack, bind,
    Except.bind]

theorem keyDelete_selection (MAX_STACK_SIZE : Nat) (st : EditorState)
    (hmax : 1 ≤ MAX_STACK_SIZE) (hv : ValidOffsets st)
    (hsel : st.selectionStart ≠ st.selectionEnd) :
    keyDelete MAX_STACK_SIZE st =
      .ok { st with
        text := st.text.take (min st.selectionStart st.selectionEnd) ++
          st.text.drop (max st.selectionStart st.selectionEnd),
        cursorPosition := min st.selectionStart st.selectionEnd,
        selectionStart := min st.selectionStart st.selectionEnd,
        selectionEnd := min st.selectionStart st.selectionEnd,
        undoStack := pushedStack MAX_STACK_SIZE st,
        redoStack := [] } := by
  obtain ⟨_, hs, he⟩ := hv
  have hle : min st.selectionStart st.selectionEnd ≤ max st.selectionStart st.selectionEnd :=
    le_trans (min_le_left _ _) (le_max_left _ _)
  have hmx : max st.selectionStart st.selectionEnd ≤ st.text.length := max_le hs he
  have h0 := strErase_range st.text _ _ hle hmx
  rw [keyDelete, pushUndoState_eq MAX_STACK_SIZE st (Or.inl hmax)]
  simp [hasSelection, hsel, deleteSelection, h0, resetSelection, pushedStack, bind,
    Except.bind]

theorem cutSelectedText_selection (MAX_STACK_SIZE : Nat) (st : EditorState)
    (hmax : 1 ≤ MAX_STACK_SIZE) (hv : ValidOffsets st)
    (hsel : st.selectionStart ≠ st.selectionEnd) :
    cutSelectedText MAX_STACK_SIZE st =
      .ok { st with
        text := st.text.take (min st.selectionStart st.selectionEnd) ++
          st.text.drop (max st.selectionStart st.selectionEnd),
        cursorPosition := min st.selectionStart st.selectionEnd,
        selectionStart := min st.selectionStart st.selectionEnd,
        selectionEnd := min st.selectionStart st.selectionEnd,
        undoStack := pushedStack MAX_STACK_SIZE st,
        redoStack := [] } := by
  obtain ⟨_, hs, he⟩ := hv
  have hle : min st.selectionStart st.selectionEnd ≤ max st.selectionStart st.selectionEnd :=
    le_trans (min_le_left _ _) (le_max_left _ _)
  have hmx : max st.selectionStart st.selectionEnd ≤ st.text.length := max_le hs he
  have h0 := strErase_range st.text _ _ hle hmx
  have hmn : min st.selectionStart st.selectionEnd ≤ st.text.length := le_trans hle hmx
  rw [cutSelectedText, pushUndoState_eq MAX_STACK_SIZE st (Or.inl hmax)]
  simp [hasSelection, hsel, copySelectedText, strSubstr, hmn, deleteSelection, h0,
    resetSelection, pushedStack, bind, Except.bind]

theorem keyBackspace_cursor (MAX_STACK_SIZE : Nat) (st : EditorState)
    (hmax : 1 ≤ MAX_STACK_SIZE) (hv : ValidOffsets st)
    (hsel : st.selectionStart = st.selectionEnd) (hpos : 0 < st.cursorPosition) :
    keyBackspace MAX_STACK_SIZE st =
      .ok { st with
        text := st.text.take (st.cursorPosition - 1) ++ st.text.drop st.cursorPosition,
        cursorPosition := st.cursorPosition - 1,
        selectionStart := st.cursorPosition - 1,
        selectionEnd := st.cursorPosition - 1,
        undoStack := pushedStack MAX_STACK_SIZE st,
        redoStack := [] } := by
  obtain ⟨hc, _, _⟩ := hv
  have h0 := strErase_range st.text (st.cursorPosition - 1) st.cursorPosition (by omega) hc
  have h1 : st.cursorPosition - (st.cursorPosition - 1) = 1 := by omega
  rw [h1] at h0
  rw [keyBackspace, pushUndoState_eq MAX_STACK_SIZE st (Or.inl hmax)]
  simp [hasSelection, hsel, hpos, h0, resetSelection, pushedStack, bind, Except.bind]

theorem keyDelete_cursor (MAX_STACK_SIZE : Nat) (st : EditorState)
    (hmax : 1 ≤ MAX_STACK_SIZE)
    (hsel : st.selectionStart = st.selectionEnd) (hlt : st.cursorPosition < st.text.length) :
    keyDelete MAX_STACK_SIZE st =
      .ok { st with
        text := st.text.take st.cursorPosition ++ st.text.drop (st.cursorPosition + 1),
        selectionStart := st.cursorPosition,
        selectionEnd := st.cursorPosition,
        undoStack := pushedStack MAX_STACK_SIZE st,
        redoStack := [] } := by
  have h0 := strErase_range st.text st.cursorPosition (st.cursorPosition + 1) (by omega)
    (by omega)
  have h1 : st.cursorPosition + 1 - st.cursorPosition = 1 := by omega
  rw [h1] at h0
  rw [keyDelete, pushUndoState_eq MAX_STACK_SIZE st (Or.inl hmax)]
  simp [hasSelection, hsel, hlt, h0, resetSelection, pushedStack, bind, Except.bind]

theorem keyBackspace_boundary (MAX_STACK_SIZE : Nat) (st : EditorState)
    (hsel : st.selectionStart = st.selectionEnd) (hzero : st.cursorPosition = 0) :
    keyBackspace MAX_STACK_SIZE st = .ok (resetSelection st) := by
  simp [keyBackspace, hasSelection, hsel, hzero, bind, Except.bind]

theorem keyDelete_boundary (MAX_STACK_SIZE : Nat) (st : EditorState)
    (hsel : st.selectionStart = st.selectionEnd) (hend : st.cursorPosition = st.text.length) :
    keyDelete MAX_STACK_SIZE st = .ok (resetSelection st) := by
  simp [keyDelete, hasSelection, hsel, hend, bind, Except.bind]

theorem undo_text_of_top (st : EditorState) (a : Text) (u : List Text)
    (h : st.undoStack = a :: u) : (undo st).text = a := by
  simp [undo, h, resetSelection]

/-- C8 (insertText).  For every buffer, inserted string and state with valid offsets
(and `MAX_STACK_SIZE >= 1`), with `a`/`b` the minimum/maximum of the selection when it
is non-empty and both the cursor otherwise, text input of `s` returns normally with
buffer `t[0,a) ++ s ++ t[b,len)`, cursor `a + len(s)`, the selection collapsed to the
cursor, and exactly one entry, the old buffer `t`, pushed on the undo stack (on top of
the old stack, which loses its bottom entry if it was full), the redo stack being
emptied: one combined undo step even when a selection was replaced. -/
theorem textInput_contract (MAX_STACK_SIZE : Nat) (s : Text) (st : EditorState)
    (hmax : 1 ≤ MAX_STACK_SIZE) (hv : ValidOffsets st) :
    ∃ st1, textInput MAX_STACK_SIZE s st = .ok st1 ∧
      st1.text = st.text.take (editStart st) ++ s ++ st.text.drop (editEnd st) ∧
      st1.cursorPosition = editStart st + s.length ∧
      st1.selectionStart = st1.cursorPosition ∧ st1.selectionEnd = st1.cursorPosition ∧
      st1.undoStack = st.text ::
        (if MAX_STACK_SIZE ≤ st.undoStack.length then st.undoStack.dropLast
         else st.undoStack) ∧
      st1.redoStack = [] :=
  ⟨_, textInput_eq MAX_STACK_SIZE s st hmax hv, rfl, rfl, rfl, rfl, rfl, rfl⟩

theorem textInput_contract_witness :
    ValidOffsets emptyBufferState ∧
      ∃ st1, textInput 100 ['h', 'i'] emptyBufferState = .ok st1 ∧
        st1.text = ['h', 'i'] ∧ st1.cursorPosition = 2 ∧ st1.undoStack = [[]] := by
  refine ⟨by decide, ?_⟩
  obtain ⟨st1, h, ht, hc, _, _, hu, _⟩ :=
    textInput_contract 100 ['h', 'i'] emptyBufferState (by decide) (by decide)
  exact ⟨st1, h, by simpa [emptyBufferState, editStart, editEnd, initialState] using ht,
    by simpa [emptyBufferState, editStart, initialState] using hc,
    by simpa [emptyBufferState, initialState] using hu⟩

/-- C9 (deleteBackward / deleteForward).  For every state with valid offsets (and
`MAX_STACK_SIZE >= 1`) Backspace and Delete return normally, and: with a non-empty
selection both remove exactly `text[min, max)` and set the cursor to `min`; with an
empty selection Backspace at a cursor `> 0` removes exactly the character at
`cursor - 1` and decrements the cursor, and Delete at a cursor `< len` removes exactly
the character at `cursor` and keeps the cursor; at the boundaries (Backspace at cursor
0, Delete at cursor `len`) buffer, cursor and undo stack are unchanged. -/
theorem delete_contract (MAX_STACK_SIZE : Nat) (st : EditorState)
    (hmax : 1 ≤ MAX_STACK_SIZE) (hv : ValidOffsets st) :
    ∃ back fwd, keyBackspace MAX_STACK_SIZE st = .ok back ∧
      keyDelete MAX_STACK_SIZE st = .ok fwd ∧
      (st.selectionStart ≠ st.selectionEnd →
        back.text = st.text.take (min st.selectionStart st.selectionEnd) ++
          st.text.drop (max st.selectionStart st.selectionEnd) ∧
        back.cursorPosition = min st.selectionStart st.selectionEnd ∧
        fwd.text = back.text ∧ fwd.cursorPosition = back.cursorPosition) ∧
      (st.selectionStart = st.selectionEnd → 0 < st.cursorPosition →
        back.text = st.text.take (st.cursorPosition - 1) ++ st.text.drop st.cursorPosition ∧
        back.cursorPosition = st.cursorPosition - 1) ∧
      (st.selectionStart = st.selectionEnd → st.cursorPosition < st.text.length →
        fwd.text = st.text.take st.cursorPosition ++ st.text.drop (st.cursorPosition + 1) ∧
        fwd.cursorPosition = st.cursorPosition) ∧
      (st.selectionStart = st.selectionEnd → st.cursorPosition = 0 →
        back.text = st.text ∧ back.cursorPosition = st.cursorPosition ∧
        back.undoStack = st.undoStack) ∧
      (st.selectionStart = st.selectionEnd → st.cursorPosition = st.text.length →
        fwd.text = st.text ∧ fwd.cursorPosition = st.cursorPosition ∧
        fwd.undoStack = st.undoStack) := by
  by_cases hsel : st.selectionStart = st.selectionEnd
  · have hback : ∃ back, keyBackspace MAX_STACK_SIZE st = .ok back ∧
        (0 < st.cursorPosition →
          back.text = st.text.take (st.cursorPosition - 1) ++ st.text.drop st.cursorPosition ∧
          back.cursorPosition = st.cursorPosition - 1) ∧
        (st.cursorPosition = 0 →
          back.text = st.text ∧ back.cursorPosition = st.cursorPosition ∧
          back.undoStack = st.undoStack) := by
      by_cases hpos : 0 < st.cursorPosition
      · exact ⟨_, keyBackspace_cursor MAX_STACK_SIZE st hmax hv hsel hpos,
          fun _ => ⟨rfl, rfl⟩, fun h0 => absurd h0 (by omega)⟩
      · have h0 : st.cursorPosition = 0 := by omega
        exact ⟨_, keyBackspace_boundary MAX_STACK_SIZE st hsel h0,
          fun h => absurd h hpos, fun _ => ⟨rfl, rfl, rfl⟩⟩
    have hfwd : ∃ fwd, keyDelete MAX_STACK_SIZE st = .ok fwd ∧
        (st.cursorPosition < st.text.length →
          fwd.text = st.text.take st.cursorPosition ++ st.text.drop (st.cursorPosition + 1) ∧
          fwd.cursorPosition = st.cursorPosition) ∧
        (st.cursorPosition = st.text.length →
          fwd.text = st.text ∧ fwd.cursorPosition = st.cursorPosition ∧
          fwd.undoStack = st.undoStack) := by
      by_cases hlt : st.cursorPosition < st.text.length
      · exact ⟨_, keyDelete_cursor MAX_STACK_SIZE st hmax hsel hlt,
          fun _ => ⟨rfl, rfl⟩, fun h0 => absurd h0 (by omega)⟩
      · have h0 : st.cursorPosition = st.text.length := by
          have := hv.1
          omega
        exact ⟨_, keyDelete_boundary MAX_STACK_SIZE st hsel h0,
          fun h => absurd h hlt, fun _ => ⟨rfl, rfl, rfl⟩⟩
    obtain ⟨back, hb, hb1, hb2⟩ := hback
    obtain ⟨fwd, hf, hf1, hf2⟩ := hfwd
    exact ⟨back, fwd, hb, hf, fun h => absurd hsel h, fun _ => hb1, fun _ => hf1,
      fun _ => hb2, fun _ => hf2⟩
  · exact ⟨_, _, keyBackspace_selection MAX_STACK_SIZE st hmax hv hsel,
      keyDelete_selection MAX_STACK_SIZE st hmax hv hsel,
      fun _ => ⟨rfl, rfl, rfl, rfl⟩, fun h => absurd h hsel, fun h => absurd h hsel,
      fun h => absurd h hsel, fun h => absurd h hsel⟩

theorem delete_contract_witness :
    ValidOffsets cursorState ∧
      ∃ back fwd, keyBackspace 1 cursorState = .ok back ∧
        keyDelete 1 cursorState = .ok fwd ∧
        back.text = ['a', 'c', 'd'] ∧ back.cursorPosition = 1 ∧
        fwd.text = ['a', 'b', 'd'] ∧ fwd.cursorPosition = 2 := by
  refine ⟨by decide, ?_⟩
  obtain ⟨back, fwd, hb, hf, _, h2, h3, _, _⟩ :=
    delete_contract 1 cursorState (by decide) (by decide)
  obtain ⟨hbt, hbc⟩ := h2 (by decide) (by decide)
  obtain ⟨hft, hfc⟩ := h3 (by decide) (by decide)
  exact ⟨back, fwd, hb, hf, by simpa [cursorState] using hbt, by simpa [cursorState] using hbc,
    by simpa [cursorState] using hft, by simpa [cursorState] using hfc⟩

/-- C3 (undo inverse law).  For every state with valid offsets (and
`MAX_STACK_SIZE >= 1`), each primitive edit that pushes history - text input, Enter,
Backspace, Delete, cut and paste - returns normally, and whenever it changed the
buffer, calling `undo()` immediately afterwards makes the buffer text equal to the
text before the edit; nothing is assumed about the height of the undo stack, so this
holds also when the stack was already at `MAX_STACK_SIZE` before the edit. -/
theorem undo_restores_edit (MAX_STACK_SIZE : Nat) (st : EditorState)
    (hmax : 1 ≤ MAX_STACK_SIZE) (hv : ValidOffsets st) :
    (∀ s : Text, ∃ st1, textInput MAX_STACK_SIZE s st = .ok st1 ∧
      (st1.text ≠ st.text → (undo st1).text = st.text)) ∧
    (∃ st1, keyReturn MAX_STACK_SIZE st = .ok st1 ∧
      (st1.text ≠ st.text → (undo st1).text = st.text)) ∧
    (∃ st1, keyBackspace MAX_STACK_SIZE st = .ok st1 ∧
      (st1.text ≠ st.text → (undo st1).text = st.text)) ∧
    (∃ st1, keyDelete MAX_STACK_SIZE st = .ok st1 ∧
      (st1.text ≠ st.text → (undo st1).text = st.text)) ∧
    (∃ st1, cutSelectedText MAX_STACK_SIZE st = .ok st1 ∧
      (st1.text ≠ st.text → (undo st1).text = st.text)) ∧
    (∀ clipboard : Option Text, ∃ st1, pasteText MAX_STACK_SIZE clipboard st = .ok st1 ∧
      (st1.text ≠ st.text → (undo st1).text = st.text)) := by
  refine ⟨?_, ?_, ?_, ?_, ?_, ?_⟩
  · intro s
    exact ⟨_, textInput_eq MAX_STACK_SIZE s st hmax hv,
      fun _ => undo_text_of_top _ _ _ rfl⟩
  · exact ⟨_, keyReturn_eq MAX_STACK_SIZE st hmax hv, fun _ => undo_text_of_top _ _ _ rfl⟩
  · by_cases hsel : st.selectionStart = st.selectionEnd
    · by_cases hpos : 0 < st.cursorPosition
      · exact ⟨_, keyBackspace_cursor MAX_STACK_SIZE st hmax hv hsel hpos,
          fun _ => undo_text_of_top _ _ _ rfl⟩
      · exact ⟨_, keyBackspace_boundary MAX_STACK_SIZE st hsel (by omega),
          fun h => absurd rfl h⟩
    · exact ⟨_, keyBackspace_selection MAX_STACK_SIZE st hmax hv hsel,
        fun _ => undo_text_of_top _ _ _ rfl⟩
  · by_cases hsel : st.selectionStart = st.selectionEnd
    · by_cases hlt : st.cursorPosition < st.text.length
      · exact ⟨_, keyDelete_cursor MAX_STACK_SIZE st hmax hsel hlt,
          fun _ => undo_text_of_top _ _ _ rfl⟩
      · have h0 : st.cursorPosition = st.text.length := by
          have := hv.1
          omega
        exact ⟨_, keyDelete_boundary MAX_STACK_SIZE st hsel h0, fun h => absurd rfl h⟩
    · exact ⟨_, keyDelete_selection MAX_STACK_SIZE st hmax hv hsel,
        fun _ => undo_text_of_top _ _ _ rfl⟩
  · by_cases hsel : st.selectionStart = st.selectionEnd
    · refine ⟨st, ?_, fun h => absurd rfl h⟩
      simp [cutSelectedText, hasSelection, hsel]
    · exact ⟨_, cutSelectedText_selection MAX_STACK_SIZE st hmax hv hsel,
        fun _ => undo_text_of_top _ _ _ rfl⟩
  · intro clipboard
    cases clipboard with
    | none => exact ⟨st, rfl, fun h => absurd rfl h⟩
    | some c =>
      exact ⟨_, pasteText_eq MAX_STACK_SIZE c st hmax hv, fun _ => undo_text_of_top _ _ _ rfl⟩

theorem undo_restores_edit_witness :
    ValidOffsets selectionState ∧ selectionState.undoStack.length = 1 ∧
      ∃ st1, textInput 1 ['x'] selectionState = .ok st1 ∧
        st1.text = ['a', 'x', 'd'] ∧ (undo st1).text = ['a', 'b', 'c', 'd'] := by
  refine ⟨by decide, by decide, ?_⟩
  obtain ⟨st1, h, hu⟩ :=
    (undo_restores_edit 1 selectionState (by decide) (by decide)).1 ['x']
  have ht : st1.text = ['a', 'x', 'd'] := by
    have h2 : textInput 1 ['x'] selectionState = .ok _ :=
      textInput_eq 1 ['x'] selectionState (by decide) (by decide)
    rw [h] at h2
    injection h2 with h2
    rw [h2]
    decide
  refine ⟨st1, h, ht, ?_⟩
  have := hu (by rw [ht]; decide)
  simpa [selectionState] using this

/-! ## Theorems: the offset invariant and the history of the indent family -/

theorem afterUndo_reachable (MAX_STACK_SIZE : Nat) (hmax : 1 ≤ MAX_STACK_SIZE) :
    Reachable MAX_STACK_SIZE (afterUndo MAX_STACK_SIZE) := by
  have h0 : Reachable MAX_STACK_SIZE initialState := Reachable.init
  have h1 : Reachable MAX_STACK_SIZE afterSelectAll :=
    Reachable.input unitMetrics ctrlWorld (.KEY_DOWN .A) h0 rfl
  have h2 : Reachable MAX_STACK_SIZE afterClear := by
    refine Reachable.input unitMetrics plainWorld (.KEY_DOWN .BACKSPACE) h1 ?_
    have hk := keyBackspace_selection MAX_STACK_SIZE afterSelectAll hmax (by decide) (by decide)
    have hn : ¬ MAX_STACK_SIZE ≤ 0 := by omega
    simp only [handleInput]
    rw [show ({ afterSelectAll with textChanged := true } : EditorState) = afterSelectAll
      from rfl, hk]
    simp [afterSelectAll, afterClear, initialState, pushedStack, hn]
  have h3 : Reachable MAX_STACK_SIZE (afterTyping MAX_STACK_SIZE) := by
    refine Reachable.input unitMetrics plainWorld (.TEXT_INPUT ['a', 'b']) h2 ?_
    have hk := textInput_eq MAX_STACK_SIZE ['a', 'b'] afterClear hmax (by decide)
    simp only [handleInput]
    rw [hk]
    simp [afterClear, afterTyping, initialState, pushedStack, editStart, editEnd]
  have h4 : Reachable MAX_STACK_SIZE (afterUndo MAX_STACK_SIZE) := by
    refine Reachable.input unitMetrics ctrlWorld (.KEY_DOWN .Z) h3 ?_
    simp [handleInput, ctrlWorld, plainWorld, undo, afterTyping, afterUndo, initialState,
      resetSelection, sizeSub, SIZE_MODULUS]
  exact h4

/-- C2 (global offset invariant), evaluated on the code.  For every
`MAX_STACK_SIZE >= 1` the event sequence Ctrl+A, Backspace, text input `"ab"`, Ctrl+Z
leads from the constructor's state to a reachable state with an empty buffer whose
cursor and selection bounds are 2: `undo()` clamps the cursor with
`text.length() - 1`, which wraps around for the empty restored buffer, so the
invariant `cursor <= len(text)` and `max(selectionStart, selectionEnd) <= len(text)`
does not hold in that state. -/
theorem offset_invariant_violated (MAX_STACK_SIZE : Nat) (hmax : 1 ≤ MAX_STACK_SIZE) :
    ∃ st, Reachable MAX_STACK_SIZE st ∧ st.text = [] ∧
      ¬ st.cursorPosition ≤ st.text.length ∧
      ¬ max st.selectionStart st.selectionEnd ≤ st.text.length :=
  ⟨afterUndo MAX_STACK_SIZE, afterUndo_reachable MAX_STACK_SIZE hmax, rfl,
    by simp [afterUndo], by simp [afterUndo]⟩

theorem offset_invariant_violated_witness :
    ∃ st, Reachable 100 st ∧ st.text = [] ∧ ¬ st.cursorPosition ≤ st.text.length ∧
      ¬ max st.selectionStart st.selectionEnd ≤ st.text.length :=
  offset_invariant_violated 100 (by decide)

/-- C5 (history push of the indent family), evaluated on the code.  On buffer
`"  //x"` with the cursor at offset 2, an empty selection and an empty history, each
of Tab (`insertTab`), Shift+Tab (`removeTab`), Ctrl+/ (`toggleComment`) and Ctrl+D
(`duplicateLine`) changes the buffer and leaves the undo stack empty: none of them
pushes the pre-mutation buffer. -/
theorem indent_family_pushes_no_history (MAX_STACK_SIZE : Nat) :
    (∃ st1, handleInput MAX_STACK_SIZE unitMetrics plainWorld (.KEY_DOWN .TAB)
        indentedLineState = .ok st1 ∧
      st1.text = [' ', ' ', ' ', ' ', '/', '/', 'x'] ∧ st1.undoStack = []) ∧
    (∃ st1, handleInput MAX_STACK_SIZE unitMetrics shiftWorld (.KEY_DOWN .TAB)
        indentedLineState = .ok st1 ∧
      st1.text = ['/', '/', 'x'] ∧ st1.undoStack = []) ∧
    (∃ st1, handleInput MAX_STACK_SIZE unitMetrics ctrlWorld (.KEY_DOWN .SLASH)
        indentedLineState = .ok st1 ∧
      st1.text = ['/', '/', ' ', ' ', '/', '/', 'x'] ∧ st1.undoStack = []) ∧
    (∃ st1, handleInput MAX_STACK_SIZE unitMetrics ctrlWorld (.KEY_DOWN .D)
        indentedLineState = .ok st1 ∧
      st1.text = [' ', ' ', '/', '/', 'x', ' ', ' ', '/', '/', 'x'] ∧
      st1.undoStack = []) :=
  ⟨⟨_, rfl, rfl, rfl⟩, ⟨_, rfl, rfl, rfl⟩, ⟨_, rfl, rfl, rfl⟩, ⟨_, rfl, rfl, rfl⟩⟩

/-! ## Theorems: line widths and the position mapper -/

section WrapInvariant

variable {W : Type} [Zero W] [Add W] [LT W] [DecidableRel (fun (a b : W) => a < b)]

/-- A property of lines that holds of the empty line emitted at a newline and of the
line emitted after the inner loop holds of every line `wrapLoop` appends. -/
theorem wrapLoop_forall (m : Metrics W) (text : Text) (P : WrappedLine → Prop)
    (hnl : ∀ p lli llsp, p < text.length → text[p]? = some '\n' → P ⟨p, [], lli, llsp⟩)
    (hline : ∀ p lli llsp, p < text.length → text[p]? ≠ some '\n' →
      P ⟨p, (text.drop p).take (wrapInner m (text.drop p) p 0 0).2, lli, llsp⟩) :
    ∀ (fuel p lli llsp : Nat) (acc lines : List WrappedLine),
      wrapLoop m text fuel p lli llsp acc = .ok lines → (∀ l ∈ acc, P l) →
      ∀ l ∈ lines, P l := by
  intro fuel
  induction fuel with
  | zero =>
    intro p lli llsp acc lines h hacc
    by_cases hp : p < text.length
    · simp [wrapLoop, hp] at h
    · simp only [wrapLoop, hp, if_false, Except.ok.injEq] at h
      subst h
      exact hacc
  | succ fuel ih =>
    intro p lli llsp acc lines h hacc
    by_cases hp : p < text.length
    · by_cases hn : text[p]? = some '\n'
      · rw [wrapLoop, if_pos hp, if_pos hn] at h
        refine ih _ _ _ _ _ h ?_
        intro l hl
        rcases List.mem_append.mp hl with hl | hl
        · exact hacc l hl
        · rw [List.mem_singleton] at hl
          subst hl
          exact hnl p lli llsp hp hn
      · have hsub : strSubstr text p (wrapInner m (text.drop p) p 0 0).2 =
            .ok ((text.drop p).take (wrapInner m (text.drop p) p 0 0).2) := by
          simp [strSubstr, Nat.le_of_lt hp]
        have hacc1 : ∀ l ∈ acc ++ [(⟨p, (text.drop p).take (wrapInner m (text.drop p) p 0 0).2,
            lli, llsp⟩ : WrappedLine)], P l := by
          intro l hl
          rcases List.mem_append.mp hl with hl | hl
          · exact hacc l hl
          · rw [List.mem_singleton] at hl
            subst hl
            exact hline p lli llsp hp hn
        rw [wrapLoop, if_pos hp, if_neg hn] at h
        simp only [hsub] at h
        split at h
        · exact ih _ _ _ _ _ h hacc1
        · exact ih _ _ _ _ _ h hacc1
    · simp only [wrapLoop, hp, if_false, Except.ok.injEq] at h
      subst h
      exact hacc

theorem wrapText_forall (m : Metrics W) (text : Text) (P : WrappedLine → Prop)
    (hnl : ∀ p lli llsp, p < text.length → text[p]? = some '\n' → P ⟨p, [], lli, llsp⟩)
    (hline : ∀ p lli llsp, p < text.length → text[p]? ≠ some '\n' →
      P ⟨p, (text.drop p).take (wrapInner m (text.drop p) p 0 0).2, lli, llsp⟩)
    (lines : List WrappedLine) (h : wrapText m text = .ok lines) : ∀ l ∈ lines, P l :=
  wrapLoop_forall m text P hnl hline text.length 0 0 0 [] lines h (by simp)

end WrapInvariant

section WidthBound

variable {W : Type} [Zero W] [Add W] [LinearOrder W]

theorem wrapInner_width (m : Metrics W) (cs : List Char) :
    ∀ (p : Nat) (w : W) (n : Nat),
      ∃ k, k ≤ cs.length ∧ wrapInner m cs p w n = (p + k, n + k) ∧
        (2 ≤ n + k → 1 ≤ k →
          (cs.take k).foldl (fun totalWidth c => totalWidth + m.widthOf c) w ≤
            m.availableWidth) := by
  induction cs with
  | nil => intro p w n; exact ⟨0, by simp [wrapInner]⟩
  | cons c cs ih =>
    intro p w n
    by_cases hc : c = '\n'
    · exact ⟨0, by simp, by simp [wrapInner, hc], fun _ h => absurd h (by omega)⟩
    · by_cases hb : m.availableWidth < w + m.widthOf c ∧ 0 < n
      · exact ⟨0, by simp, by simp [wrapInner, hc, hb], fun _ h => absurd h (by omega)⟩
      · obtain ⟨k, hk, he, hw⟩ := ih (p + 1) (w + m.widthOf c) (n + 1)
        refine ⟨k + 1, by simpa using hk, ?_, ?_⟩
        · rw [wrapInner, if_neg hc, if_neg hb, he]
          simp only [Prod.mk.injEq]
          omega
        · intro h2 _
          rw [List.take_succ_cons, List.foldl_cons]
          by_cases hk0 : k = 0
          · subst hk0
            have hn : 0 < n := by omega
            have : ¬ m.availableWidth < w + m.widthOf c := fun h => hb ⟨h, hn⟩
            simpa using not_lt.mp this
          · exact hw (by omega) (by omega)

/-- C11 (greedy width bound), as amended.  In exact arithmetic on character widths
(any linearly ordered type of widths), for every buffer, width function and available
width, `wrapText` returns, and every returned line that holds two or more characters
has total character width `<= availableWidth`; a line wider than `availableWidth`
holds at most one character, and exactly one when `availableWidth >= 0` (an empty
line is wider than a negative `availableWidth`). -/
theorem wrapText_width_bound (m : Metrics W) (text : Text) :
    ∃ lines, wrapText m text = .ok lines ∧
      (∀ l ∈ lines, 2 ≤ l.text.length → measureTextWidth m l.text ≤ m.availableWidth) ∧
      (∀ l ∈ lines, m.availableWidth < measureTextWidth m l.text → l.text.length ≤ 1) ∧
      (0 ≤ m.availableWidth →
        ∀ l ∈ lines, m.availableWidth < measureTextWidth m l.text → l.text.length = 1) := by
  obtain ⟨lines, hl, _⟩ := wrapText_tiles m text
  have hbound : ∀ l ∈ lines, 2 ≤ l.text.length →
      measureTextWidth m l.text ≤ m.availableWidth := by
    refine wrapText_forall m text _ ?_ ?_ lines hl
    · intro p lli llsp _ _ h
      simp at h
    · intro p lli llsp _ _ h
      obtain ⟨k, hk, he, hw⟩ := wrapInner_width m (text.drop p) p (0 : W) 0
      simp only [he, Nat.zero_add] at h ⊢
      have hlen : ((text.drop p).take k).length = k := by
        rw [List.length_take]; omega
      rw [hlen] at h
      exact hw (by omega) (by omega)
  have hone : ∀ l ∈ lines, m.availableWidth < measureTextWidth m l.text →
      l.text.length ≤ 1 := by
    intro l hmem hwide
    by_contra h2
    exact absurd (hbound l hmem (by omega)) (not_le.mpr hwide)
  refine ⟨lines, hl, hbound, hone, ?_⟩
  intro hpos l hmem hwide
  have hne : l.text ≠ [] := by
    intro h0
    rw [h0] at hwide
    simp only [measureTextWidth, List.foldl_nil] at hwide
    exact absurd hwide (not_lt.mpr hpos)
  have h1 := hone l hmem hwide
  have h2 := List.length_pos.mpr hne
  omega

end WidthBound

theorem wrapText_width_bound_witness :
    (0 : Nat) ≤ wideCharMetrics.availableWidth ∧
      ∃ lines, wrapText wideCharMetrics ['a', 'b'] = .ok lines ∧ lines.length = 2 ∧
        ∀ l ∈ lines, wideCharMetrics.availableWidth < measureTextWidth wideCharMetrics l.text →
          l.text.length = 1 := by
  refine ⟨by decide, ?_⟩
  obtain ⟨lines, hl, _, _, h3⟩ := wrapText_width_bound wideCharMetrics ['a', 'b']
  refine ⟨lines, hl, ?_, h3 (by decide)⟩
  have h2 : wrapText wideCharMetrics ['a', 'b'] = .ok [⟨0, ['a'], 0, 0⟩, ⟨1, ['b'], 0, 0⟩] := by
    decide
  rw [hl] at h2
  injection h2 with h2
  rw [h2]
  rfl

/-- C11 as stated fails for empty lines: with `availableWidth = -1` the buffer `"\n"`
wraps to one empty line, whose width 0 exceeds `availableWidth` although it does not
consist of exactly one character. -/
theorem empty_line_exceeds_negative_width :
    wrapText negativeWidthMetrics ['\n'] = .ok [⟨0, [], 0, 0⟩] ∧
      ¬ (∀ l ∈ [(⟨0, [], 0, 0⟩ : WrappedLine)],
        negativeWidthMetrics.availableWidth < measureTextWidth negativeWidthMetrics l.text →
          l.text.length = 1) := by
  refine ⟨by decide, ?_⟩
  intro h
  have := h ⟨0, [], 0, 0⟩ (List.mem_singleton.mpr rfl) (by decide)
  exact absurd this (by decide)

theorem getLineIndexLoop_some (position : Nat) (ls : List WrappedLine) :
    ∀ (k r : Nat), getLineIndexLoop position ls k = some r →
      ∃ i l, r = k + i ∧ ls[i]? = some l ∧ containsPosition l position ∧
        ∀ j l1, j < i → ls[j]? = some l1 → ¬ containsPosition l1 position := by
  induction ls with
  | nil => intro k r h; simp [getLineIndexLoop] at h
  | cons a ls ih =>
    intro k r h
    by_cases hc : a.startPos ≤ position ∧ position ≤ a.startPos + a.text.length
    · simp only [getLineIndexLoop, hc, and_self, if_true, Option.some.injEq] at h
      exact ⟨0, a, by omega, by simp, hc, fun j _ hj => absurd hj (by omega)⟩
    · rw [getLineIndexLoop, if_neg hc] at h
      obtain ⟨i, l, hr, hl, hcl, hmin⟩ := ih (k + 1) r h
      refine ⟨i + 1, l, by omega, by simpa using hl, hcl, ?_⟩
      intro j l1 hj hl1
      cases j with
      | zero =>
        simp only [List.getElem?_cons_zero, Option.some.injEq] at hl1
        subst hl1
        exact hc
      | succ j =>
        simp only [List.getElem?_cons_succ] at hl1
        exact hmin j l1 (by omega) hl1

theorem getLineIndexLoop_none (position : Nat) (ls : List WrappedLine) :
    ∀ (k : Nat), getLineIndexLoop position ls k = none →
      ∀ l ∈ ls, ¬ containsPosition l position := by
  induction ls with
  | nil => intro k _ l hl; simp at hl
  | cons a ls ih =>
    intro k h l hl
    by_cases hc : a.startPos ≤ position ∧ position ≤ a.startPos + a.text.length
    · simp [getLineIndexLoop, hc] at h
    · rw [getLineIndexLoop, if_neg hc] at h
      rcases List.mem_cons.mp hl with rfl | hl
      · exact hc
      · exact ih (k + 1) h l hl

theorem sizeSub_one_of_pos (n : Nat) (h0 : 0 < n) (hn : n ≤ SIZE_MODULUS) :
    sizeSub n 1 = n - 1 := by
  unfold sizeSub
  have h1 : n + SIZE_MODULUS - 1 = (n - 1) + SIZE_MODULUS := by omega
  rw [h1, Nat.add_mod_right]
  exact Nat.mod_eq_of_lt (by omega)

theorem sizeSub_of_le (a b : Nat) (hb : b ≤ a) (ha : a < SIZE_MODULUS) :
    sizeSub a b = a - b := by
  unfold sizeSub
  have h1 : a + SIZE_MODULUS - b = (a - b) + SIZE_MODULUS := by omega
  rw [h1, Nat.add_mod_right]
  exact Nat.mod_eq_of_lt (by omega)

theorem sizeAdd_of_lt (a b : Nat) (h : a + b < SIZE_MODULUS) : sizeAdd a b = a + b := by
  unfold sizeAdd
  exact Nat.mod_eq_of_lt h

/-- The first line that holds `position`, when there is one, is what
`getLineIndexAtPosition` returns. -/
theorem getLineIndexAtPosition_found (position : Nat) (lines : List WrappedLine)
    (i : Nat) (l : WrappedLine) (hl : lines[i]? = some l) (hc : containsPosition l position)
    (hmin : ∀ j l1, j < i → lines[j]? = some l1 → ¬ containsPosition l1 position) :
    getLineIndexAtPosition position lines = i := by
  unfold getLineIndexAtPosition
  cases hloop : getLineIndexLoop position lines 0 with
  | none =>
    have := getLineIndexLoop_none position lines 0 hloop l (List.getElem?_mem hl)
    exact absurd hc this
  | some r =>
    obtain ⟨i1, l1, hr, hl1, hc1, hmin1⟩ := getLineIndexLoop_some position lines 0 r hloop
    simp only
    rcases Nat.lt_trichotomy i1 i with hlt | heq | hgt
    · exact absurd hc1 (hmin i1 l1 hlt hl1)
    · omega
    · exact absurd hc (hmin1 i l hgt hl)

theorem getLineIndexAtPosition_not_found (position : Nat) (lines : List WrappedLine)
    (hnone : ∀ l ∈ lines, ¬ containsPosition l position) :
    getLineIndexAtPosition position lines = sizeSub lines.length 1 := by
  unfold getLineIndexAtPosition
  cases hloop : getLineIndexLoop position lines 0 with
  | none => rfl
  | some r =>
    obtain ⟨i1, l1, _, hl1, hc1, _⟩ := getLineIndexLoop_some position lines 0 r hloop
    exact absurd hc1 (hnone l1 (List.getElem?_mem hl1))

section EmptyBuffer

variable {W : Type} [Zero W] [Add W] [LT W] [DecidableRel (fun (a b : W) => a < b)]

/-- C13 (lineIndexAt is fail-soft), evaluated on the code.  For the empty buffer
`wrapText` returns the empty line list, and for every offset
`getLineIndexAtPosition` returns `lines.size() - 1` computed in `size_t`, that is
`2 ^ 64 - 1`: not an index of the list, and `lines[...]` with it is undefined
behaviour. -/
theorem lineIndex_of_empty_buffer (m : Metrics W) (position : Nat) :
    wrapText m [] = .ok [] ∧
      getLineIndexAtPosition position [] = 18446744073709551615 ∧
      ¬ getLineIndexAtPosition position [] < ([] : List WrappedLine).length ∧
      vecAt [] (getLineIndexAtPosition position []) = .error .undefinedBehaviour :=
  ⟨rfl, rfl, Nat.not_lt_zero _, rfl⟩

/-- C14 (operations on an empty buffer), evaluated on the code.  On the empty buffer
with cursor 0 and no selection, `moveCursorUp`, `moveCursorToLineStart`,
`moveCursorToLineEnd`, `jumpToMiddleOfLine` and `toggleComment` index the empty line
list out of range (undefined behaviour), while `moveCursorDown`, `removeTab`,
`duplicateLine`, Backspace and Delete return with buffer, cursor and selection
unchanged. -/
theorem empty_buffer_operations (m : Metrics W) (shiftPressed : Bool)
    (MAX_STACK_SIZE : Nat) :
    moveCursorUp m shiftPressed emptyBufferState = .error .undefinedBehaviour ∧
    moveCursorToLineStart m shiftPressed emptyBufferState = .error .undefinedBehaviour ∧
    moveCursorToLineEnd m shiftPressed emptyBufferState = .error .undefinedBehaviour ∧
    jumpToMiddleOfLine m emptyBufferState = .error .undefinedBehaviour ∧
    toggleComment m emptyBufferState = .error .undefinedBehaviour ∧
    moveCursorDown m shiftPressed emptyBufferState = .ok emptyBufferState ∧
    removeTab m emptyBufferState = .ok emptyBufferState ∧
    duplicateLine m emptyBufferState = .ok emptyBufferState ∧
    keyBackspace MAX_STACK_SIZE emptyBufferState = .ok emptyBufferState ∧
    keyDelete MAX_STACK_SIZE emptyBufferState = .ok emptyBufferState :=
  ⟨rfl, rfl, rfl, rfl, rfl, rfl, rfl, rfl, rfl, rfl⟩

end EmptyBuffer

/-- C18 (outdent keeps the selection on the same text), evaluated on the code.  On
buffer `"  ab"` with the forward selection `[3, 4)` (the text `"b"`), `removeTab`
removes the two leading spaces, leaves `selectionStart = 3` and sets
`selectionEnd = 2` and the cursor to 3: the buffer `"ab"` has length 2, so
`selectionStart` and the cursor are not valid offsets and the bounds no longer
enclose `"b"`, which now lies at `[1, 2)`. -/
theorem removeTab_selection_drifts :
    removeTab unitMetrics indentedSelectionState =
      .ok { indentedSelectionState with
        text := ['a', 'b']
        selectionStart := 3
        selectionEnd := 2
        cursorPosition := 3 } ∧
    ¬ (3 ≤ (['a', 'b'] : Text).length) := by
  decide

/-- C19 (outdent without a selection), evaluated on the code.  On buffer `"a\n  b"`
with the cursor at offset 1, at the end of the first line immediately before its
newline, `removeTab` leaves the cursor's line alone, removes the two leading spaces
of the next line and sets the cursor to `1 - 2` in `size_t`, that is `2 ^ 64 - 1`:
`text.rfind('\n', cursorPosition)` finds the newline at the cursor itself. -/
theorem removeTab_at_line_end :
    strRfind cursorBeforeNewlineState.text '\n' cursorBeforeNewlineState.cursorPosition =
      some 1 ∧
    removeTab unitMetrics cursorBeforeNewlineState =
      .ok { cursorBeforeNewlineState with
        text := ['a', '\n', 'b']
        cursorPosition := 18446744073709551615 } := by
  decide

/-- C20 (line-comment strip), evaluated on the code.  On buffer `"//x"` with the
cursor at column 0 or 1 of the first line, `toggleComment` strips the two characters
and sets the cursor to `max(cursorPosition - 2, lineStart)` with the difference taken
in `size_t`: `2 ^ 64 - 2` and `2 ^ 64 - 1`, not the line start 0, and far past the
end of the buffer `"x"`. -/
theorem toggleComment_cursor_wraps :
    toggleComment unitMetrics (commentedLineState 0) =
      .ok { commentedLineState 0 with
        text := ['x']
        cursorPosition := 18446744073709551614 } ∧
    toggleComment unitMetrics (commentedLineState 1) =
      .ok { commentedLineState 1 with
        text := ['x']
        cursorPosition := 18446744073709551615 } ∧
    toggleComment unitMetrics (commentedLineState 2) =
      .ok { commentedLineState 2 with
        text := ['x']
        cursorPosition := 0 } := by
  decide

/-! ## Theorems: vertical navigation -/

theorem tiles_length (text : Text) :
    ∀ (ls : List WrappedLine) (pos : Nat), Tiles text pos ls →
      ls = [] ∨ pos + ls.length ≤ text.length := by
  intro ls
  induction ls with
  | nil => intro pos _; exact Or.inl rfl
  | cons l ls ih =>
    intro pos h
    obtain ⟨hs, hp, _, hle, _, hempty, ht⟩ := h
    right
    have hstep : pos + 1 ≤ pos + l.text.length + (if newlineAfter text l then 1 else 0) := by
      by_cases hl : l.text = []
      · have hnl : newlineAfter text l = true := by
          simp [newlineAfter, hs, hl, hempty hl]
        rw [if_pos hnl]; omega
      · have : 0 < l.text.length := List.length_pos.mpr hl
        omega
    rcases ih _ ht with h0 | h1
    · subst h0
      simp only [List.length_singleton]
      omega
    · simp only [List.length_cons]
      omega

/-- Below the end of the last line every offset lies in some line: an offset that
lies in no line is past the end of every line. -/
theorem tiles_not_contained (text : Text) :
    ∀ (ls : List WrappedLine) (pos x : Nat), Tiles text pos ls → pos ≤ x →
      (∀ l ∈ ls, ¬ containsPosition l x) → ∀ l ∈ ls, l.startPos + l.text.length < x := by
  intro ls
  induction ls with
  | nil => intro pos x _ _ _ l hl; simp at hl
  | cons a ls ih =>
    intro pos x h hx hnone l hl
    obtain ⟨hs, _, _, _, _, _, ht⟩ := h
    have ha : a.startPos + a.text.length < x := by
      have := hnone a (List.mem_cons_self _ _)
      unfold containsPosition at this
      omega
    rcases List.mem_cons.mp hl with rfl | hl
    · exact ha
    · refine ih _ x ht ?_ (fun l1 hl1 => hnone l1 (List.mem_cons_of_mem _ hl1)) l hl
      split <;> omega

theorem updateSelection_cursor (shiftPressed : Bool) (old : Nat) (st : EditorState) :
    (updateSelection shiftPressed old st).cursorPosition = st.cursorPosition ∧
      (updateSelection shiftPressed old st).text = st.text := by
  unfold updateSelection
  cases shiftPressed
  · simp [resetSelection]
  · by_cases h : hasSelection st = true <;> simp [h]

section Vertical

variable {W : Type} [Zero W] [Add W] [LT W] [DecidableRel (fun (a b : W) => a < b)]

theorem wrapText_tiles_of_eq (m : Metrics W) (text : Text) (lines : List WrappedLine)
    (hw : wrapText m text = .ok lines) : Tiles text 0 lines := by
  obtain ⟨ls, hl, ht⟩ := wrapText_tiles m text
  rw [hw] at hl
  injection hl with hl
  rw [hl]
  exact ht

/-- The line found for an offset of the buffer starts at or before the offset. -/
theorem lineStart_le_position (m : Metrics W) (text : Text) (lines : List WrappedLine)
    (hw : wrapText m text = .ok lines) (x : Nat) (cur : WrappedLine)
    (hcur : lines[getLineIndexAtPosition x lines]? = some cur) : cur.startPos ≤ x := by
  have ht := wrapText_tiles_of_eq m text lines hw
  unfold getLineIndexAtPosition at hcur
  cases hloop : getLineIndexLoop x lines 0 with
  | some r =>
    obtain ⟨i, l, hr, hl, hc, _⟩ := getLineIndexLoop_some x lines 0 r hloop
    rw [hloop] at hcur
    simp only at hcur
    have : r = i := by omega
    subst this
    rw [hl] at hcur
    injection hcur with hcur
    subst hcur
    exact hc.1
  | none =>
    have hnone := getLineIndexLoop_none x lines 0 hloop
    have := tiles_not_contained text lines 0 x ht (Nat.zero_le _) hnone cur
      (List.getElem?_mem hcur)
    omega

/-- C15 (vertical navigation).  For every buffer shorter than `2 ^ 64`, every width
and every cursor `<= len(text)`, with `lines = wrapText(text)` and
`i = lineIndexAt(cursor, lines)`: if line `i` is not the last line then
`moveCursorDown` returns with cursor
`lines[i+1].startPos + min(len(lines[i+1].text), cursor - lines[i].startPos)`, which
lies inside line `i+1`, and if `i > 0` then `moveCursorUp` returns with cursor
`lines[i-1].startPos + min(len(lines[i-1].text), cursor - lines[i].startPos)`, which
lies inside line `i-1`; in both cases `lines[i].startPos <= cursor`, so the
difference is the column of the cursor, and the buffer is unchanged. -/
theorem vertical_navigation (m : Metrics W) (shiftPressed : Bool) (st : EditorState)
    (lines : List WrappedLine) (hw : wrapText m st.text = .ok lines)
    (hc : st.cursorPosition ≤ st.text.length) (hsize : st.text.length < SIZE_MODULUS) :
    (∀ cur next, lines[getLineIndexAtPosition st.cursorPosition lines]? = some cur →
      lines[getLineIndexAtPosition st.cursorPosition lines + 1]? = some next →
      cur.startPos ≤ st.cursorPosition ∧
      ∃ st1, moveCursorDown m shiftPressed st = .ok st1 ∧
        st1.cursorPosition =
          next.startPos + min next.text.length (st.cursorPosition - cur.startPos) ∧
        containsPosition next st1.cursorPosition ∧ st1.text = st.text) ∧
    (∀ cur prev, 0 < getLineIndexAtPosition st.cursorPosition lines →
      lines[getLineIndexAtPosition st.cursorPosition lines]? = some cur →
      lines[getLineIndexAtPosition st.cursorPosition lines - 1]? = some prev →
      cur.startPos ≤ st.cursorPosition ∧
      ∃ st1, moveCursorUp m shiftPressed st = .ok st1 ∧
        st1.cursorPosition =
          prev.startPos + min prev.text.length (st.cursorPosition - cur.startPos) ∧
        containsPosition prev st1.cursorPosition ∧ st1.text = st.text) := by
  have ht := wrapText_tiles_of_eq m st.text lines hw
  refine ⟨?_, ?_⟩
  · intro cur next hcur hnext
    have hle := lineStart_le_position m st.text lines hw st.cursorPosition cur hcur
    have hsub := sizeSub_of_le st.cursorPosition cur.startPos hle (by omega)
    have hlt : getLineIndexAtPosition st.cursorPosition lines + 1 < lines.length :=
      (List.getElem?_eq_some_iff.mp hnext).1
    have hlen : lines.length ≤ st.text.length := by
      rcases tiles_length st.text lines 0 ht with h0 | h1
      · rw [h0] at hlt; simp at hlt
      · omega
    have hlast : ¬ sizeSub lines.length 1 ≤ getLineIndexAtPosition st.cursorPosition lines := by
      rw [sizeSub_one_of_pos _ (by omega) (by omega)]
      omega
    refine ⟨hle, updateSelection shiftPressed st.cursorPosition
      { st with cursorPosition :=
          next.startPos + min next.text.length (st.cursorPosition - cur.startPos) },
      ?_, ?_, ?_, ?_⟩
    · simp only [moveCursorDown, hw, bind, Except.bind, hlast, if_false,
        getLineStartPosition, vecAt, hnext, hcur, hsub]
    · exact (updateSelection_cursor _ _ _).1
    · rw [(updateSelection_cursor _ _ _).1]
      unfold containsPosition
      simp only
      omega
    · exact (updateSelection_cursor _ _ _).2
  · intro cur prev hpos hcur hprev
    have hle := lineStart_le_position m st.text lines hw st.cursorPosition cur hcur
    have hsub := sizeSub_of_le st.cursorPosition cur.startPos hle (by omega)
    have hne : ¬ getLineIndexAtPosition st.cursorPosition lines = 0 := by omega
    refine ⟨hle, updateSelection shiftPressed st.cursorPosition
      { st with cursorPosition :=
          prev.startPos + min prev.text.length (st.cursorPosition - cur.startPos) },
      ?_, ?_, ?_, ?_⟩
    · simp only [moveCursorUp, hw, bind, Except.bind, hne, if_false,
        getLineStartPosition, vecAt, hprev, hcur, hsub]
    · exact (updateSelection_cursor _ _ _).1
    · rw [(updateSelection_cursor _ _ _).1]
      unfold containsPosition
      simp only
      omega
    · exact (updateSelection_cursor _ _ _).2

end Vertical

theorem vertical_navigation_witness :
    wrapText unitMetrics twoLineState.text = .ok twoLines ∧
      twoLineState.cursorPosition ≤ twoLineState.text.length ∧
      ∃ st1, moveCursorDown unitMetrics false twoLineState = .ok st1 ∧
        st1.cursorPosition = 4 := by
  have hw : wrapText unitMetrics twoLineState.text = .ok twoLines := by decide
  refine ⟨hw, by decide, ?_⟩
  obtain ⟨_, st1, h1, h2, _, _⟩ :=
    (vertical_navigation unitMetrics false twoLineState twoLines hw (by decide)
      (by decide)).1 ⟨0, ['a', 'b'], 0, 0⟩ ⟨3, ['c', 'd'], 1, 3⟩ (by decide) (by decide)
  exact ⟨st1, h1, by simpa [twoLineState] using h2⟩

/-! ## Theorems: indent with a selection -/

theorem reassemble_nil (text : Text) : reassemble text [] = [] := rfl

theorem reassemble_cons (text : Text) (l : WrappedLine) (ls : List WrappedLine) :
    reassemble text (l :: ls) = lineWithNewline text l ++ reassemble text ls := by
  simp [reassemble]

theorem reassemble_append (text : Text) (xs ys : List WrappedLine) :
    reassemble text (xs ++ ys) = reassemble text xs ++ reassemble text ys := by
  simp [reassemble]

theorem lineWithNewline_length (text : Text) (l : WrappedLine) :
    (lineWithNewline text l).length =
      l.text.length + (if newlineAfter text l then 1 else 0) := by
  unfold lineWithNewline
  by_cases h : newlineAfter text l = true <;> simp [h]

/-- The buffer from the start of a line on: the line, the newline consumed after it,
and the buffer from the start of the next line on. -/
theorem tiles_cons_drop (text : Text) (pos : Nat) (l : WrappedLine) (ls : List WrappedLine)
    (h : Tiles text pos (l :: ls)) :
    text.drop pos = lineWithNewline text l ++
      text.drop (pos + l.text.length + (if newlineAfter text l then 1 else 0)) := by
  have h1 := tiles_reassemble text (l :: ls) pos h
  have h2 := tiles_reassemble text ls _ h.2.2.2.2.2.2
  rw [reassemble_cons, h2] at h1
  exact h1.symm

theorem tiles_split (text : Text) :
    ∀ (ls : List WrappedLine) (pos i : Nat) (l : WrappedLine), Tiles text pos ls →
      ls[i]? = some l →
      text.drop pos = reassemble text (ls.take i) ++ text.drop l.startPos ∧
        l.startPos = pos + (reassemble text (ls.take i)).length ∧
        Tiles text l.startPos (ls.drop i) := by
  intro ls
  induction ls with
  | nil => intro pos i l _ hl; simp at hl
  | cons a ls ih =>
    intro pos i l h hl
    cases i with
    | zero =>
      simp only [List.getElem?_cons_zero, Option.some.injEq] at hl
      subst hl
      have hs : a.startPos = pos := h.1
      simp only [List.take_zero, reassemble_nil, List.nil_append, List.length_nil,
        Nat.add_zero, List.drop_zero, hs]
      exact ⟨trivial, trivial, by simpa [hs] using h⟩
    | succ j =>
      simp only [List.getElem?_cons_succ] at hl
      obtain ⟨h1, h2, h3⟩ := ih _ j l h.2.2.2.2.2.2 hl
      refine ⟨?_, ?_, by simpa using h3⟩
      · rw [tiles_cons_drop text pos a ls h, h1, List.take_succ_cons, reassemble_cons,
          List.append_assoc]
      · rw [h2, List.take_succ_cons, reassemble_cons, List.length_append,
          lineWithNewline_length]
        omega

theorem tiles_start_lt (text : Text) :
    ∀ (ls : List WrappedLine) (pos : Nat), Tiles text pos ls →
      ∀ l ∈ ls, l.startPos < text.length := by
  intro ls
  induction ls with
  | nil => intro pos _ l hl; simp at hl
  | cons a ls ih =>
    intro pos h l hl
    rcases List.mem_cons.mp hl with rfl | hl
    · rw [h.1]; exact h.2.1
    · exact ih _ h.2.2.2.2.2.2 l hl

theorem vecAt_of_getElem? (lines : List WrappedLine) (i : Nat) (l : WrappedLine)
    (h : lines[i]? = some l) : vecAt lines i = .ok l := by
  simp [vecAt, h]

theorem strInsert_at_length (x y s : Text) :
    strInsert (x ++ y) x.length s = .ok (x ++ s ++ y) := by
  simp [strInsert]

/-- The indent loop of `insertTab`: started at line `i`, which begins at offset `pos`
of the original buffer, on a buffer whose first `pos + offset` characters `x` are
already processed, it indents the next `n` lines. -/
theorem insertTabLoop_indents (text : Text) (lines : List WrappedLine) :
    ∀ (n i pos offset : Nat) (x : Text), Tiles text pos (lines.drop i) →
      i + n ≤ lines.length → x.length = pos + offset →
      text.length + offset + 2 * n < SIZE_MODULUS →
      insertTabLoop lines false n i (x ++ text.drop pos) offset =
        .ok (x ++ indentBlock text ((lines.drop i).take n) ++
          reassemble text (lines.drop (i + n)), offset + 2 * n) := by
  intro n
  induction n with
  | zero =>
    intro i pos offset x ht _ _ _
    simp only [insertTabLoop, List.take_zero, indentBlock, List.map_nil, List.flatten_nil,
      List.append_nil, Nat.add_zero, Nat.mul_zero]
    rw [tiles_reassemble text _ pos ht]
  | succ n ih =>
    intro i pos offset x ht hlen hx hsize
    have hi : i < lines.length := by omega
    have hdrop : lines.drop i = lines[i] :: lines.drop (i + 1) :=
      List.drop_eq_getElem_cons hi
    rw [hdrop] at ht
    have hget : lines[i]? = some lines[i] := List.getElem?_eq_getElem hi
    have hs : lines[i].startPos = pos := ht.1
    have hp : pos < text.length := ht.2.1
    have hsplit := tiles_cons_drop text pos _ _ ht
    have hnext := ht.2.2.2.2.2.2
    have hll := lineWithNewline_length text lines[i]
    have hadd : sizeAdd lines[i].startPos offset = x.length := by
      rw [sizeAdd_of_lt _ _ (by omega), hs, hx]
    have hadd2 : sizeAdd offset space_size = offset + 2 := by
      rw [sizeAdd_of_lt _ _ (by simp only [space_size]; omega)]
      rfl
    have hrec := ih (i + 1)
      (pos + lines[i].text.length + (if newlineAfter text lines[i] then 1 else 0))
      (offset + 2) (x ++ [' ', ' '] ++ lineWithNewline text lines[i]) hnext (by omega)
      (by simp only [List.length_append, hll, hx, List.length_cons, List.length_nil]; omega)
      (by omega)
    rw [insertTabLoop]
    simp only [vecAt_of_getElem? lines i _ hget, bind, Except.bind, hadd, hadd2,
      Bool.false_eq_true, if_false, strInsert_at_length]
    rw [hsplit]
    have hrepl : List.replicate space_size ' ' = [' ', ' '] := rfl
    rw [hrepl, show x ++ [' ', ' '] ++ (lineWithNewline text lines[i] ++
        text.drop (pos + lines[i].text.length +
          (if newlineAfter text lines[i] then 1 else 0))) =
      (x ++ [' ', ' '] ++ lineWithNewline text lines[i]) ++
        text.drop (pos + lines[i].text.length +
          (if newlineAfter text lines[i] then 1 else 0)) by simp, hrec, hdrop]
    simp only [List.take_succ_cons, indentBlock, List.map_cons, List.flatten_cons,
      List.append_assoc, Except.ok.injEq, Prod.mk.injEq]
    refine ⟨?_, by omega⟩
    rw [show i + 1 + n = i + (n + 1) by omega]

theorem tiles_last_end (text : Text) :
    ∀ (ls : List WrappedLine) (pos : Nat), Tiles text pos ls → ls ≠ [] →
      ∃ l ∈ ls, text.length ≤ l.startPos + l.text.length + 1 := by
  intro ls
  induction ls with
  | nil => intro pos _ h; exact absurd rfl h
  | cons a ls ih =>
    intro pos h _
    by_cases hls : ls = []
    · subst hls
      have hend : text.length ≤
          pos + a.text.length + (if newlineAfter text a then 1 else 0) := h.2.2.2.2.2.2
      refine ⟨a, List.mem_cons_self _ _, ?_⟩
      rw [h.1]
      split at hend <;> omega
    · obtain ⟨l, hl, hle⟩ := ih _ h.2.2.2.2.2.2 hls
      exact ⟨l, List.mem_cons_of_mem _ hl, hle⟩

theorem tiles_mono (text : Text) (ls : List WrappedLine) (pos : Nat) (h : Tiles text pos ls)
    (j i : Nat) (lj li : WrappedLine) (hji : j ≤ i) (hj : ls[j]? = some lj)
    (hi : ls[i]? = some li) : lj.startPos ≤ li.startPos := by
  obtain ⟨_, _, ht⟩ := tiles_split text ls pos j lj h hj
  have hmem : li ∈ ls.drop j := by
    apply List.getElem?_mem (n := i - j)
    rw [List.getElem?_drop, show j + (i - j) = i by omega]
    exact hi
  exact (tiles_lines text _ _ ht li hmem).1

/-- An offset before the end of the buffer lies in some line, and
`getLineIndexAtPosition` returns the first such line. -/
theorem lookup_found (text : Text) (ls : List WrappedLine) (h : Tiles text 0 ls) (x : Nat)
    (hx : x < text.length) :
    ∃ l, ls[getLineIndexAtPosition x ls]? = some l ∧ containsPosition l x ∧
      ∀ j l1, j < getLineIndexAtPosition x ls → ls[j]? = some l1 →
        ¬ containsPosition l1 x := by
  unfold getLineIndexAtPosition
  cases hloop : getLineIndexLoop x ls 0 with
  | some r =>
    obtain ⟨i, l, hr, hl, hc, hmin⟩ := getLineIndexLoop_some x ls 0 r hloop
    have hri : r = i := by omega
    subst hri
    exact ⟨l, hl, hc, hmin⟩
  | none =>
    exfalso
    have hnone := getLineIndexLoop_none x ls 0 hloop
    have hne : ls ≠ [] := by
      intro h0
      subst h0
      simp only [Tiles] at h
      omega
    obtain ⟨l, hl, hle⟩ := tiles_last_end text ls 0 h hne
    have := tiles_not_contained text ls 0 x h (Nat.zero_le _) hnone l hl
    omega

theorem lookup_of_exists (x : Nat) (ls : List WrappedLine)
    (hex : ¬ ∀ l ∈ ls, ¬ containsPosition l x) :
    ∃ l, ls[getLineIndexAtPosition x ls]? = some l ∧ containsPosition l x ∧
      ∀ j l1, j < getLineIndexAtPosition x ls → ls[j]? = some l1 →
        ¬ containsPosition l1 x := by
  unfold getLineIndexAtPosition
  cases hloop : getLineIndexLoop x ls 0 with
  | none => exact absurd (getLineIndexLoop_none x ls 0 hloop) hex
  | some r =>
    obtain ⟨i, l, hr, hl, hc, hmin⟩ := getLineIndexLoop_some x ls 0 r hloop
    have hri : r = i := by omega
    subst hri
    exact ⟨l, hl, hc, hmin⟩

theorem lookup_lt_length (text : Text) (ls : List WrappedLine) (h : Tiles text 0 ls)
    (hne : text ≠ []) (hsize : text.length < SIZE_MODULUS) (x : Nat) :
    getLineIndexAtPosition x ls < ls.length := by
  have hls : ls ≠ [] := by
    intro h0
    subst h0
    simp only [Tiles] at h
    exact hne (List.length_eq_zero.mp (by omega))
  have hlen : ls.length ≤ text.length := by
    rcases tiles_length text ls 0 h with h0 | h1
    · exact absurd h0 hls
    · omega
  unfold getLineIndexAtPosition
  cases hloop : getLineIndexLoop x ls 0 with
  | some r =>
    obtain ⟨i, l, hr, hl, _, _⟩ := getLineIndexLoop_some x ls 0 r hloop
    have := (List.getElem?_eq_some_iff.mp hl).1
    simp only
    omega
  | none =>
    simp only
    rw [sizeSub_one_of_pos _ (List.length_pos.mpr hls) (by omega)]
    have := List.length_pos.mpr hls
    omega

theorem lookup_mono (text : Text) (ls : List WrappedLine) (h : Tiles text 0 ls)
    (hsize : text.length < SIZE_MODULUS) (s e : Nat) (hse : s ≤ e) (hs : s < text.length) :
    getLineIndexAtPosition s ls ≤ getLineIndexAtPosition e ls := by
  have hne : text ≠ [] := by
    intro h0
    rw [h0] at hs
    simp at hs
  obtain ⟨la, hla, hca, hmina⟩ := lookup_found text ls h s hs
  have halt := lookup_lt_length text ls h hne hsize s
  by_cases hfound : ∀ l ∈ ls, ¬ containsPosition l e
  · rw [getLineIndexAtPosition_not_found e ls hfound]
    have hls : 0 < ls.length := by omega
    have hlen : ls.length ≤ text.length := by
      rcases tiles_length text ls 0 h with h0 | h1
      · rw [h0] at hls; simp at hls
      · omega
    rw [sizeSub_one_of_pos _ hls (by omega)]
    omega
  · by_contra hlt
    obtain ⟨lb, hb, hcb, _⟩ := lookup_of_exists e ls hfound
    have hmono := tiles_mono text ls 0 h _ _ _ la (by omega) hb hla
    apply hmina _ _ (by omega) hb
    unfold containsPosition at hca hcb ⊢
    omega

section IndentSelection

variable {W : Type} [Zero W] [Add W] [LT W] [DecidableRel (fun (a b : W) => a < b)]

/-- The loop of `insertTab` on the whole buffer: lines `a .. b` gain their indent. -/
theorem insertTabLoop_whole (text : Text) (lines : List WrappedLine)
    (ht : Tiles text 0 lines) (a b : Nat) (hab : a ≤ b) (hb : b < lines.length)
    (hsize : text.length + 2 * (b + 1 - a) < SIZE_MODULUS) :
    insertTabLoop lines false (b + 1 - a) a text 0 =
      .ok (indentedText text lines a b, 2 * (b + 1 - a)) := by
  have ha : a < lines.length := by omega
  have hget : lines[a]? = some lines[a] := List.getElem?_eq_getElem ha
  obtain ⟨h1, h2, h3⟩ := tiles_split text lines 0 a _ ht hget
  have hloop := insertTabLoop_indents text lines (b + 1 - a) a lines[a].startPos 0
    (reassemble text (lines.take a)) h3 (by omega) (by omega) (by omega)
  rw [List.drop_zero] at h1
  rw [← h1] at hloop
  rw [hloop, show a + (b + 1 - a) = b + 1 by omega]
  simp [indentedText]

/-- What `insertTab` does with a non-empty selection, in either direction. -/
theorem insertTab_selection_eq (m : Metrics W) (st : EditorState) (lines : List WrappedLine)
    (hw : wrapText m st.text = .ok lines) (hsel : st.selectionStart ≠ st.selectionEnd)
    (hs : st.selectionStart ≤ st.text.length) (he : st.selectionEnd ≤ st.text.length)
    (hsize : 3 * st.text.length < SIZE_MODULUS) :
    getLineIndexAtPosition (min st.selectionStart st.selectionEnd) lines ≤
        getLineIndexAtPosition (max st.selectionStart st.selectionEnd) lines ∧
      getLineIndexAtPosition (max st.selectionStart st.selectionEnd) lines < lines.length ∧
      lines.length ≤ st.text.length ∧
      insertTab m false st = .ok
        (if st.selectionStart < st.selectionEnd then
          { st with
            text := indentedText st.text lines
              (getLineIndexAtPosition (min st.selectionStart st.selectionEnd) lines)
              (getLineIndexAtPosition (max st.selectionStart st.selectionEnd) lines)
            selectionStart := st.selectionStart +
              (if getLineIndexAtPosition (min st.selectionStart st.selectionEnd) lines =
                getLineIndexAtPosition (max st.selectionStart st.selectionEnd) lines
               then 2 else 0)
            selectionEnd := st.selectionEnd + 2 *
              (getLineIndexAtPosition (max st.selectionStart st.selectionEnd) lines + 1 -
                getLineIndexAtPosition (min st.selectionStart st.selectionEnd) lines)
            cursorPosition := st.selectionEnd + 2 *
              (getLineIndexAtPosition (max st.selectionStart st.selectionEnd) lines + 1 -
                getLineIndexAtPosition (min st.selectionStart st.selectionEnd) lines) }
        else
          { st with
            text := indentedText st.text lines
              (getLineIndexAtPosition (min st.selectionStart st.selectionEnd) lines)
              (getLineIndexAtPosition (max st.selectionStart st.selectionEnd) lines)
            selectionEnd := st.selectionEnd +
              (if getLineIndexAtPosition (min st.selectionStart st.selectionEnd) lines =
                getLineIndexAtPosition (max st.selectionStart st.selectionEnd) lines
               then 2 else 0)
            selectionStart := st.selectionStart + 2 *
              (getLineIndexAtPosition (max st.selectionStart st.selectionEnd) lines + 1 -
                getLineIndexAtPosition (min st.selectionStart st.selectionEnd) lines)
            cursorPosition := st.selectionEnd +
              (if getLineIndexAtPosition (min st.selectionStart st.selectionEnd) lines =
                getLineIndexAtPosition (max st.selectionStart st.selectionEnd) lines
               then 2 else 0) }) := by
  have ht := wrapText_tiles_of_eq m st.text lines hw
  have hmin_lt : min st.selectionStart st.selectionEnd < st.text.length := by
    rcases Nat.lt_or_ge st.selectionStart st.selectionEnd with h | h
    · rw [Nat.min_eq_left (Nat.le_of_lt h)]; omega
    · rw [Nat.min_eq_right h]
      have : st.selectionEnd ≠ st.selectionStart := fun h0 => hsel h0.symm
      omega
  have hne : st.text ≠ [] := by
    intro h0
    rw [h0] at hmin_lt
    simp at hmin_lt
  have hminmax : min st.selectionStart st.selectionEnd ≤
      max st.selectionStart st.selectionEnd :=
    le_trans (min_le_left _ _) (le_max_left _ _)
  have hab := lookup_mono st.text lines ht (by omega)
    (min st.selectionStart st.selectionEnd) (max st.selectionStart st.selectionEnd)
    hminmax hmin_lt
  have hb := lookup_lt_length st.text lines ht hne (by omega)
    (max st.selectionStart st.selectionEnd)
  have hlen : lines.length ≤ st.text.length := by
    rcases tiles_length st.text lines 0 ht with h0 | h1
    · rw [h0] at hb; simp at hb
    · omega
  refine ⟨hab, hb, hlen, ?_⟩
  have hloop := insertTabLoop_whole st.text lines ht _ _ hab hb (by omega)
  simp only [insertTab, hsel, if_false, hw, bind, Except.bind, hloop]
  have hsame : ∀ x, x ≤ st.text.length →
      sizeAdd x (if getLineIndexAtPosition (min st.selectionStart st.selectionEnd) lines =
          getLineIndexAtPosition (max st.selectionStart st.selectionEnd) lines
        then space_size else 0) =
      x + (if getLineIndexAtPosition (min st.selectionStart st.selectionEnd) lines =
          getLineIndexAtPosition (max st.selectionStart st.selectionEnd) lines
        then 2 else 0) := by
    intro x hx
    split
    · exact sizeAdd_of_lt _ _ (by simp only [space_size]; omega)
    · exact sizeAdd_of_lt _ _ (by omega)
  have hoff : ∀ x, x ≤ st.text.length →
      sizeAdd x (2 * (getLineIndexAtPosition (max st.selectionStart st.selectionEnd) lines + 1 -
        getLineIndexAtPosition (min st.selectionStart st.selectionEnd) lines)) =
      x + 2 * (getLineIndexAtPosition (max st.selectionStart st.selectionEnd) lines + 1 -
        getLineIndexAtPosition (min st.selectionStart st.selectionEnd) lines) :=
    fun x hx => sizeAdd_of_lt _ _ (by omega)
  by_cases hdir : st.selectionStart < st.selectionEnd
  · simp only [hdir, if_true, hsame _ hs, hoff _ he]
  · simp only [hdir, if_false, hsame _ he, hoff _ hs]

end IndentSelection

theorem tiles_hard_lines (text : Text) :
    ∀ (ls : List WrappedLine) (pos : Nat), Tiles text pos ls → NoSoftWrap text ls →
      (pos = 0 ∨ text[pos - 1]? = some '\n') → ∀ l ∈ ls, IsHardLine text l := by
  intro ls
  induction ls with
  | nil => intro pos _ _ _ l hl; simp at hl
  | cons a ls ih =>
    intro pos h hns hpos l hl
    obtain ⟨hs, hp, _, _, hnn, _, ht⟩ := h
    have hnsa := hns a (List.mem_cons_self _ _)
    rcases List.mem_cons.mp hl with rfl | hl
    · exact ⟨by rw [hs]; exact hpos, hnsa, hnn⟩
    · refine ih _ ht (fun l1 hl1 => hns l1 (List.mem_cons_of_mem _ hl1)) ?_ l hl
      rw [hs] at hnsa
      rcases hnsa with hend | hnl
      · exfalso
        have := tiles_start_lt text ls _ ht l hl
        have := (tiles_lines text ls _ ht l hl).1
        split at this <;> omega
      · right
        have hnl1 : newlineAfter text a = true := by simp [newlineAfter, hs, hnl]
        rw [if_pos hnl1]
        simpa using hnl

section IndentClaim

variable {W : Type} [Zero W] [Add W] [LT W] [DecidableRel (fun (a b : W) => a < b)]

/-- Indent with a forward selection whose bounds the editor's line lookup places on
two different lines of a buffer without soft wrap: the lines from the one found for
the selection start to the one found for the selection end gain a two-space prefix,
`selectionStart` stays and `selectionEnd` and the cursor move by two per line. -/
theorem insertTab_indents_lookup_lines (m : Metrics W) (st : EditorState)
    (lines : List WrappedLine) (hw : wrapText m st.text = .ok lines)
    (hns : NoSoftWrap st.text lines) (hfwd : st.selectionStart < st.selectionEnd)
    (he : st.selectionEnd ≤ st.text.length)
    (hN : getLineIndexAtPosition st.selectionStart lines <
      getLineIndexAtPosition st.selectionEnd lines)
    (hsize : 3 * st.text.length < SIZE_MODULUS) :
    (∀ l ∈ lines, IsHardLine st.text l) ∧ reassemble st.text lines = st.text ∧
      getLineIndexAtPosition st.selectionEnd lines < lines.length ∧
      ∃ st1, insertTab m insertTabDefault st = .ok st1 ∧
        st1.text = indentedText st.text lines
          (getLineIndexAtPosition st.selectionStart lines)
          (getLineIndexAtPosition st.selectionEnd lines) ∧
        st1.selectionStart = st.selectionStart ∧
        st1.selectionEnd = st.selectionEnd + 2 *
          (getLineIndexAtPosition st.selectionEnd lines -
            getLineIndexAtPosition st.selectionStart lines + 1) ∧
        st1.cursorPosition = st1.selectionEnd := by
  have ht := wrapText_tiles_of_eq m st.text lines hw
  have hmin : min st.selectionStart st.selectionEnd = st.selectionStart :=
    Nat.min_eq_left (Nat.le_of_lt hfwd)
  have hmax : max st.selectionStart st.selectionEnd = st.selectionEnd :=
    Nat.max_eq_right (Nat.le_of_lt hfwd)
  obtain ⟨_, hb, _, heq⟩ := insertTab_selection_eq m st lines hw (Nat.ne_of_lt hfwd)
    (by omega) he hsize
  rw [hmin, hmax] at heq
  rw [hmax] at hb
  rw [if_pos hfwd, if_neg (Nat.ne_of_lt hN)] at heq
  refine ⟨tiles_hard_lines st.text lines 0 ht hns (Or.inl rfl),
    by simpa using tiles_reassemble st.text lines 0 ht, hb, _, heq, rfl, rfl, ?_, ?_⟩
  · simp only [Nat.add_zero]
    omega
  · rfl

end IndentClaim

/-! ## Theorems: line shapes -/

theorem renderShape_nil : renderShape [] = [] := rfl

theorem renderShape_cons (x : Text × Bool) (sh : Shape) :
    renderShape (x :: sh) = renderLine x ++ renderShape sh := by
  simp [renderShape]

theorem renderShape_append (xs ys : Shape) : renderShape (xs ++ ys) = renderShape xs ++ renderShape ys := by
  simp [renderShape]

theorem reassemble_eq_renderShape (text : Text) (ls : List WrappedLine) :
    reassemble text ls = renderShape (shapeOf text ls) := by
  simp only [reassemble, renderShape, shapeOf, List.map_map]
  rfl

theorem shapeOf_take (text : Text) (ls : List WrappedLine) (n : Nat) :
    shapeOf text (ls.take n) = (shapeOf text ls).take n := by
  simp [shapeOf, List.map_take]

theorem shapeOf_drop (text : Text) (ls : List WrappedLine) (n : Nat) :
    shapeOf text (ls.drop n) = (shapeOf text ls).drop n := by
  simp [shapeOf, List.map_drop]

theorem shapeOf_length (text : Text) (ls : List WrappedLine) :
    (shapeOf text ls).length = ls.length := by
  simp [shapeOf]

theorem canon_of_tiles (text : Text) :
    ∀ (ls : List WrappedLine) (pos : Nat), Tiles text pos ls → NoSoftWrap text ls →
      Canon (shapeOf text ls) := by
  intro ls
  induction ls with
  | nil => intro pos _ _; exact trivial
  | cons a ls ih =>
    intro pos h hns
    obtain ⟨hs, hp, _, _, hnn, hempty, ht⟩ := h
    refine ⟨hnn, ?_, ih _ ht (fun l hl => hns l (List.mem_cons_of_mem _ hl))⟩
    have hnsa := hns a (List.mem_cons_self _ _)
    rw [hs] at hnsa
    rcases hnsa with hend | hnl
    · right
      have hne : a.text ≠ [] := by
        intro h0
        rw [h0] at hend
        simp at hend
        omega
      refine ⟨hne, ?_⟩
      cases ls with
      | nil => rfl
      | cons b ls =>
        exfalso
        have := ht.2.1
        split at this <;> omega
    · left
      simp [newlineAfter, hs, hnl]

/-- Two splittings of one text into a newline-free head and a rest that is empty or
starts with a newline agree. -/
theorem newline_free_head_unique :
    ∀ (s1 s2 t1 t2 : Text), s1 ++ t1 = s2 ++ t2 → (∀ c ∈ s1, c ≠ '\n') →
      (∀ c ∈ s2, c ≠ '\n') → (t1 = [] ∨ t1.head? = some '\n') →
      (t2 = [] ∨ t2.head? = some '\n') → s1 = s2 ∧ t1 = t2 := by
  intro s1
  induction s1 with
  | nil =>
    intro s2 t1 t2 h _ h2 ht1 _
    cases s2 with
    | nil => exact ⟨rfl, by simpa using h⟩
    | cons d s2 =>
      exfalso
      simp only [List.nil_append, List.cons_append] at h
      rw [h] at ht1
      rcases ht1 with h0 | h0
      · simp at h0
      · simp only [List.head?_cons, Option.some.injEq] at h0
        exact h2 d (List.mem_cons_self _ _) h0
  | cons c s1 ih =>
    intro s2 t1 t2 h h1 h2 ht1 ht2
    cases s2 with
    | nil =>
      exfalso
      simp only [List.nil_append, List.cons_append] at h
      rw [← h] at ht2
      rcases ht2 with h0 | h0
      · simp at h0
      · simp only [List.head?_cons, Option.some.injEq] at h0
        exact h1 c (List.mem_cons_self _ _) h0
    | cons d s2 =>
      simp only [List.cons_append, List.cons.injEq] at h
      obtain ⟨hcd, htail⟩ := h
      obtain ⟨hs, ht⟩ := ih s2 t1 t2 htail
        (fun x hx => h1 x (List.mem_cons_of_mem _ hx))
        (fun x hx => h2 x (List.mem_cons_of_mem _ hx)) ht1 ht2
      exact ⟨by rw [hcd, hs], ht⟩

theorem renderShape_eq_nil_of_canon (sh : Shape) (hc : Canon sh) (h : renderShape sh = []) :
    sh = [] := by
  cases sh with
  | nil => rfl
  | cons x sh =>
    exfalso
    rw [renderShape_cons] at h
    have hx : renderLine x = [] := (List.append_eq_nil.mp h).1
    unfold renderLine at hx
    have h1 : x.1 = [] := (List.append_eq_nil.mp hx).1
    have h2 := (List.append_eq_nil.mp hx).2
    rcases hc.2.1 with hnl | ⟨hne, _⟩
    · rw [hnl] at h2
      simp at h2
    · exact hne h1

theorem canon_rest (x : Text × Bool) (sh : Shape) (hc : Canon (x :: sh)) :
    (if x.2 then ['\n'] else []) ++ renderShape sh = [] ∨
      ((if x.2 then ['\n'] else []) ++ renderShape sh).head? = some '\n' := by
  rcases hc.2.1 with hnl | ⟨_, hsh⟩
  · right
    simp [hnl]
  · by_cases hnl : x.2 = true
    · right
      simp [hnl]
    · left
      simp [hnl, hsh, renderShape_nil]

/-- A buffer has one shape of hard lines only. -/
theorem canon_unique :
    ∀ (sh1 sh2 : Shape), Canon sh1 → Canon sh2 → renderShape sh1 = renderShape sh2 → sh1 = sh2 := by
  intro sh1
  induction sh1 with
  | nil =>
    intro sh2 _ h2 h
    rw [renderShape_nil] at h
    exact (renderShape_eq_nil_of_canon sh2 h2 h.symm).symm
  | cons x r1 ih =>
    intro sh2 h1 h2 h
    cases sh2 with
    | nil =>
      rw [renderShape_nil] at h
      exact renderShape_eq_nil_of_canon _ h1 h
    | cons y r2 =>
      rw [renderShape_cons, renderShape_cons] at h
      unfold renderLine at h
      rw [List.append_assoc, List.append_assoc] at h
      obtain ⟨hs, hrest⟩ := newline_free_head_unique _ _ _ _ h h1.1 h2.1
        (canon_rest x r1 h1) (canon_rest y r2 h2)
      have hflag : x.2 = y.2 ∧ r1 = r2 := by
        by_cases hx : x.2 = true
        · by_cases hy : y.2 = true
          · simp only [hx, hy, if_true, List.singleton_append, List.cons.injEq,
              true_and] at hrest
            exact ⟨by rw [hx, hy], ih r2 h1.2.2 h2.2.2 hrest⟩
          · exfalso
            rcases h2.2.1 with hnl | ⟨_, hr2⟩
            · exact hy hnl
            · simp [hx, hy, hr2, renderShape_nil] at hrest
        · by_cases hy : y.2 = true
          · exfalso
            rcases h1.2.1 with hnl | ⟨_, hr1⟩
            · exact hx hnl
            · simp [hx, hy, hr1, renderShape_nil] at hrest
          · rcases h1.2.1 with hnl | ⟨_, hr1⟩
            · exact absurd hnl hx
            · rcases h2.2.1 with hnl | ⟨_, hr2⟩
              · exact absurd hnl hy
              · refine ⟨?_, by rw [hr1, hr2]⟩
                rw [Bool.not_eq_true] at hx hy
                rw [hx, hy]
      have hxy : x = y := Prod.ext hs hflag.1
      rw [hxy, hflag.2]

theorem canon_indentShape (a b : Nat) :
    ∀ (sh : Shape) (i : Nat), Canon sh → Canon (indentShape a b i sh) := by
  intro sh
  induction sh with
  | nil => intro i _; exact trivial
  | cons x sh ih =>
    intro i h
    obtain ⟨h1, h2, h3⟩ := h
    refine ⟨?_, ?_, ih (i + 1) h3⟩
    · intro c hc
      by_cases hin : a ≤ i ∧ i ≤ b
      · simp only [hin, and_self, if_true, indentOne, List.cons_append, List.nil_append,
          List.mem_cons] at hc
        rcases hc with rfl | rfl | hc
        · decide
        · decide
        · exact h1 c hc
      · simp only [hin, if_false] at hc
        exact h1 c hc
    · rcases h2 with hnl | ⟨hne, hsh⟩
      · left
        by_cases hin : a ≤ i ∧ i ≤ b <;> simp [hin, indentOne, hnl]
      · right
        refine ⟨?_, by rw [hsh]; rfl⟩
        by_cases hin : a ≤ i ∧ i ≤ b <;> simp [hin, indentOne, hne]

theorem indentShape_length (a b : Nat) :
    ∀ (sh : Shape) (i : Nat), (indentShape a b i sh).length = sh.length := by
  intro sh
  induction sh with
  | nil => intro i; rfl
  | cons x sh ih => intro i; simp [indentShape, ih]

theorem indentShape_take (a b : Nat) :
    ∀ (sh : Shape) (i n : Nat),
      (indentShape a b i sh).take n = indentShape a b i (sh.take n) := by
  intro sh
  induction sh with
  | nil => intro i n; simp [indentShape]
  | cons x sh ih =>
    intro i n
    cases n with
    | zero => simp [indentShape]
    | succ n => simp [indentShape, ih]

theorem indentShape_drop (a b : Nat) :
    ∀ (sh : Shape) (i n : Nat),
      (indentShape a b i sh).drop n = indentShape a b (i + n) (sh.drop n) := by
  intro sh
  induction sh with
  | nil => intro i n; simp [indentShape]
  | cons x sh ih =>
    intro i n
    cases n with
    | zero => simp [indentShape]
    | succ n =>
      simp only [indentShape, List.drop_succ_cons, ih]
      rw [show i + 1 + n = i + (n + 1) by omega]

theorem indentShape_outside (a b : Nat) :
    ∀ (sh : Shape) (i : Nat), i + sh.length ≤ a ∨ b < i → indentShape a b i sh = sh := by
  intro sh
  induction sh with
  | nil => intro i _; rfl
  | cons x sh ih =>
    intro i h
    have hout : ¬ (a ≤ i ∧ i ≤ b) := by
      simp only [List.length_cons] at h
      omega
    rw [indentShape, if_neg hout, ih (i + 1) (by simp only [List.length_cons] at h; omega)]

theorem indentShape_inside (a b : Nat) :
    ∀ (sh : Shape) (i : Nat), a ≤ i → i + sh.length ≤ b + 1 →
      indentShape a b i sh = sh.map indentOne := by
  intro sh
  induction sh with
  | nil => intro i _ _; rfl
  | cons x sh ih =>
    intro i h1 h2
    simp only [List.length_cons] at h2
    have hin : a ≤ i ∧ i ≤ b := by omega
    rw [indentShape, if_pos hin, ih (i + 1) (by omega) (by omega)]
    rfl

theorem indentShape_getElem? (a b : Nat) :
    ∀ (sh : Shape) (i k : Nat) (x : Text × Bool), sh[k]? = some x →
      (indentShape a b i sh)[k]? =
        some (if a ≤ i + k ∧ i + k ≤ b then indentOne x else x) := by
  intro sh
  induction sh with
  | nil => intro i k x h; simp at h
  | cons y sh ih =>
    intro i k x h
    cases k with
    | zero =>
      simp only [List.getElem?_cons_zero, Option.some.injEq] at h
      subst h
      simp [indentShape]
    | succ k =>
      simp only [List.getElem?_cons_succ] at h
      simp only [indentShape, List.getElem?_cons_succ]
      rw [ih (i + 1) k x h, show i + 1 + k = i + (k + 1) by omega]

theorem renderShape_map_indentOne_length (sh : Shape) :
    (renderShape (sh.map indentOne)).length = (renderShape sh).length + 2 * sh.length := by
  induction sh with
  | nil => rfl
  | cons x sh ih =>
    simp only [List.map_cons, renderShape_cons, List.length_append, ih, List.length_cons]
    simp only [renderLine, indentOne, List.length_append, List.length_cons, List.length_nil]
    omega

theorem renderShape_map_indentOne (text : Text) (ls : List WrappedLine) :
    renderShape ((shapeOf text ls).map indentOne) = indentBlock text ls := by
  simp only [renderShape, shapeOf, indentBlock, List.map_map]
  congr 1

/-- The indented buffer is the original shape with lines `a .. b` indented, written
out. -/
theorem renderShape_indentShape (text : Text) (lines : List WrappedLine) (a b : Nat)
    (hab : a ≤ b) :
    renderShape (indentShape a b 0 (shapeOf text lines)) = indentedText text lines a b := by
  have h1 : renderShape (indentShape a b 0 (shapeOf text lines)) =
      renderShape ((indentShape a b 0 (shapeOf text lines)).take a) ++
        (renderShape (((indentShape a b 0 (shapeOf text lines)).drop a).take (b + 1 - a)) ++
          renderShape (((indentShape a b 0 (shapeOf text lines)).drop a).drop (b + 1 - a))) := by
    rw [← renderShape_append, ← renderShape_append, List.take_append_drop, List.take_append_drop]
  rw [h1, indentShape_take, indentShape_drop, indentShape_take, indentShape_drop,
    indentShape_outside a b _ 0 (Or.inl (by simp only [List.length_take]; omega)),
    indentShape_inside a b _ (0 + a) (by omega)
      (by simp only [List.length_take, List.length_drop]; omega),
    indentShape_outside a b _ (0 + a + (b + 1 - a)) (Or.inr (by omega)),
    List.drop_drop, ← shapeOf_take, ← shapeOf_drop, ← shapeOf_take, ← shapeOf_drop,
    renderShape_map_indentOne, ← reassemble_eq_renderShape, ← reassemble_eq_renderShape,
    show a + (b + 1 - a) = b + 1 by omega, indentedText, List.append_assoc]

/-! ## Theorems: outdent with a selection -/

theorem leadingSpaces_le (t : Text) : leadingSpaces t ≤ t.length := by
  unfold leadingSpaces
  cases t with
  | nil => simp
  | cons c t =>
    cases t with
    | nil => by_cases h : c = ' ' <;> simp [h]
    | cons d t =>
      simp only [List.length_cons]
      split
      · split <;> omega
      · omega

/-- The leading spaces of a hard line are those of the buffer from its start on. -/
theorem leadingSpaces_append (s tail : Text)
    (htail : tail = [] ∨ tail.head? = some '\n') :
    leadingSpaces (s ++ tail) = leadingSpaces s := by
  have h0 : tail[0]? ≠ some ' ' := by
    rcases htail with h | h
    · rw [h]; simp
    · cases tail with
      | nil => simp
      | cons c tail =>
        simp only [List.head?_cons, Option.some.injEq] at h
        simp [h]
  cases s with
  | nil =>
    simp only [List.nil_append]
    unfold leadingSpaces
    simp [h0]
  | cons c s =>
    cases s with
    | nil =>
      unfold leadingSpaces
      simp [h0]
    | cons d s =>
      unfold leadingSpaces
      simp

theorem countSpacesBounded_eq (x y : Text) (hsize : x.length + 1 < SIZE_MODULUS) :
    countSpacesBounded (x ++ y) x.length space_size 0 = leadingSpaces y := by
  have h0 : sizeAdd x.length 0 = x.length := sizeAdd_of_lt _ _ (by omega)
  have h1 : sizeAdd x.length (0 + 1) = x.length + 1 := sizeAdd_of_lt _ _ (by omega)
  have hg0 : (x ++ y)[x.length]? = y[0]? := by
    rw [List.getElem?_append_right (Nat.le_refl _)]
    simp
  have hg1 : (x ++ y)[x.length + 1]? = y[1]? := by
    rw [List.getElem?_append_right (by omega)]
    simp
  have hunfold : countSpacesBounded (x ++ y) x.length space_size 0 =
      if sizeAdd x.length 0 < (x ++ y).length then
        if (x ++ y)[sizeAdd x.length 0]? = some ' ' then
          if sizeAdd x.length (0 + 1) < (x ++ y).length then
            if (x ++ y)[sizeAdd x.length (0 + 1)]? = some ' ' then 0 + 1 + 1 else 0 + 1
          else 0 + 1
        else 0
      else 0 := rfl
  rw [hunfold, h0, h1, hg0, hg1, leadingSpaces, List.length_append]
  by_cases hy0 : y[0]? = some ' '
  · have hl0 : 0 < y.length := (List.getElem?_eq_some_iff.mp hy0).1
    have hc0 : x.length < x.length + y.length := by omega
    by_cases hy1 : y[1]? = some ' '
    · have hl1 : 1 < y.length := (List.getElem?_eq_some_iff.mp hy1).1
      have hc1 : x.length + 1 < x.length + y.length := by omega
      simp only [hy0, hy1, hc0, hc1, if_true]
    · simp only [hy0, hy1, hc0, if_true, if_false]
      split <;> rfl
  · simp only [hy0, if_false]
    split <;> rfl

theorem strErase_at_length (x y : Text) (k : Nat) (hk : k ≤ y.length) :
    strErase (x ++ y) x.length k = .ok (x ++ y.drop k) := by
  have hmin : min k ((x ++ y).length - x.length) = k := by
    rw [List.length_append]
    omega
  rw [strErase, if_pos (by simp), hmin, List.take_left, List.drop_append]

/-- The outdent loop of `removeTab` on hard lines: started at line `i`, which begins
at offset `pos` of the buffer it was given, on a buffer whose processed part `x` has
lost `removed` characters, it strips the leading spaces of the next `n` lines. -/
theorem removeTabLoop_outdents (text : Text) (lines : List WrappedLine)
    (hns : NoSoftWrap text lines) (hsize : text.length < SIZE_MODULUS) :
    ∀ (n i pos removed : Nat) (x : Text), Tiles text pos (lines.drop i) →
      i + n ≤ lines.length → x.length + removed = pos →
      ∃ r, removeTabLoop lines n i (x ++ text.drop pos) removed =
        .ok (x ++ renderShape (((shapeOf text (lines.drop i)).take n).map outdentOne) ++
          reassemble text (lines.drop (i + n)), r) := by
  intro n
  induction n with
  | zero =>
    intro i pos removed x ht _ _
    refine ⟨removed, ?_⟩
    simp only [removeTabLoop, List.take_zero, List.map_nil, renderShape_nil, List.append_nil,
      Nat.add_zero]
    rw [tiles_reassemble text _ pos ht]
  | succ n ih =>
    intro i pos removed x ht hlen hx
    have hi : i < lines.length := by omega
    have hdrop : lines.drop i = lines[i] :: lines.drop (i + 1) :=
      List.drop_eq_getElem_cons hi
    rw [hdrop] at ht
    have hget : lines[i]? = some lines[i] := List.getElem?_eq_getElem hi
    have hs : lines[i].startPos = pos := ht.1
    have hp : pos < text.length := ht.2.1
    have hle : pos + lines[i].text.length ≤ text.length := ht.2.2.2.1
    have hsplit := tiles_cons_drop text pos _ _ ht
    have hnext := ht.2.2.2.2.2.2
    have hnsi := hns lines[i] (List.getElem_mem hi)
    rw [hs] at hnsi
    have htail : (if newlineAfter text lines[i] then ['\n'] else []) ++
        text.drop (pos + lines[i].text.length +
          (if newlineAfter text lines[i] then 1 else 0)) = [] ∨
        ((if newlineAfter text lines[i] then ['\n'] else []) ++
          text.drop (pos + lines[i].text.length +
            (if newlineAfter text lines[i] then 1 else 0))).head? = some '\n' := by
      by_cases hnl : newlineAfter text lines[i] = true
      · right
        simp [hnl]
      · left
        have hend : pos + lines[i].text.length = text.length := by
          rcases hnsi with h | h
          · exact h
          · exfalso
            apply hnl
            simp [newlineAfter, hs, h]
        simp only [hnl, if_false, List.nil_append, Nat.add_zero]
        exact List.drop_eq_nil_of_le (by omega)
    have hsub : sizeSub lines[i].startPos removed = x.length := by
      rw [sizeSub_of_le _ _ (by omega) (by omega), hs]
      omega
    have hy : text.drop pos = lines[i].text ++
        ((if newlineAfter text lines[i] then ['\n'] else []) ++
          text.drop (pos + lines[i].text.length +
            (if newlineAfter text lines[i] then 1 else 0))) := by
      rw [hsplit, lineWithNewline, List.append_assoc]
    have hcount : countSpacesBounded (x ++ text.drop pos) x.length space_size 0 =
        leadingSpaces lines[i].text := by
      rw [countSpacesBounded_eq x _ (by omega), hy, leadingSpaces_append _ _ htail]
    have hkle := leadingSpaces_le lines[i].text
    have herase : strErase (x ++ text.drop pos) x.length (leadingSpaces lines[i].text) =
        .ok ((x ++ (lines[i].text.drop (leadingSpaces lines[i].text) ++
          (if newlineAfter text lines[i] then ['\n'] else []))) ++
          text.drop (pos + lines[i].text.length +
            (if newlineAfter text lines[i] then 1 else 0))) := by
      rw [strErase_at_length _ _ _ (by rw [List.length_drop]; omega), hy,
        List.drop_append_of_le_length hkle]
      simp
    have hxlen : (x ++ (lines[i].text.drop (leadingSpaces lines[i].text) ++
        (if newlineAfter text lines[i] then ['\n'] else []))).length +
        (removed + leadingSpaces lines[i].text) =
        pos + lines[i].text.length + (if newlineAfter text lines[i] then 1 else 0) := by
      simp only [List.length_append, List.length_drop]
      split <;> simp <;> omega
    obtain ⟨r, hrec⟩ := ih (i + 1)
      (pos + lines[i].text.length + (if newlineAfter text lines[i] then 1 else 0))
      (removed + leadingSpaces lines[i].text)
      (x ++ (lines[i].text.drop (leadingSpaces lines[i].text) ++
        (if newlineAfter text lines[i] then ['\n'] else []))) hnext (by omega) hxlen
    refine ⟨r, ?_⟩
    have hresult : x ++ renderShape (((shapeOf text (lines.drop i)).take (n + 1)).map outdentOne) ++
        reassemble text (lines.drop (i + (n + 1))) =
        x ++ (lines[i].text.drop (leadingSpaces lines[i].text) ++
          (if newlineAfter text lines[i] then ['\n'] else [])) ++
        renderShape (((shapeOf text (lines.drop (i + 1))).take n).map outdentOne) ++
        reassemble text (lines.drop (i + 1 + n)) := by
      rw [hdrop, show i + (n + 1) = i + 1 + n by omega]
      simp only [shapeOf, List.map_cons, List.take_succ_cons, renderShape_cons, renderLine,
        outdentOne, List.append_assoc]
    rw [hresult, ← hrec, removeTabLoop]
    simp only [vecAt_of_getElem? lines i _ hget, bind, Except.bind, hsub, hcount]
    by_cases hk : 0 < leadingSpaces lines[i].text
    · have hadd : sizeAdd removed (leadingSpaces lines[i].text) =
          removed + leadingSpaces lines[i].text := sizeAdd_of_lt _ _ (by omega)
      simp only [hk, if_true, herase, hadd]
    · have hk0 : leadingSpaces lines[i].text = 0 := by omega
      simp only [hk, if_false]
      rw [hk0] at herase ⊢
      simp only [List.drop_zero, Nat.add_zero]
      rw [hy]
      simp

theorem indentShape_blocks (a b : Nat) (hab : a ≤ b) (sh : Shape) :
    indentShape a b 0 sh =
      sh.take a ++ (((sh.drop a).take (b + 1 - a)).map indentOne ++
        (sh.drop a).drop (b + 1 - a)) := by
  have h1 : indentShape a b 0 sh =
      (indentShape a b 0 sh).take a ++
        (((indentShape a b 0 sh).drop a).take (b + 1 - a) ++
          ((indentShape a b 0 sh).drop a).drop (b + 1 - a)) := by
    rw [List.take_append_drop, List.take_append_drop]
  rw [h1, indentShape_take, indentShape_drop, indentShape_take, indentShape_drop,
    indentShape_outside a b _ 0 (Or.inl (by simp only [List.length_take]; omega)),
    indentShape_inside a b _ (0 + a) (by omega)
      (by simp only [List.length_take, List.length_drop]; omega),
    indentShape_outside a b _ (0 + a + (b + 1 - a)) (Or.inr (by omega))]

theorem renderShape_indentShape_length (a b : Nat) (hab : a ≤ b) (sh : Shape) :
    (renderShape (indentShape a b 0 sh)).length =
      (renderShape sh).length + 2 * min (b + 1 - a) (sh.length - a) := by
  have h0 : (renderShape sh).length = (renderShape (sh.take a)).length +
      ((renderShape ((sh.drop a).take (b + 1 - a))).length +
        (renderShape ((sh.drop a).drop (b + 1 - a))).length) := by
    rw [← List.length_append, ← List.length_append, ← renderShape_append, ← renderShape_append,
      List.take_append_drop, List.take_append_drop]
  rw [indentShape_blocks a b hab, renderShape_append, renderShape_append, List.length_append,
    List.length_append, renderShape_map_indentOne_length, h0, List.length_take,
    List.length_drop]
  omega

theorem outdentOne_indentOne (x : Text × Bool) : outdentOne (indentOne x) = x := by
  simp [outdentOne, indentOne, leadingSpaces]

theorem lookup_at_length (text : Text) (ls : List WrappedLine) (h : Tiles text 0 ls)
    (hne : text ≠ []) (hsize : text.length < SIZE_MODULUS) :
    getLineIndexAtPosition text.length ls = ls.length - 1 := by
  have hlt := lookup_lt_length text ls h hne hsize text.length
  by_cases hfound : ∀ l ∈ ls, ¬ containsPosition l text.length
  · rw [getLineIndexAtPosition_not_found _ ls hfound]
    have hlen : ls.length ≤ text.length := by
      rcases tiles_length text ls 0 h with h0 | h1
      · rw [h0] at hlt; simp at hlt
      · omega
    exact sizeSub_one_of_pos _ (by omega) (by omega)
  · obtain ⟨l, hl, hc, _⟩ := lookup_of_exists text.length ls hfound
    by_contra hlast
    have hnext : getLineIndexAtPosition text.length ls + 1 < ls.length := by omega
    have hget := List.getElem?_eq_getElem hnext
    obtain ⟨hchain, _⟩ := tiles_chain text ls 0 h _ l _ hl hget
    have hstart := tiles_start_lt text ls 0 h _ (List.getElem?_mem hget)
    unfold containsPosition at hc
    split at hchain <;> omega

theorem tiles_sorted (text : Text) (ls : List WrappedLine) (h : Tiles text 0 ls)
    (hns : NoSoftWrap text ls) (i j : Nat) (li lj : WrappedLine) (hij : i < j)
    (hi : ls[i]? = some li) (hj : ls[j]? = some lj) :
    li.startPos + li.text.length < lj.startPos := by
  have hjlt := (List.getElem?_eq_some_iff.mp hj).1
  have hnext : i + 1 < ls.length := by omega
  have hget := List.getElem?_eq_getElem hnext
  obtain ⟨hchain, _⟩ := tiles_chain text ls 0 h i li _ hi hget
  have hmono := tiles_mono text ls 0 h (i + 1) j _ lj (by omega) hget hj
  have hstart := tiles_start_lt text ls 0 h _ (List.getElem?_mem hget)
  rcases hns li (List.getElem?_mem hi) with hend | hnl
  · split at hchain <;> omega
  · have hnl1 : newlineAfter text li = true := by simp [newlineAfter, hnl]
    rw [if_pos hnl1] at hchain
    omega

/-- On hard lines, the line that holds an offset is the one the lookup returns. -/
theorem lookup_unique (text : Text) (ls : List WrappedLine) (h : Tiles text 0 ls)
    (hns : NoSoftWrap text ls) (j : Nat) (l : WrappedLine) (x : Nat)
    (hl : ls[j]? = some l) (hc : containsPosition l x) :
    getLineIndexAtPosition x ls = j := by
  refine getLineIndexAtPosition_found x ls j l hl hc ?_
  intro i li hij hli hci
  have := tiles_sorted text ls h hns i j li l hij hli hl
  unfold containsPosition at hc hci
  omega

section OutdentSelection

variable {W : Type} [Zero W] [Add W] [LT W] [DecidableRel (fun (a b : W) => a < b)]

/-- The buffer that `removeTab` leaves with a non-empty selection on hard lines:
lines `a .. b` lose their leading spaces (at most two each). -/
theorem removeTab_selection_text (m : Metrics W) (st : EditorState)
    (lines : List WrappedLine) (hw : wrapText m st.text = .ok lines)
    (hns : NoSoftWrap st.text lines) (hsel : st.selectionStart ≠ st.selectionEnd)
    (hsize : st.text.length < SIZE_MODULUS) (a b : Nat)
    (ha : getLineIndexAtPosition (min st.selectionStart st.selectionEnd) lines = a)
    (hb : getLineIndexAtPosition (max st.selectionStart st.selectionEnd) lines = b)
    (hab : a ≤ b) (hblt : b < lines.length) :
    ∃ st2, removeTab m st = .ok st2 ∧
      st2.text = renderShape ((shapeOf st.text lines).take a) ++
        renderShape ((((shapeOf st.text lines).drop a).take (b + 1 - a)).map outdentOne) ++
        renderShape ((shapeOf st.text lines).drop (b + 1)) := by
  have ht := wrapText_tiles_of_eq m st.text lines hw
  have halt : a < lines.length := by omega
  have hget : lines[a]? = some lines[a] := List.getElem?_eq_getElem halt
  obtain ⟨h1, h2, h3⟩ := tiles_split st.text lines 0 a _ ht hget
  obtain ⟨r, hloop⟩ := removeTabLoop_outdents st.text lines hns hsize (b + 1 - a) a
    lines[a].startPos 0 (reassemble st.text (lines.take a)) h3 (by omega) (by omega)
  rw [List.drop_zero] at h1
  rw [← h1, show a + (b + 1 - a) = b + 1 by omega, reassemble_eq_renderShape,
    reassemble_eq_renderShape, shapeOf_take, shapeOf_drop, shapeOf_drop] at hloop
  simp only [removeTab, hsel, if_false, hw, bind, Except.bind, ha, hb, hloop]
  by_cases hdir : st.selectionStart < st.selectionEnd
  · simp only [hdir, if_true]
    exact ⟨_, rfl, rfl⟩
  · simp only [hdir, if_false]
    exact ⟨_, rfl, rfl⟩

end OutdentSelection

/-! ## Theorems: the indent / outdent law -/

/-- The line table of the indented buffer has the shape of the original one with lines
`a .. b` indented. -/
theorem shapeOf_indented (text : Text) (lines : List WrappedLine) (ht : Tiles text 0 lines)
    (hns : NoSoftWrap text lines) (a b : Nat) (hab : a ≤ b) (text1 : Text)
    (htext : text1 = indentedText text lines a b) (lines1 : List WrappedLine)
    (ht1 : Tiles text1 0 lines1) (hns1 : NoSoftWrap text1 lines1) :
    shapeOf text1 lines1 = indentShape a b 0 (shapeOf text lines) := by
  apply canon_unique _ _ (canon_of_tiles text1 lines1 0 ht1 hns1)
    (canon_indentShape a b _ 0 (canon_of_tiles text lines 0 ht hns))
  rw [← reassemble_eq_renderShape, tiles_reassemble text1 lines1 0 ht1, List.drop_zero,
    renderShape_indentShape text lines a b hab, htext]

/-- Where line `j <= b` of the indented buffer starts, and what it holds. -/
theorem indented_line (text : Text) (lines : List WrappedLine) (ht : Tiles text 0 lines)
    (a b : Nat) (hab : a ≤ b) (text1 : Text) (lines1 : List WrappedLine)
    (ht1 : Tiles text1 0 lines1)
    (hshape : shapeOf text1 lines1 = indentShape a b 0 (shapeOf text lines))
    (j : Nat) (hja : a ≤ j) (hjb : j ≤ b) (l l1 : WrappedLine) (hl : lines[j]? = some l)
    (hl1 : lines1[j]? = some l1) :
    l1.startPos = l.startPos + 2 * (j - a) ∧ l1.text = [' ', ' '] ++ l.text := by
  have hjlt : j < lines.length := (List.getElem?_eq_some_iff.mp hl).1
  obtain ⟨_, hstart1, _⟩ := tiles_split text1 lines1 0 j l1 ht1 hl1
  obtain ⟨_, hstart, _⟩ := tiles_split text lines 0 j l ht hl
  refine ⟨?_, ?_⟩
  · rw [hstart1, hstart, reassemble_eq_renderShape, shapeOf_take, hshape, indentShape_take,
      renderShape_indentShape_length a b hab, reassemble_eq_renderShape, shapeOf_take,
      List.length_take, shapeOf_length]
    omega
  · have hsh : (shapeOf text lines)[j]? = some (l.text, newlineAfter text l) := by
      simp [shapeOf, hl]
    have hsh1 : (shapeOf text1 lines1)[j]? = some (l1.text, newlineAfter text1 l1) := by
      simp [shapeOf, hl1]
    rw [hshape, indentShape_getElem? a b _ 0 j _ hsh] at hsh1
    have hin : a ≤ 0 + j ∧ 0 + j ≤ b := by omega
    rw [if_pos hin] at hsh1
    injection hsh1 with hsh1
    have := congrArg Prod.fst hsh1
    simpa [indentOne] using this.symm

section IndentOutdent

variable {W : Type} [Zero W] [Add W] [LT W] [DecidableRel (fun (a b : W) => a < b)]

/-- Outdenting the indented buffer with the selection `[mn + same, mx + 2N)` that
indenting `[mn, mx)` leaves behind gives the original buffer back. -/
theorem outdent_after_indent (m : Metrics W) (text : Text) (lines : List WrappedLine)
    (hw : wrapText m text = .ok lines) (hns : NoSoftWrap text lines) (mn mx : Nat)
    (hlt : mn < mx) (hmx : mx ≤ text.length) (hsize : 3 * text.length < SIZE_MODULUS)
    (st1 : EditorState)
    (htext : st1.text = indentedText text lines (getLineIndexAtPosition mn lines)
      (getLineIndexAtPosition mx lines))
    (hmin : min st1.selectionStart st1.selectionEnd =
      mn + (if getLineIndexAtPosition mn lines = getLineIndexAtPosition mx lines
        then 2 else 0))
    (hmax : max st1.selectionStart st1.selectionEnd =
      mx + 2 * (getLineIndexAtPosition mx lines + 1 - getLineIndexAtPosition mn lines))
    (lines1 : List WrappedLine) (hw1 : wrapText m st1.text = .ok lines1)
    (hns1 : NoSoftWrap st1.text lines1) :
    ∃ st2, removeTab m st1 = .ok st2 ∧ st2.text = text := by
  have ht := wrapText_tiles_of_eq m text lines hw
  have ht1 := wrapText_tiles_of_eq m st1.text lines1 hw1
  have hne : text ≠ [] := by
    intro h0
    rw [h0] at hmx
    simp at hmx
    omega
  have hab := lookup_mono text lines ht (by omega) mn mx (Nat.le_of_lt hlt) (by omega)
  have hb := lookup_lt_length text lines ht hne (by omega) mx
  have hlen : lines.length ≤ text.length := by
    rcases tiles_length text lines 0 ht with h0 | h1
    · rw [h0] at hb; simp at hb
    · omega
  have hshape := shapeOf_indented text lines ht hns _ _ hab st1.text htext lines1 ht1 hns1
  have hlen1 : lines1.length = lines.length := by
    rw [← shapeOf_length st1.text lines1, hshape, indentShape_length, shapeOf_length]
  have htextlen : st1.text.length = text.length +
      2 * (getLineIndexAtPosition mx lines + 1 - getLineIndexAtPosition mn lines) := by
    have h1 := renderShape_indentShape_length _ _ hab (shapeOf text lines)
    rw [renderShape_indentShape text lines _ _ hab, ← htext, ← reassemble_eq_renderShape,
      tiles_reassemble text lines 0 ht, List.drop_zero, shapeOf_length] at h1
    omega
  have hne1 : st1.text ≠ [] := by
    intro h0
    rw [h0] at htextlen
    simp only [List.length_nil] at htextlen
    have := List.length_pos.mpr hne
    omega
  have hsel1 : st1.selectionStart ≠ st1.selectionEnd := by
    intro h0
    rw [h0, Nat.min_self] at hmin
    rw [h0, Nat.max_self] at hmax
    split at hmin <;> omega
  -- the first line of the selection
  obtain ⟨la, hla, hca, _⟩ := lookup_found text lines ht mn (by omega)
  have hget1a : lines1[getLineIndexAtPosition mn lines]? =
      some lines1[getLineIndexAtPosition mn lines] :=
    List.getElem?_eq_getElem (by omega)
  obtain ⟨hsa, hta⟩ := indented_line text lines ht _ _ hab st1.text lines1 ht1 hshape
    (getLineIndexAtPosition mn lines) (Nat.le_refl _) hab la _ hla hget1a
  have ha1 : getLineIndexAtPosition (min st1.selectionStart st1.selectionEnd) lines1 =
      getLineIndexAtPosition mn lines := by
    refine lookup_unique st1.text lines1 ht1 hns1 _ _ _ hget1a ?_
    unfold containsPosition at hca ⊢
    rw [hmin, hsa, hta]
    simp only [List.length_append, List.length_cons, List.length_nil]
    split <;> omega
  -- the last line of the selection
  have hb1 : getLineIndexAtPosition (max st1.selectionStart st1.selectionEnd) lines1 =
      getLineIndexAtPosition mx lines := by
    by_cases hend : mx = text.length
    · subst hend
      rw [hmax, ← htextlen, lookup_at_length st1.text lines1 ht1 hne1 (by omega),
        lookup_at_length text lines ht hne (by omega), hlen1]
    · obtain ⟨lb, hlb, hcb, _⟩ := lookup_found text lines ht mx (by omega)
      have hget1b : lines1[getLineIndexAtPosition mx lines]? =
          some lines1[getLineIndexAtPosition mx lines] :=
        List.getElem?_eq_getElem (by omega)
      obtain ⟨hsb, htb⟩ := indented_line text lines ht _ _ hab st1.text lines1 ht1 hshape
        (getLineIndexAtPosition mx lines) hab (Nat.le_refl _) lb _ hlb hget1b
      refine lookup_unique st1.text lines1 ht1 hns1 _ _ _ hget1b ?_
      unfold containsPosition at hcb ⊢
      rw [hmax, hsb, htb]
      simp only [List.length_append, List.length_cons, List.length_nil]
      omega
  obtain ⟨st2, hrem, htext2⟩ := removeTab_selection_text m st1 lines1 hw1 hns1 hsel1
    (by omega) _ _ ha1 hb1 hab (by omega)
  refine ⟨st2, hrem, ?_⟩
  rw [htext2, hshape, indentShape_take, indentShape_drop, indentShape_take,
    indentShape_drop,
    indentShape_outside _ _ _ 0 (Or.inl (by simp only [List.length_take]; omega)),
    indentShape_inside _ _ _ (0 + getLineIndexAtPosition mn lines) (by omega)
      (by simp only [List.length_take, List.length_drop]; omega),
    indentShape_outside _ _ _ (0 + (getLineIndexAtPosition mx lines + 1)) (Or.inr (by omega)),
    List.map_map]
  have hid : outdentOne ∘ indentOne = id := by
    funext x
    exact outdentOne_indentOne x
  have hwhole : (shapeOf text lines).take (getLineIndexAtPosition mn lines) ++
      ((shapeOf text lines).drop (getLineIndexAtPosition mn lines)).take
        (getLineIndexAtPosition mx lines + 1 - getLineIndexAtPosition mn lines) ++
      (shapeOf text lines).drop (getLineIndexAtPosition mx lines + 1) =
      shapeOf text lines := by
    have hdd : (shapeOf text lines).drop (getLineIndexAtPosition mx lines + 1) =
        ((shapeOf text lines).drop (getLineIndexAtPosition mn lines)).drop
          (getLineIndexAtPosition mx lines + 1 - getLineIndexAtPosition mn lines) := by
      rw [List.drop_drop]
      congr 1
      omega
    rw [hdd, List.append_assoc, List.take_append_drop, List.take_append_drop]
  rw [hid, List.map_id, ← renderShape_append, ← renderShape_append, hwhole, ← reassemble_eq_renderShape,
    tiles_reassemble text lines 0 ht, List.drop_zero]

/-- C17 (indent / outdent law).  For every buffer (shorter than `2 ^ 64 / 3`) whose
hard lines are not soft-wrapped and every non-empty selection with valid bounds, in
either direction, `insertTab` returns, and if no hard line of the indented buffer is
soft-wrapped either, `removeTab` applied with the selection that the indent left
behind returns with the original buffer text, exactly. -/
theorem indent_outdent_law (m : Metrics W) (st : EditorState) (lines : List WrappedLine)
    (hw : wrapText m st.text = .ok lines) (hns : NoSoftWrap st.text lines)
    (hsel : st.selectionStart ≠ st.selectionEnd) (hs : st.selectionStart ≤ st.text.length)
    (he : st.selectionEnd ≤ st.text.length) (hsize : 3 * st.text.length < SIZE_MODULUS) :
    ∃ st1, insertTab m insertTabDefault st = .ok st1 ∧
      ∀ lines1, wrapText m st1.text = .ok lines1 → NoSoftWrap st1.text lines1 →
        ∃ st2, removeTab m st1 = .ok st2 ∧ st2.text = st.text := by
  obtain ⟨hab, _, _, heq⟩ := insertTab_selection_eq m st lines hw hsel hs he hsize
  by_cases hdir : st.selectionStart < st.selectionEnd
  · have hmn : min st.selectionStart st.selectionEnd = st.selectionStart :=
      Nat.min_eq_left (Nat.le_of_lt hdir)
    have hmx : max st.selectionStart st.selectionEnd = st.selectionEnd :=
      Nat.max_eq_right (Nat.le_of_lt hdir)
    rw [if_pos hdir, hmn, hmx] at heq
    rw [hmn, hmx] at hab
    refine ⟨_, heq, ?_⟩
    intro lines1 hw1 hns1
    refine outdent_after_indent m st.text lines hw hns st.selectionStart st.selectionEnd
      hdir he hsize _ rfl ?_ ?_ lines1 hw1 hns1
    · apply Nat.min_eq_left
      simp only
      split <;> omega
    · apply Nat.max_eq_right
      simp only
      split <;> omega
  · have hgt : st.selectionEnd < st.selectionStart := by omega
    have hmn : min st.selectionStart st.selectionEnd = st.selectionEnd :=
      Nat.min_eq_right (Nat.le_of_lt hgt)
    have hmx : max st.selectionStart st.selectionEnd = st.selectionStart :=
      Nat.max_eq_left (Nat.le_of_lt hgt)
    rw [if_neg hdir, hmn, hmx] at heq
    rw [hmn, hmx] at hab
    refine ⟨_, heq, ?_⟩
    intro lines1 hw1 hns1
    refine outdent_after_indent m st.text lines hw hns st.selectionEnd st.selectionStart
      hgt hs hsize _ rfl ?_ ?_ lines1 hw1 hns1
    · apply Nat.min_eq_right
      simp only
      split <;> omega
    · apply Nat.max_eq_left
      simp only
      split <;> omega

end IndentOutdent

theorem indent_outdent_law_witness :
    wrapText unitMetrics threeLineState.text = .ok threeLines ∧
      NoSoftWrap threeLineState.text threeLines ∧
      ∃ st1 st2, insertTab unitMetrics insertTabDefault threeLineState = .ok st1 ∧
        st1.text = [' ', ' ', 'x', '\n', ' ', ' ', 'y', '\n', ' ', ' ', 'z'] ∧
        removeTab unitMetrics st1 = .ok st2 ∧ st2.text = ['x', '\n', 'y', '\n', 'z'] := by
  have hw : wrapText unitMetrics threeLineState.text = .ok threeLines := by decide
  refine ⟨hw, by decide, ?_⟩
  obtain ⟨st1, h1, h2⟩ := indent_outdent_law unitMetrics threeLineState threeLines hw
    (by decide) (by decide) (by decide) (by decide) (by decide)
  have heval : insertTab unitMetrics insertTabDefault threeLineState =
      .ok { threeLineState with
        text := [' ', ' ', 'x', '\n', ' ', ' ', 'y', '\n', ' ', ' ', 'z']
        selectionEnd := 11
        cursorPosition := 11 } := by decide
  rw [heval] at h1
  injection h1 with h1
  subst h1
  obtain ⟨st2, h3, h4⟩ := h2
    [⟨0, [' ', ' ', 'x'], 0, 0⟩, ⟨4, [' ', ' ', 'y'], 1, 4⟩, ⟨8, [' ', ' ', 'z'], 2, 8⟩]
    (by decide) (by decide)
  exact ⟨_, st2, rfl, rfl, h3, h4⟩



/-! ## Theorems: wrapping without overflow -/

theorem splitOn_newline_cons (cs : Text) :
    ('\n' :: cs).splitOn '\n' = [] :: cs.splitOn '\n' := by
  simp [List.splitOn, List.splitOnP_cons]

theorem splitOn_piece (rest : Text) :
    ∀ (p : Text), (∀ c ∈ p, c ≠ '\n') →
      (p ++ '\n' :: rest).splitOn '\n' = p :: rest.splitOn '\n' := by
  intro p
  induction p with
  | nil => intro _; simpa using splitOn_newline_cons rest
  | cons c p ih =>
    intro h
    have hc : c ≠ '\n' := h c (List.mem_cons_self _ _)
    have ih1 := ih (fun d hd => h d (List.mem_cons_of_mem _ hd))
    have hcons : (c :: (p ++ '\n' :: rest)).splitOn '\n' =
        ((p ++ '\n' :: rest).splitOn '\n').modifyHead (List.cons c) := by
      simp [List.splitOn, List.splitOnP_cons, hc]
    rw [List.cons_append, hcons, ih1]
    rfl

theorem splitOn_newline_free :
    ∀ (p : Text), (∀ c ∈ p, c ≠ '\n') → p.splitOn '\n' = [p] := by
  intro p
  induction p with
  | nil => intro _; rfl
  | cons c p ih =>
    intro h
    have hc : c ≠ '\n' := h c (List.mem_cons_self _ _)
    have ih1 := ih (fun d hd => h d (List.mem_cons_of_mem _ hd))
    have hcons : (c :: p).splitOn '\n' = (p.splitOn '\n').modifyHead (List.cons c) := by
      simp [List.splitOn, List.splitOnP_cons, hc]
    rw [hcons, ih1]
    rfl

theorem hardLinePieces_nil : hardLinePieces [] = [] := by
  simp [hardLinePieces]

theorem hardLinePieces_piece (p rest : Text) (hp : ∀ c ∈ p, c ≠ '\n') :
    hardLinePieces (p ++ '\n' :: rest) = p :: hardLinePieces rest := by
  unfold hardLinePieces
  rw [splitOn_piece rest p hp]
  have hne : p ++ '\n' :: rest ≠ [] := by simp
  by_cases hr : rest = []
  · subst hr
    simp
  · have hlast : (p ++ '\n' :: rest).getLast? = rest.getLast? := by
      obtain ⟨c, r, rfl⟩ := List.exists_cons_of_ne_nil hr
      rw [List.getLast?_append_of_ne_nil p (by simp), List.getLast?_cons_cons]
    have hsp : rest.splitOn '\n' ≠ [] := List.splitOnP_ne_nil _ _
    simp only [hne, hr, false_or, hlast]
    split
    · rw [List.dropLast_cons_of_ne_nil hsp]
    · rfl

theorem hardLinePieces_newline_free (p : Text) (hne : p ≠ []) (hp : ∀ c ∈ p, c ≠ '\n') :
    hardLinePieces p = [p] := by
  unfold hardLinePieces
  have hlast : ¬ p.getLast? = some '\n' := by
    intro h
    exact hp '\n' (List.mem_of_getLast?_eq_some h) rfl
  simp only [hne, hlast, or_self, if_false]
  exact splitOn_newline_free p hp

theorem split_at_newline :
    ∀ (cs : Text), ∃ p rest, cs = p ++ rest ∧ (∀ c ∈ p, c ≠ '\n') ∧
      (rest = [] ∨ ∃ r, rest = '\n' :: r) := by
  intro cs
  induction cs with
  | nil => exact ⟨[], [], rfl, by simp, Or.inl rfl⟩
  | cons c cs ih =>
    by_cases hc : c = '\n'
    · exact ⟨[], c :: cs, rfl, by simp, Or.inr ⟨cs, by rw [hc]⟩⟩
    · obtain ⟨p, rest, h1, h2, h3⟩ := ih
      refine ⟨c :: p, rest, by rw [h1]; rfl, ?_, h3⟩
      intro d hd
      rcases List.mem_cons.1 hd with rfl | hd
      · exact hc
      · exact h2 d hd

theorem hardLinesFrom_text :
    ∀ (ps : List Text) (index offset : Nat),
      (hardLinesFrom index offset ps).map (fun l => l.text) = ps := by
  intro ps
  induction ps with
  | nil => intro _ _; rfl
  | cons p ps ih => intro index offset; simp [hardLinesFrom, ih]

theorem hardLinesFrom_fields :
    ∀ (ps : List Text) (index offset i : Nat) (l : WrappedLine),
      (hardLinesFrom index offset ps)[i]? = some l →
        l.logicalLineIndex = index + i ∧ l.logicalLineStartPos = l.startPos := by
  intro ps
  induction ps with
  | nil => intro _ _ i l h; simp [hardLinesFrom] at h
  | cons p ps ih =>
    intro index offset i l h
    cases i with
    | zero =>
      simp only [hardLinesFrom, List.getElem?_cons_zero, Option.some.injEq] at h
      subst h
      exact ⟨rfl, rfl⟩
    | succ i =>
      simp only [hardLinesFrom, List.getElem?_cons_succ] at h
      obtain ⟨h1, h2⟩ := ih _ _ i l h
      exact ⟨by omega, h2⟩

section NoOverflow

variable {W : Type} [Zero W] [Add W] [LinearOrder W]

theorem foldl_width_ge (m : Metrics W) (hmono : ∀ (a b : W), 0 ≤ b → a ≤ a + b)
    (hnonneg : ∀ c, 0 ≤ m.widthOf c) :
    ∀ (p : Text) (acc : W),
      acc ≤ p.foldl (fun totalWidth c => totalWidth + m.widthOf c) acc := by
  intro p
  induction p with
  | nil => intro acc; exact le_refl _
  | cons c p ih =>
    intro acc
    exact le_trans (hmono acc _ (hnonneg c)) (ih _)

theorem wrapInner_fits (m : Metrics W) (hmono : ∀ (a b : W), 0 ≤ b → a ≤ a + b)
    (hnonneg : ∀ c, 0 ≤ m.widthOf c) (rest : Text)
    (hrest : rest = [] ∨ ∃ r, rest = '\n' :: r) :
    ∀ (p : Text) (textPos : Nat) (width : W) (lineLength : Nat), (∀ c ∈ p, c ≠ '\n') →
      p.foldl (fun totalWidth c => totalWidth + m.widthOf c) width ≤ m.availableWidth →
      wrapInner m (p ++ rest) textPos width lineLength =
        (textPos + p.length, lineLength + p.length) := by
  intro p
  induction p with
  | nil =>
    intro textPos width lineLength _ _
    rcases hrest with rfl | ⟨r, rfl⟩
    · simp [wrapInner]
    · simp [wrapInner]
  | cons c p ih =>
    intro textPos width lineLength hfree hfit
    have hc : c ≠ '\n' := hfree c (List.mem_cons_self _ _)
    have hle : width + m.widthOf c ≤ m.availableWidth :=
      le_trans (foldl_width_ge m hmono hnonneg p _) hfit
    have hb : ¬ (m.availableWidth < width + m.widthOf c ∧ 0 < lineLength) := by
      intro h
      exact absurd hle (not_le.2 h.1)
    rw [List.cons_append, wrapInner, if_neg hc, if_neg hb,
      ih (textPos + 1) (width + m.widthOf c) (lineLength + 1)
        (fun d hd => hfree d (List.mem_cons_of_mem _ hd)) hfit]
    simp only [List.length_cons, Prod.mk.injEq]
    omega

theorem wrapLoop_at_end (m : Metrics W) (text : Text) (fuel pos lli llsp : Nat)
    (acc : List WrappedLine) (h : text.length ≤ pos) :
    wrapLoop m text fuel pos lli llsp acc = .ok acc := by
  have hp : ¬ pos < text.length := by omega
  cases fuel with
  | zero => simp [wrapLoop, hp]
  | succ fuel => rw [wrapLoop, if_neg hp]

theorem wrapLoop_hardLines (m : Metrics W) (text : Text)
    (hmono : ∀ (a b : W), 0 ≤ b → a ≤ a + b) (hnonneg : ∀ c, 0 ≤ m.widthOf c) :
    ∀ (fuel pos lli : Nat) (acc : List WrappedLine), text.length ≤ pos + fuel →
      (∀ q ∈ hardLinePieces (text.drop pos), measureTextWidth m q ≤ m.availableWidth) →
      wrapLoop m text fuel pos lli pos acc =
        .ok (acc ++ hardLinesFrom lli pos (hardLinePieces (text.drop pos))) := by
  intro fuel
  induction fuel with
  | zero =>
    intro pos lli acc h _
    rw [wrapLoop_at_end m text 0 pos lli pos acc (by omega),
      List.drop_eq_nil_of_le (by omega), hardLinePieces_nil]
    simp [hardLinesFrom]
  | succ fuel ih =>
    intro pos lli acc h hfit
    by_cases hp : pos < text.length
    · by_cases hnl : text[pos]? = some '\n'
      · have hdrop := drop_eq_cons_of_getElem? hnl
        have hpieces : hardLinePieces (text.drop pos) =
            [] :: hardLinePieces (text.drop (pos + 1)) := by
          rw [hdrop]
          exact hardLinePieces_piece [] _ (by simp)
        have hfit1 : ∀ q ∈ hardLinePieces (text.drop (pos + 1)),
            measureTextWidth m q ≤ m.availableWidth := by
          intro q hq
          apply hfit q
          rw [hpieces]
          exact List.mem_cons_of_mem _ hq
        rw [wrapLoop, if_pos hp, if_pos hnl, ih (pos + 1) (lli + 1) _ (by omega) hfit1, hpieces]
        simp [hardLinesFrom]
      · obtain ⟨p, rest, hsplit, hfree, hrest⟩ := split_at_newline (text.drop pos)
        have hlen : text.length - pos = p.length + rest.length := by
          have := congrArg List.length hsplit
          simpa using this
        have hsub : strSubstr text pos (0 + p.length) = .ok p := by
          simp [strSubstr, Nat.le_of_lt hp, hsplit]
        rcases hrest with rfl | ⟨r, rfl⟩
        · have hend : pos + p.length = text.length := by
            simp at hlen
            omega
          have hc : ¬ (pos + p.length < text.length ∧ text[pos + p.length]? = some '\n') := by
            intro hc
            omega
          have hpne : p ≠ [] := by
            intro h0
            rw [h0] at hend
            simp at hend
            omega
          have hpieces : hardLinePieces (text.drop pos) = [p] := by
            rw [hsplit, List.append_nil]
            exact hardLinePieces_newline_free p hpne hfree
          have he : wrapInner m (text.drop pos) pos 0 0 = (pos + p.length, 0 + p.length) := by
            rw [hsplit]
            exact wrapInner_fits m hmono hnonneg [] (Or.inl rfl) p pos 0 0 hfree
              (hfit p (by rw [hpieces]; exact List.mem_singleton.2 rfl))
          rw [wrapLoop, if_pos hp, if_neg hnl]
          simp only [he, hsub, if_neg hc]
          rw [wrapLoop_at_end m text fuel _ _ _ _ (by omega), hpieces]
          simp [hardLinesFrom]
        · have hat : text[pos + p.length]? = some '\n' := by
            have h1 : (text.drop pos)[p.length]? = some '\n' := by
              rw [hsplit, List.getElem?_append_right (le_refl _)]
              simp
            simpa [List.getElem?_drop] using h1
          have hlt : pos + p.length < text.length := by
            simp at hlen
            omega
          have hnext : text.drop (pos + p.length + 1) = r := by
            have h1 : (text.drop pos).drop (p.length + 1) = r := by
              rw [hsplit]
              simp
            rw [List.drop_drop] at h1
            exact h1
          have hpieces : hardLinePieces (text.drop pos) =
              p :: hardLinePieces (text.drop (pos + p.length + 1)) := by
            rw [hsplit, hnext]
            exact hardLinePieces_piece p r hfree
          have he : wrapInner m (text.drop pos) pos 0 0 = (pos + p.length, 0 + p.length) := by
            rw [hsplit]
            exact wrapInner_fits m hmono hnonneg _ (Or.inr ⟨r, rfl⟩) p pos 0 0 hfree
              (hfit p (by rw [hpieces]; exact List.mem_cons_self _ _))
          have hfit1 : ∀ q ∈ hardLinePieces (text.drop (pos + p.length + 1)),
              measureTextWidth m q ≤ m.availableWidth := by
            intro q hq
            apply hfit q
            rw [hpieces]
            exact List.mem_cons_of_mem _ hq
          rw [wrapLoop, if_pos hp, if_neg hnl]
          simp only [he, hsub, if_pos (And.intro hlt hat)]
          rw [ih (pos + p.length + 1) (lli + 1) _ (by omega) hfit1, hpieces]
          simp [hardLinesFrom]
    · rw [wrapLoop_at_end m text (fuel + 1) pos lli pos acc (by omega),
        List.drop_eq_nil_of_le (by omega), hardLinePieces_nil]
      simp [hardLinesFrom]

/-- C28: when every character width is non-negative, adding a non-negative width
never lowers a total, and the total width of every hard line (the pieces of the
buffer split on newlines, without the final empty piece of an empty buffer or of a
buffer ending in a newline) is at most `availableWidth`, `wrapText` returns exactly
one line per hard line: its text is the piece, its `startPos` and
`logicalLineStartPos` are the offset at which the piece lies in the buffer, and its
`logicalLineIndex` is its position in the output. -/
theorem wrapText_eq_hardLines (m : Metrics W) (text : Text)
    (hmono : ∀ (a b : W), 0 ≤ b → a ≤ a + b) (hnonneg : ∀ c, 0 ≤ m.widthOf c)
    (hfit : ∀ p ∈ hardLinePieces text, measureTextWidth m p ≤ m.availableWidth) :
    wrapText m text = .ok (hardLines text) ∧
      (hardLines text).map (fun l => l.text) = hardLinePieces text ∧
      (∀ l ∈ hardLines text, l.text = (text.drop l.startPos).take l.text.length) ∧
      (∀ (i : Nat) (l : WrappedLine), (hardLines text)[i]? = some l →
        l.logicalLineIndex = i ∧ l.logicalLineStartPos = l.startPos) := by
  have hw : wrapText m text = .ok (hardLines text) := by
    have h := wrapLoop_hardLines m text hmono hnonneg text.length 0 0 [] (by omega)
      (by simpa using hfit)
    simpa [wrapText, hardLines] using h
  refine ⟨hw, hardLinesFrom_text _ 0 0, ?_, ?_⟩
  · intro l hl
    exact (tiles_lines text _ 0 (wrapText_tiles_of_eq m text _ hw) l hl).2.2.1
  · intro i l hl
    have h := hardLinesFrom_fields _ 0 0 i l hl
    exact ⟨by omega, h.2⟩

end NoOverflow

theorem wrapText_eq_hardLines_witness :
    (∀ p ∈ hardLinePieces twoLineState.text,
        measureTextWidth unitMetrics p ≤ unitMetrics.availableWidth) ∧
      wrapText unitMetrics twoLineState.text = .ok twoLines ∧
      hardLines twoLineState.text = twoLines := by
  have hfit : ∀ p ∈ hardLinePieces twoLineState.text,
      measureTextWidth unitMetrics p ≤ unitMetrics.availableWidth := by decide
  have h := (wrapText_eq_hardLines unitMetrics twoLineState.text
    (fun a b _ => Nat.le_add_right a b) (fun _ => Nat.zero_le _) hfit).1
  have he : hardLines twoLineState.text = twoLines := by decide
  exact ⟨hfit, he ▸ h, he⟩

/-! ## Theorems: block comments, duplication, undo, load and the token cache -/

section Evaluated2

variable {W : Type} [Zero W] [Add W] [LT W] [DecidableRel (fun (a b : W) => a < b)]

/-- C21 (block-comment toggle), evaluated on the code.  On buffer `"a/*/b"` with the
three characters `"/*/"` selected (`s = 1`, `e = 4`), `toggleComment` finds the prefix
`"/*"` and the suffix `"*/"` although they overlap, erases two characters at offset
`e - 2` and two at offset `s`, and returns the buffer `"a"`: the malformed wrapper is
stripped and the character `b`, which lies after the selection, is erased with it;
`selectionEnd` and the cursor become `e - 4 = 0`.  A wrapper of four or more
characters is stripped as the claim says: `"a/*x*/b"` with `"/*x*/"` selected gives
`"axb"`. -/
theorem toggleComment_strips_overlap (m : Metrics W) :
    (∃ st1, toggleComment m malformedCommentState = .ok st1 ∧ st1.text = ['a'] ∧
      st1.selectionStart = 1 ∧ st1.selectionEnd = 0 ∧ st1.cursorPosition = 0) ∧
    (∃ st1, toggleComment m blockCommentState = .ok st1 ∧ st1.text = ['a', 'x', 'b']) :=
  ⟨⟨_, rfl, rfl, rfl, rfl, rfl⟩, ⟨_, rfl, rfl⟩⟩

end Evaluated2

/-- C22 (duplicate without a selection), evaluated on the code.  When each character
of the buffer `"ab"` is wider than the available width, `wrapText` returns the two
visual lines `"a"` and `"b"` of the one hard line `"ab"`, and `duplicateLine` with the
cursor at offset 0 duplicates the visual line `"a"`: the buffer becomes `"aab"` and
the cursor 1, where the claim says `"abab"` and 2.  When the line is not
soft-wrapped the same call gives `"abab"` and cursor 2. -/
theorem duplicateLine_duplicates_visual_line :
    wrapText wideCharMetrics (shortLineState 0).text =
      .ok [⟨0, ['a'], 0, 0⟩, ⟨1, ['b'], 0, 0⟩] ∧
    duplicateLine wideCharMetrics (shortLineState 0) =
      .ok { shortLineState 0 with
        text := ['a', 'a', 'b']
        cursorPosition := 1 } ∧
    duplicateLine unitMetrics (shortLineState 0) =
      .ok { shortLineState 0 with
        text := ['a', 'b', 'a', 'b']
        cursorPosition := 2 } := by
  decide

/-- C23 (duplicate with a selection), evaluated on the code.  On buffer `"ab\ncd"`
with the selection `[1, 4)`, whose line span is `[L, R) = [0, 5)`, `duplicateLine`
inserts the copy at offset 5 and sets the cursor to `R + (R - L) = 10`, but the
members `selectionStart` and `selectionEnd` keep the values 1 and 4: the function
assigns its local variables of the same names.  The claim says `selectionStart = 5`
and `selectionEnd = 10`. -/
theorem duplicateLine_keeps_selection :
    duplicateLine unitMetrics selectedLinesState =
      .ok { selectedLinesState with
        text := ['a', 'b', '\n', 'c', 'd', 'a', 'b', '\n', 'c', 'd']
        cursorPosition := 10
        selectionStart := 1
        selectionEnd := 4 } := by
  decide

/-- C24 (undo).  With an empty undo stack `undo` returns the state unchanged.
Otherwise the current buffer is pushed on the redo stack, the top of the undo stack
is popped into the buffer, the selection is collapsed to the new cursor, and, when
the restored buffer is non-empty (and shorter than `2 ^ 64`, as every `std::string`
is), the new cursor is `min(old cursor, len(buffer) - 1)`. -/
theorem undo_contract (st : EditorState) :
    (st.undoStack = [] → undo st = st) ∧
    (∀ top rest, st.undoStack = top :: rest →
      (undo st).text = top ∧ (undo st).undoStack = rest ∧
      (undo st).redoStack = st.text :: st.redoStack ∧
      (undo st).selectionStart = (undo st).cursorPosition ∧
      (undo st).selectionEnd = (undo st).cursorPosition ∧
      (top ≠ [] → top.length < SIZE_MODULUS →
        (undo st).cursorPosition = min st.cursorPosition (top.length - 1))) := by
  refine ⟨?_, ?_⟩
  · intro h
    simp [undo, h]
  · intro top rest h
    refine ⟨by simp [undo, h, resetSelection], by simp [undo, h, resetSelection],
      by simp [undo, h, resetSelection], by simp [undo, h, resetSelection],
      by simp [undo, h, resetSelection], ?_⟩
    intro hne hsize
    have hpos : 0 < top.length := List.length_pos.2 hne
    have hsub := sizeSub_one_of_pos top.length hpos (by omega)
    simp [undo, h, resetSelection, hsub]

/-- C25 (load), evaluated on the code.  A successful `loadTextFromFile` replaces the
buffer by the content read, sets the cursor to 0 and the selection to empty, and
leaves `undoStack` and `redoStack` as they were: the history is not reset.  A failed
load changes nothing.  In the state reached by Ctrl+A, Backspace, text input `"ab"`,
Ctrl+Z (with `MAX_STACK_SIZE = 2`), loading a file that holds `"n"` leaves one entry
on each stack, where the claim says both are empty. -/
theorem loadTextFromFile_keeps_history (content : Text) (st : EditorState) :
    (loadTextFromFile (some content) st).text = content ∧
    (loadTextFromFile (some content) st).cursorPosition = 0 ∧
    (loadTextFromFile (some content) st).selectionStart = 0 ∧
    (loadTextFromFile (some content) st).selectionEnd = 0 ∧
    (loadTextFromFile (some content) st).undoStack = st.undoStack ∧
    (loadTextFromFile (some content) st).redoStack = st.redoStack ∧
    loadTextFromFile none st = st ∧
    Reachable 2 (afterUndo 2) ∧
    (loadTextFromFile (some ['n']) (afterUndo 2)).undoStack = [[' ']] ∧
    (loadTextFromFile (some ['n']) (afterUndo 2)).redoStack = [['a', 'b']] :=
  ⟨rfl, rfl, rfl, rfl, rfl, rfl, rfl, afterUndo_reachable 2 (by decide), by decide, by decide⟩

theorem afterFrameAndTyping_reachable (MAX_STACK_SIZE : Nat) (hmax : 1 ≤ MAX_STACK_SIZE)
    (tokenize : Text → List SyntaxToken) :
    CacheReachable MAX_STACK_SIZE tokenize (afterFrameAndTyping tokenize) := by
  have h0 : CacheReachable MAX_STACK_SIZE tokenize initialState := CacheReachable.init
  have h1 : CacheReachable MAX_STACK_SIZE tokenize (render tokenize initialState) :=
    CacheReachable.render h0
  refine CacheReachable.input unitMetrics plainWorld (.TEXT_INPUT ['a']) h1 ?_
  have hk := textInput_eq MAX_STACK_SIZE ['a'] (render tokenize initialState) hmax
    (by simp [ValidOffsets, render, initialState])
  have hn : ¬ MAX_STACK_SIZE ≤ 0 := by omega
  simp only [handleInput]
  rw [hk]
  simp [render, afterFrameAndTyping, initialState, pushedStack, editStart, editEnd, hn]

/-- C26 (highlight cache), evaluated on the code.  For every `MAX_STACK_SIZE >= 1`
and every tokenizer that tells the buffers `"a "` and `" "` apart, drawing one frame
and then typing `a` (an `SDL_EVENT_TEXT_INPUT` event) on the constructor's state
reaches a state whose dirty flag `textChanged` is false while the cached tokens are
those of the old buffer `" "`, not `tokenize` of the current buffer `"a "`: the
text-input branch of `handleInput` changes the buffer without setting `textChanged`. -/
theorem token_cache_stale (MAX_STACK_SIZE : Nat) (hmax : 1 ≤ MAX_STACK_SIZE)
    (tokenize : Text → List SyntaxToken) (hdiff : tokenize [' '] ≠ tokenize ['a', ' ']) :
    ∃ st, CacheReachable MAX_STACK_SIZE tokenize st ∧ st.textChanged = false ∧
      st.tokens ≠ tokenize st.text :=
  ⟨afterFrameAndTyping tokenize, afterFrameAndTyping_reachable MAX_STACK_SIZE hmax tokenize,
    rfl, hdiff⟩

theorem token_cache_stale_witness :
    wholeBufferTokenizer [' '] ≠ wholeBufferTokenizer ['a', ' '] ∧
      ∃ st, CacheReachable 100 wholeBufferTokenizer st ∧ st.textChanged = false ∧
        st.tokens ≠ wholeBufferTokenizer st.text :=
  ⟨by decide, token_cache_stale 100 (by decide) wholeBufferTokenizer (by decide)⟩

theorem tiles_empty_line (text : Text) :
    ∀ (ls : List WrappedLine) (pos : Nat), Tiles text pos ls →
      ∀ l ∈ ls, l.text = [] → text[l.startPos]? = some '\n' := by
  intro ls
  induction ls with
  | nil => intro _ _ l hl; simp at hl
  | cons a ls ih =>
    intro pos h l hl hempty
    obtain ⟨h1, _, _, _, _, h6, h7⟩ := h
    rcases List.mem_cons.1 hl with rfl | hl
    · rw [h1]
      exact h6 hempty
    · exact ih _ h7 l hl hempty

section Progress

variable {W : Type} [Zero W] [Add W] [LT W] [DecidableRel (fun (a b : W) => a < b)]

/-- C27 (wrap progress and termination).  For every text and every metrics (any
width function and any `availableWidth`, of any sign), `wrapText` returns a line
list (the iteration budget `len(text)` of the outer loop is enough); it holds at
most `len(text)` lines; every iteration advances the scan by at least one character:
the scan position after a line, `startPos + len(text)` plus one for a consumed
newline, is greater than the line's `startPos`, and each following line starts at a
greater offset; and a line with empty text starts at a newline character. -/
theorem wrapText_progress (m : Metrics W) (text : Text) :
    ∃ lines, wrapText m text = .ok lines ∧ lines.length ≤ text.length ∧
      (∀ l ∈ lines,
        l.startPos < l.startPos + l.text.length + (if newlineAfter text l then 1 else 0)) ∧
      (∀ (i : Nat) (a b : WrappedLine), lines[i]? = some a → lines[i + 1]? = some b →
        a.startPos < b.startPos) ∧
      (∀ l ∈ lines, l.text = [] → text[l.startPos]? = some '\n') := by
  obtain ⟨lines, hl, ht⟩ := wrapText_tiles m text
  refine ⟨lines, hl, ?_, ?_, ?_, tiles_empty_line text lines 0 ht⟩
  · rcases tiles_length text lines 0 ht with h0 | h1
    · rw [h0]
      exact Nat.zero_le _
    · omega
  · intro l hmem
    by_cases hempty : l.text = []
    · have hnl := tiles_empty_line text lines 0 ht l hmem hempty
      simp [newlineAfter, hempty, hnl]
    · have hpos : 0 < l.text.length := List.length_pos.2 hempty
      omega
  · intro i a b ha hb
    exact (tiles_chain text lines 0 ht i a b ha hb).2

end Progress

/-! ## Theorems: Home and End applied twice -/

theorem tiles_strict_mono (text : Text) (ls : List WrappedLine) (pos : Nat)
    (h : Tiles text pos ls) (j i : Nat) (lj li : WrappedLine) (hji : j < i)
    (hj : ls[j]? = some lj) (hi : ls[i]? = some li) : lj.startPos < li.startPos := by
  have hlt : j + 1 < ls.length := by
    have := (List.getElem?_eq_some_iff.mp hi).1
    omega
  have hb : ls[j + 1]? = some ls[j + 1] := List.getElem?_eq_getElem hlt
  have h1 := (tiles_chain text ls pos h j lj _ hj hb).2
  have h2 := tiles_mono text ls pos h (j + 1) i _ li (by omega) hb hi
  omega

/-- The end of a line is looked up on that line. -/
theorem lookup_line_end (text : Text) (ls : List WrappedLine) (h : Tiles text 0 ls)
    (i : Nat) (l : WrappedLine) (hl : ls[i]? = some l) :
    getLineIndexAtPosition (l.startPos + l.text.length) ls = i := by
  apply getLineIndexAtPosition_found _ _ i l hl ⟨Nat.le_add_right _ _, le_refl _⟩
  intro j l1 hji hl1 hcont
  have hlt : j + 1 < ls.length := by
    have := (List.getElem?_eq_some_iff.mp hl).1
    omega
  have hb : ls[j + 1]? = some ls[j + 1] := List.getElem?_eq_getElem hlt
  have hchain := (tiles_chain text ls 0 h j l1 _ hl1 hb).1
  have hmono := tiles_mono text ls 0 h (j + 1) i _ l (by omega) hb hl
  unfold containsPosition at hcont
  by_cases hn : newlineAfter text l1 = true
  · rw [if_pos hn] at hchain
    omega
  · rw [if_neg hn] at hchain
    have hempty : l.text = [] := List.length_eq_zero.1 (by omega)
    have hnl := tiles_empty_line text ls 0 h l (List.getElem?_mem hl) hempty
    have hstart : l1.startPos + l1.text.length = l.startPos := by omega
    apply hn
    simp [newlineAfter, hstart, hnl]

/-- The start of a line that does not continue the line before it is looked up on
that line. -/
theorem lookup_line_start (text : Text) (ls : List WrappedLine) (h : Tiles text 0 ls)
    (i : Nat) (l : WrappedLine) (hl : ls[i]? = some l) (hnc : ¬ IsContinuation text ls i) :
    getLineIndexAtPosition l.startPos ls = i := by
  apply getLineIndexAtPosition_found _ _ i l hl ⟨le_refl _, Nat.le_add_right _ _⟩
  intro j l1 hji hl1 hcont
  have hlt : j + 1 < ls.length := by
    have := (List.getElem?_eq_some_iff.mp hl).1
    omega
  have hb : ls[j + 1]? = some ls[j + 1] := List.getElem?_eq_getElem hlt
  have hchain := (tiles_chain text ls 0 h j l1 _ hl1 hb).1
  have hmono := tiles_mono text ls 0 h (j + 1) i _ l (by omega) hb hl
  unfold containsPosition at hcont
  by_cases hn : newlineAfter text l1 = true
  · rw [if_pos hn] at hchain
    omega
  · rw [if_neg hn] at hchain
    have hji1 : j + 1 = i := by
      by_contra hne
      have := tiles_strict_mono text ls 0 h (j + 1) i _ l (by omega) hb hl
      omega
    apply hnc
    refine ⟨by omega, l1, ?_, by simpa using hn⟩
    rw [← hji1]
    simpa using hl1

/-- The start of a line that continues the line before it is looked up on an
earlier line. -/
theorem lookup_continuation_start (text : Text) (ls : List WrappedLine)
    (h : Tiles text 0 ls) (i : Nat) (l : WrappedLine) (hl : ls[i]? = some l)
    (hc : IsContinuation text ls i) :
    ∃ l2, ls[getLineIndexAtPosition l.startPos ls]? = some l2 ∧
      l2.startPos < l.startPos := by
  obtain ⟨hpos, previous, hprev, hn⟩ := hc
  have hl1 : ls[i - 1 + 1]? = some l := by
    rw [Nat.sub_add_cancel hpos]
    exact hl
  have hchain := (tiles_chain text ls 0 h (i - 1) previous l hprev hl1).1
  rw [hn] at hchain
  have hcont : containsPosition previous l.startPos := by
    unfold containsPosition
    simp at hchain
    omega
  obtain ⟨l2, hl2, _, hmin⟩ := lookup_of_exists l.startPos ls
    (fun hall => hall previous (List.getElem?_mem hprev) hcont)
  have hle : getLineIndexAtPosition l.startPos ls ≤ i - 1 := by
    by_contra hgt
    exact hmin (i - 1) previous (by omega) hprev hcont
  have hm := tiles_mono text ls 0 h _ (i - 1) l2 previous hle hl2 hprev
  have hs := tiles_strict_mono text ls 0 h (i - 1) i previous l (by omega) hprev hl
  exact ⟨l2, hl2, by omega⟩

section HomeEnd

variable {W : Type} [Zero W] [Add W] [LT W] [DecidableRel (fun (a b : W) => a < b)]

theorem moveCursorToLineStart_eq (m : Metrics W) (shiftPressed : Bool) (st : EditorState)
    (lines : List WrappedLine) (l : WrappedLine) (hw : wrapText m st.text = .ok lines)
    (hl : lines[getLineIndexAtPosition st.cursorPosition lines]? = some l) :
    moveCursorToLineStart m shiftPressed st =
      .ok (updateSelection shiftPressed st.cursorPosition
        { st with cursorPosition := l.startPos }) := by
  simp only [moveCursorToLineStart, hw, bind, Except.bind, getLineStartPosition, vecAt, hl]

theorem moveCursorToLineEnd_eq (m : Metrics W) (shiftPressed : Bool) (st : EditorState)
    (lines : List WrappedLine) (l : WrappedLine) (hw : wrapText m st.text = .ok lines)
    (hl : lines[getLineIndexAtPosition st.cursorPosition lines]? = some l) :
    moveCursorToLineEnd m shiftPressed st =
      .ok (updateSelection shiftPressed st.cursorPosition
        { st with cursorPosition := l.startPos + l.text.length }) := by
  simp only [moveCursorToLineEnd, hw, bind, Except.bind, getLineStartPosition, vecAt, hl]

/-- C29 (as amended).  For every non-empty buffer shorter than `2 ^ 64`, every
metrics and every cursor, with or without shift: `moveCursorToLineEnd` applied twice
leaves the cursor where one application leaves it; `moveCursorToLineStart` applied
twice never leaves the cursor after the offset one application gives, and leaves it
at the same offset exactly when the cursor's line does not continue the line before
it (it is the first line or follows a consumed newline).  On a soft-wrapped
continuation segment the second application moves the cursor to an earlier line. -/
theorem home_end_idempotence (m : Metrics W) (shift1 shift2 : Bool) (st : EditorState)
    (hne : st.text ≠ []) (hsize : st.text.length < SIZE_MODULUS) :
    ∃ lines e1 e2 s1 s2, wrapText m st.text = .ok lines ∧
      moveCursorToLineEnd m shift1 st = .ok e1 ∧
      moveCursorToLineEnd m shift2 e1 = .ok e2 ∧
      e2.cursorPosition = e1.cursorPosition ∧
      moveCursorToLineStart m shift1 st = .ok s1 ∧
      moveCursorToLineStart m shift2 s1 = .ok s2 ∧
      s2.cursorPosition ≤ s1.cursorPosition ∧
      (s2.cursorPosition = s1.cursorPosition ↔
        ¬ IsContinuation st.text lines
          (getLineIndexAtPosition st.cursorPosition lines)) := by
  obtain ⟨lines, hw, ht⟩ := wrapText_tiles m st.text
  have hi := lookup_lt_length st.text lines ht hne hsize st.cursorPosition
  have hl : lines[getLineIndexAtPosition st.cursorPosition lines]? =
      some lines[getLineIndexAtPosition st.cursorPosition lines] :=
    List.getElem?_eq_getElem hi
  generalize lines[getLineIndexAtPosition st.cursorPosition lines] = l at hl
  -- End
  let e0 : EditorState := { st with cursorPosition := l.startPos + l.text.length }
  have he1c : (updateSelection shift1 st.cursorPosition e0).cursorPosition =
      l.startPos + l.text.length := (updateSelection_cursor _ _ _).1
  have he1t : (updateSelection shift1 st.cursorPosition e0).text = st.text :=
    (updateSelection_cursor _ _ _).2
  have hend := lookup_line_end st.text lines ht _ l hl
  have he2 := moveCursorToLineEnd_eq m shift2 (updateSelection shift1 st.cursorPosition e0)
    lines l (by rw [he1t]; exact hw) (by rw [he1c, hend]; exact hl)
  -- Home
  let s0 : EditorState := { st with cursorPosition := l.startPos }
  have hs1c : (updateSelection shift1 st.cursorPosition s0).cursorPosition = l.startPos :=
    (updateSelection_cursor _ _ _).1
  have hs1t : (updateSelection shift1 st.cursorPosition s0).text = st.text :=
    (updateSelection_cursor _ _ _).2
  by_cases hc : IsContinuation st.text lines (getLineIndexAtPosition st.cursorPosition lines)
  · obtain ⟨l2, hl2, hlt⟩ := lookup_continuation_start st.text lines ht _ l hl hc
    have hs2 := moveCursorToLineStart_eq m shift2
      (updateSelection shift1 st.cursorPosition s0) lines l2 (by rw [hs1t]; exact hw)
      (by rw [hs1c]; exact hl2)
    refine ⟨lines, _, _, _, _, hw, moveCursorToLineEnd_eq m shift1 st lines l hw hl, he2, ?_,
      moveCursorToLineStart_eq m shift1 st lines l hw hl, hs2, ?_, ?_⟩
    · rw [(updateSelection_cursor _ _ _).1, he1c]
    · rw [(updateSelection_cursor _ _ _).1, hs1c]
      exact Nat.le_of_lt hlt
    · rw [(updateSelection_cursor _ _ _).1, hs1c]
      constructor
      · intro h
        simp only at h
        omega
      · intro h
        exact absurd hc h
  · have hstart := lookup_line_start st.text lines ht _ l hl hc
    have hs2 := moveCursorToLineStart_eq m shift2
      (updateSelection shift1 st.cursorPosition s0) lines l (by rw [hs1t]; exact hw)
      (by rw [hs1c, hstart]; exact hl)
    refine ⟨lines, _, _, _, _, hw, moveCursorToLineEnd_eq m shift1 st lines l hw hl, he2, ?_,
      moveCursorToLineStart_eq m shift1 st lines l hw hl, hs2, ?_, ?_⟩
    · rw [(updateSelection_cursor _ _ _).1, he1c]
    · rw [(updateSelection_cursor _ _ _).1, hs1c]
    · rw [(updateSelection_cursor _ _ _).1, hs1c]
      exact ⟨fun _ => hc, fun _ => rfl⟩

end HomeEnd

/-- C29 as stated fails on a soft-wrapped line.  When each character of the buffer
`"ab"` is wider than the available width, the visual lines are `"a"` at offset 0 and
`"b"` at offset 1.  From the cursor at offset 2 `moveCursorToLineStart` moves to
offset 1, the start of the segment `"b"`; offset 1 is also the inclusive end of the
segment `"a"`, which the lookup finds first, so a second `moveCursorToLineStart`
moves to offset 0. -/
theorem home_twice_differs :
    wrapText wideCharMetrics (shortLineState 2).text =
      .ok [⟨0, ['a'], 0, 0⟩, ⟨1, ['b'], 0, 0⟩] ∧
    moveCursorToLineStart wideCharMetrics false (shortLineState 2) =
      .ok (shortLineState 1) ∧
    moveCursorToLineStart wideCharMetrics false (shortLineState 1) =
      .ok (shortLineState 0) := by
  decide

theorem home_end_idempotence_witness :
    (shortLineState 2).text ≠ [] ∧ (shortLineState 2).text.length < SIZE_MODULUS ∧
      ∃ lines e1 e2 s1 s2, wrapText wideCharMetrics (shortLineState 2).text = .ok lines ∧
        moveCursorToLineEnd wideCharMetrics false (shortLineState 2) = .ok e1 ∧
        moveCursorToLineEnd wideCharMetrics false e1 = .ok e2 ∧
        e2.cursorPosition = e1.cursorPosition ∧
        moveCursorToLineStart wideCharMetrics false (shortLineState 2) = .ok s1 ∧
        moveCursorToLineStart wideCharMetrics false s1 = .ok s2 ∧
        s2.cursorPosition ≤ s1.cursorPosition ∧
        (s2.cursorPosition = s1.cursorPosition ↔
          ¬ IsContinuation (shortLineState 2).text lines
            (getLineIndexAtPosition (shortLineState 2).cursorPosition lines)) :=
  ⟨by decide, by decide,
    home_end_idempotence wideCharMetrics false false (shortLineState 2) (by decide)
      (by decide)⟩

/-! ## Theorems: the lines indented with a selection -/

section IndentedLines

variable {W : Type} [Zero W] [Add W] [LT W] [DecidableRel (fun (a b : W) => a < b)]

/-- C16 (as amended).  For every buffer (shorter than `2 ^ 64 / 3`) in which no hard
line is soft-wrapped and every non-empty forward selection `[s, e)`: let `a` be the
hard line that holds the offset `s` and `b` the hard line that holds the offset `e`,
a line holding the offsets from its start to its end inclusive (and the last line
holding `e = len(text)` after a final newline).  If `a < b` then `insertTab` returns
with the buffer in which each of the hard lines `a .. b` has gained a two-space
prefix and every other character is unchanged, with `selectionStart = s` and
`selectionEnd = cursor = e + 2N`, `N = b - a + 1`.  Every line the selection touches
is among `a .. b`, the lines `a .. b - 1` are touched, and line `b` is touched unless
the selection ends at its start offset: then line `b` is indented although no
selected character lies on it. -/
theorem insertTab_indents_lines_of_selection (m : Metrics W) (st : EditorState)
    (lines : List WrappedLine) (hw : wrapText m st.text = .ok lines)
    (hns : NoSoftWrap st.text lines) (hfwd : st.selectionStart < st.selectionEnd)
    (he : st.selectionEnd ≤ st.text.length) (hsize : 3 * st.text.length < SIZE_MODULUS)
    (a b : Nat) (la lb : WrappedLine) (ha : lines[a]? = some la) (hb : lines[b]? = some lb)
    (hca : containsPosition la st.selectionStart)
    (hcb : containsPosition lb st.selectionEnd ∨
      (st.selectionEnd = st.text.length ∧ b + 1 = lines.length))
    (hab : a < b) :
    (∀ l ∈ lines, IsHardLine st.text l) ∧ reassemble st.text lines = st.text ∧
      (∀ (i : Nat) (l : WrappedLine), lines[i]? = some l →
        touchesLine st.text l st.selectionStart st.selectionEnd → a ≤ i ∧ i ≤ b) ∧
      (∀ (i : Nat) (l : WrappedLine), lines[i]? = some l → a ≤ i → i < b →
        touchesLine st.text l st.selectionStart st.selectionEnd) ∧
      (touchesLine st.text lb st.selectionStart st.selectionEnd ↔
        lb.startPos < st.selectionEnd) ∧
      ∃ st1, insertTab m insertTabDefault st = .ok st1 ∧
        st1.text = indentedText st.text lines a b ∧
        st1.selectionStart = st.selectionStart ∧
        st1.selectionEnd = st.selectionEnd + 2 * (b - a + 1) ∧
        st1.cursorPosition = st1.selectionEnd := by
  have ht := wrapText_tiles_of_eq m st.text lines hw
  have hne : st.text ≠ [] := by
    intro h0
    rw [h0] at he
    simp at he
    omega
  have hla : getLineIndexAtPosition st.selectionStart lines = a :=
    lookup_unique st.text lines ht hns a la _ ha hca
  have hlb : getLineIndexAtPosition st.selectionEnd lines = b := by
    rcases hcb with hcb | ⟨hend, hlast⟩
    · exact lookup_unique st.text lines ht hns b lb _ hb hcb
    · rw [hend, lookup_at_length st.text lines ht hne (by omega)]
      omega
  have hstartb : lb.startPos ≤ st.selectionEnd := by
    rcases hcb with hcb | ⟨hend, _⟩
    · exact hcb.1
    · have := tiles_start_lt st.text lines 0 ht lb (List.getElem?_mem hb)
      omega
  have hsab : la.startPos + la.text.length < lb.startPos :=
    tiles_sorted st.text lines ht hns a b la lb hab ha hb
  obtain ⟨h1, h2, _, st1, h4, h5, h6, h7, h8⟩ :=
    insertTab_indents_lookup_lines m st lines hw hns hfwd he (by rw [hla, hlb]; exact hab)
      hsize
  rw [hla, hlb] at h5 h7
  refine ⟨h1, h2, ?_, ?_, ?_, st1, h4, h5, h6, h7, h8⟩
  · intro i l hl htouch
    unfold touchesLine at htouch
    unfold containsPosition at hca
    constructor
    · by_contra hlt
      have := tiles_sorted st.text lines ht hns i a l la (by omega) hl ha
      split at htouch <;> omega
    · by_contra hgt
      rcases hcb with hcb | ⟨_, hlast⟩
      · have := tiles_sorted st.text lines ht hns b i lb l (by omega) hb hl
        unfold containsPosition at hcb
        omega
      · have := (List.getElem?_eq_some_iff.mp hl).1
        omega
  · intro i l hl hai hib
    unfold touchesLine
    have hsib := tiles_sorted st.text lines ht hns i b l lb hib hl hb
    refine ⟨by omega, ?_⟩
    unfold containsPosition at hca
    by_cases hia : i = a
    · subst hia
      rw [ha] at hl
      injection hl with hl
      subst hl
      by_cases hlt : st.selectionStart < la.startPos + la.text.length
      · omega
      · have hnl : newlineAfter st.text la = true := by
          rcases hns la (List.getElem?_mem ha) with hend | hnl
          · omega
          · simp [newlineAfter, hnl]
        rw [if_pos hnl]
        omega
    · have := tiles_sorted st.text lines ht hns a i la l (by omega) ha hl
      omega
  · unfold touchesLine
    unfold containsPosition at hca
    constructor
    · intro h
      exact h.1
    · intro h
      exact ⟨h, by omega⟩

end IndentedLines

/-- C16 as stated fails for a selection that ends at the start of a line.  On buffer
`"x\ny\nz"` (no soft wrap) with the selection `[0, 4)`, the text `"x\ny\n"`, the
selection touches the first two lines and not the line `"z"`, which starts at
offset 4; the lookup of `insertTab` places the offset 4 on the line `"z"`, so all
three lines are indented and `selectionEnd` and the cursor become `4 + 2 * 3 = 10`,
where the claim gives the buffer `"  x\n  y\nz"` and `4 + 2 * 2 = 8`. -/
theorem insertTab_indents_line_after_selection :
    wrapText unitMetrics leadingLinesState.text = .ok threeLines ∧
    NoSoftWrap leadingLinesState.text threeLines ∧
    (∀ l ∈ threeLines, touchesLine leadingLinesState.text l 0 4 ↔ l ≠ ⟨4, ['z'], 2, 4⟩) ∧
    indentedText leadingLinesState.text threeLines 0 1 =
      [' ', ' ', 'x', '\n', ' ', ' ', 'y', '\n', 'z'] ∧
    insertTab unitMetrics insertTabDefault leadingLinesState =
      .ok { leadingLinesState with
        text := [' ', ' ', 'x', '\n', ' ', ' ', 'y', '\n', ' ', ' ', 'z']
        selectionEnd := 10
        cursorPosition := 10 } := by
  decide

theorem insertTab_indents_lines_of_selection_witness :
    wrapText unitMetrics threeLineState.text = .ok threeLines ∧
      NoSoftWrap threeLineState.text threeLines ∧
      containsPosition ⟨0, ['x'], 0, 0⟩ threeLineState.selectionStart ∧
      containsPosition ⟨4, ['z'], 2, 4⟩ threeLineState.selectionEnd ∧
      ∃ st1, insertTab unitMetrics insertTabDefault threeLineState = .ok st1 ∧
        st1.text = [' ', ' ', 'x', '\n', ' ', ' ', 'y', '\n', ' ', ' ', 'z'] ∧
        st1.selectionStart = 0 ∧ st1.selectionEnd = 11 ∧ st1.cursorPosition = 11 := by
  have hw : wrapText unitMetrics threeLineState.text = .ok threeLines := by decide
  refine ⟨hw, by decide, by decide, by decide, ?_⟩
  obtain ⟨_, _, _, _, _, st1, h1, h2, h3, h4, h5⟩ :=
    insertTab_indents_lines_of_selection unitMetrics threeLineState threeLines hw
      (by decide) (by decide) (by decide) (by decide) 0 2 ⟨0, ['x'], 0, 0⟩ ⟨4, ['z'], 2, 4⟩
      (by decide) (by decide) (by decide) (Or.inl (by decide)) (by decide)
  have h2a : indentedText threeLineState.text threeLines 0 2 =
      [' ', ' ', 'x', '\n', ' ', ' ', 'y', '\n', ' ', ' ', 'z'] := by decide
  have h4a : threeLineState.selectionEnd + 2 * (2 - 0 + 1) = 11 := by decide
  exact ⟨st1, h1, by rw [h2, h2a], h3, by rw [h4, h4a], by rw [h5, h4, h4a]⟩

end SimpleTextEditor
